import Mathlib

/-!
Verification of the incremental RDBMS (advent-calendar-2025-my-own-rdbms).

Shallow embedding of the storage, MVCC, locking, aggregation, B-tree and
recovery components, translated from the Rust sources, together with
theorems settling the specification claims.

Conventions:
* Rust `u8`/`u16`/`u32`/`u64` values are modelled as `Nat` with explicit
  `% 2 ^ w` reductions exactly where the source casts or wraps.
* Rust `i32`/`i64` values are modelled as `Int`, with explicit wrapping at
  the points where the source casts (`as i32`, `as i64`, `as u16`).
* Rust `String` values are modelled by their UTF-8 byte lists
  (`List Nat`, every byte `< 256`); `String::from_utf8` applied to bytes
  obtained from a `String` is the identity on the byte list.
* `HashSet` / `HashMap` are modelled as lists (of keys / key-value pairs).
-/

namespace Rdbms

/-! ### day16/src/visibility.rs — MVCC snapshots and tuple visibility -/

/-- Transaction status as recorded by the transaction manager
(`TxnStatus` in `transaction_manager.rs`). -/
inductive TxnStatus where
  | inProgress
  | committed
  | aborted
deriving DecidableEq, Repr

/-- `INVALID_TXN_ID` from `tuple.rs`: the `xmax` sentinel for "not deleted". -/
def INVALID_TXN_ID : Nat := 0

/-- `Snapshot` from `visibility.rs`: database state visible to a transaction. -/
structure Snapshot where
  txn_id : Nat
  xmin : Nat
  xmax : Nat
  active_txns : List Nat
deriving Repr

/-- `is_xmin_visible` from `visibility.rs`: is the creating transaction
visible to the snapshot?  The transaction manager is modelled by its
`get_txn_status` function. -/
def is_xmin_visible (xmin : Nat) (snapshot : Snapshot)
    (get_txn_status : Nat → TxnStatus) : Bool :=
  if xmin = snapshot.txn_id then
    true
  else if snapshot.xmax ≤ xmin then
    false
  else if snapshot.active_txns.contains xmin then
    false
  else
    match get_txn_status xmin with
    | .committed => true
    | .aborted => false
    | .inProgress => false

/-- `is_tuple_visible` from `visibility.rs`. -/
def is_tuple_visible (xmin xmax : Nat) (snapshot : Snapshot)
    (get_txn_status : Nat → TxnStatus) : Bool :=
  if ¬ is_xmin_visible xmin snapshot get_txn_status then
    false
  else if xmax = INVALID_TXN_ID then
    true
  else if xmax = snapshot.txn_id then
    false
  else if snapshot.xmax ≤ xmax then
    true
  else if snapshot.active_txns.contains xmax then
    true
  else
    match get_txn_status xmax with
    | .committed => false
    | .aborted => true
    | .inProgress => true

/-! ### Shared value model (`tuple.rs` / `btree.rs`) -/

/-- `Value` from `tuple.rs` (reused by the B-tree in `btree.rs`).
`Int` payloads are Rust `i32` values, `Varchar` payloads are the UTF-8
byte lists of Rust `String`s. -/
inductive Value where
  | null
  | int (n : Int)
  | varchar (s : List Nat)
  | bool (b : Bool)
deriving DecidableEq, Repr

/-- Wrap an unbounded integer into the `i64` range, as Rust release-mode
`i64` arithmetic does on overflow. -/
def wrap64 (n : Int) : Int := (n + 2 ^ 63) % 2 ^ 64 - 2 ^ 63

/-- Wrap an unbounded integer into the `i32` range (`as i32` in Rust). -/
def wrap32 (n : Int) : Int := (n + 2 ^ 31) % 2 ^ 32 - 2 ^ 31

/-- Rust `Ordering` cast `as i32`: `Less = -1`, `Equal = 0`, `Greater = 1`. -/
def ordToInt : Ordering → Int
  | .lt => -1
  | .eq => 0
  | .gt => 1

/-- Lexicographic comparison of lists given an element comparison;
Rust `String` comparison is this on UTF-8 bytes. -/
def cmpList (cmp : α → α → Ordering) : List α → List α → Ordering
  | [], [] => .eq
  | [], _ :: _ => .lt
  | _ :: _, [] => .gt
  | x :: xs, y :: ys =>
    match cmp x y with
    | .eq => cmpList cmp xs ys
    | o => o

/-! ### Byte encoding helpers -/

/-- Little-endian encoding of `v` into `w` bytes (`to_le_bytes`);
truncates to `v % 256 ^ w` exactly as the Rust integer casts do. -/
def toLE : Nat → Nat → List Nat
  | 0, _ => []
  | w + 1, v => v % 256 :: toLE w (v / 256)

/-- Little-endian decoding of a byte list (`from_le_bytes`). -/
def fromLE (bytes : List Nat) : Nat :=
  bytes.foldr (fun b acc => b + 256 * acc) 0

/-- Two's-complement `u32` image of an `i32` value (`to_le_bytes` of an
`i32` encodes this). -/
def intToU32 (n : Int) : Nat := (n % 2 ^ 32).toNat

/-- The `i32` value read back from a `u32` image (`from_le_bytes`). -/
def u32ToInt (m : Nat) : Int :=
  if m < 2 ^ 31 then (m : Int) else (m : Int) - 2 ^ 32

/-- All bytes of a list are in range. -/
def byteListWF (s : List Nat) : Bool := s.all (· < 256)

/-! ### day19/src/executor/aggregate.rs — streaming aggregation -/

/-- `compare_values` from `aggregate.rs` (`a.cmp(b) as i32`; type
mismatches compare equal there). -/
def compare_values_agg : Value → Value → Int
  | .int a, .int b => ordToInt (compare a b)
  | .varchar a, .varchar b => ordToInt (cmpList compare a b)
  | .bool a, .bool b => ordToInt (compare a b)
  | _, _ => 0

/-- `AggregateAccumulator` from `aggregate.rs`: running state of one
aggregate function.  `count`/`sum` fields are Rust `i64`. -/
inductive AggregateAccumulator where
  | count (count : Int)
  | sum (sum : Int) (has_value : Bool)
  | avg (sum : Int) (count : Int)
  | min (min : Option Value)
  | max (max : Option Value)
deriving DecidableEq, Repr

/-- `AggregateAccumulator::accumulate` from `aggregate.rs`. -/
def AggregateAccumulator.accumulate (acc : AggregateAccumulator)
    (value : Value) : AggregateAccumulator :=
  match acc with
  | .count c => if value ≠ .null then .count (wrap64 (c + 1)) else .count c
  | .sum s hv =>
    match value with
    | .int n => .sum (wrap64 (s + n)) true
    | _ => .sum s hv
  | .avg s c =>
    match value with
    | .int n => .avg (wrap64 (s + n)) (wrap64 (c + 1))
    | _ => .avg s c
  | .min m =>
    if value = .null then .min m
    else
      .min (some (match m with
        | none => value
        | some current =>
          if compare_values_agg value current < 0 then value else current))
  | .max m =>
    if value = .null then .max m
    else
      .max (some (match m with
        | none => value
        | some current =>
          if 0 < compare_values_agg value current then value else current))

/-- `AggregateAccumulator::finalize` from `aggregate.rs`.  Rust truncating
`i64` division (`sum / count`) is `Int.tdiv`; the `as i32` casts are
`wrap32`. -/
def AggregateAccumulator.finalize : AggregateAccumulator → Value
  | .count c => .int (wrap32 c)
  | .sum s hv => if hv then .int (wrap32 s) else .null
  | .avg s c => if 0 < c then .int (wrap32 (Int.tdiv s c)) else .null
  | .min m => m.getD .null
  | .max m => m.getD .null

/-- Whether a `Value` is an `Int` (the values SUM/AVG accumulate). -/
def Value.isInt : Value → Bool
  | .int _ => true
  | _ => false

/-- Number of `Int` values in a group (specification side). -/
def intCount (g : List Value) : Nat :=
  g.countP Value.isInt

/-- `i64`-wrapped sum of the `Int` values of a group (specification side). -/
def intSumWrapped (g : List Value) : Int :=
  g.foldl (fun s v => match v with | .int n => wrap64 (s + n) | _ => s) 0

/-- Number of non-NULL values in a group (specification side). -/
def nonNullCount (g : List Value) : Nat :=
  g.countP (fun v => v ≠ .null)

/-- Concrete aggregation group used by the C6 witness. -/
def aggWitnessGroup : List Value :=
  [Value.int 1, Value.null, Value.int (-2)]

/-! ### day15/src/lock_manager.rs — row locks -/

/-- `LockMode` from `lock_manager.rs`. -/
inductive LockMode where
  | shared
  | exclusive
deriving DecidableEq, Repr

/-- `LockRequest` from `lock_manager.rs`. -/
structure LockRequest where
  txn_id : Nat
  mode : LockMode
deriving DecidableEq, Repr

/-- `LockState` from `lock_manager.rs`: per-RID holders (a `HashMap`
modelled as an association list with distinct keys) and FIFO wait queue
(front first). -/
structure LockState where
  holders : List (Nat × LockMode)
  wait_queue : List LockRequest
deriving DecidableEq, Repr

/-- `HashMap::get` on the holders map. -/
def holdersGet (holders : List (Nat × LockMode)) (txn_id : Nat) :
    Option LockMode :=
  (holders.find? (fun p => p.1 == txn_id)).map Prod.snd

/-- `LockState::is_compatible` from `lock_manager.rs`. -/
def LockState.is_compatible (s : LockState) (mode : LockMode) : Bool :=
  if s.holders.isEmpty then
    true
  else
    match mode with
    | .shared => s.holders.all (fun p => p.2 == LockMode.shared)
    | .exclusive => false

/-- `LockState::can_grant` from `lock_manager.rs`. -/
def LockState.can_grant (s : LockState) (txn_id : Nat) (mode : LockMode) :
    Bool :=
  match holdersGet s.holders txn_id with
  | some held_mode =>
    if held_mode == .exclusive || mode == .shared then true
    else if s.holders.length == 1 then true
    else false
  | none => s.is_compatible mode && s.wait_queue.isEmpty

/-- The immediate-grant decision of `LockManager::lock`: the early return
for an adequate held lock (lines 105–110) followed by the `can_grant`
check (line 113).  `lock` returns without enqueuing or waiting exactly
when this is true. -/
def lockGrantsImmediately (s : LockState) (txn_id : Nat) (mode : LockMode) :
    Bool :=
  match holdersGet s.holders txn_id with
  | some held_mode =>
    if held_mode == .exclusive || mode == .shared then true
    else s.can_grant txn_id mode
  | none => s.can_grant txn_id mode

/-- The timeout branch of `LockManager::lock` (lines 130–137):
`wait_queue.retain(|r| r.txn_id != txn_id)`. -/
def LockState.timeoutCleanup (s : LockState) (txn_id : Nat) : LockState :=
  { s with wait_queue := s.wait_queue.filter (fun r => r.txn_id != txn_id) }

/-- Concrete lock state used by the C5 witness: txn 1 is the sole Shared
holder. -/
def lockWitnessState : LockState :=
  { holders := [(1, LockMode.shared)], wait_queue := [] }

/-- Concrete lock state used by the C10 witness: txn 1 holds Exclusive and
txn 2 waits. -/
def lockWitnessTimeoutState : LockState :=
  { holders := [(1, LockMode.exclusive)],
    wait_queue := [{ txn_id := 2, mode := LockMode.exclusive }] }

/-! ### day18/src/wal.rs and day20/src/recovery.rs — WAL records, analysis -/

/-- `Rid` from `executor.rs`: `(page_id: u32, slot_id: u16)`. -/
structure Rid where
  page_id : Nat
  slot_id : Nat
deriving DecidableEq, Repr

/-- `u32::MAX`, the "no page" sentinel. -/
def U32_MAX : Nat := 2 ^ 32 - 1

/-- `CLRRedo` from `wal.rs` (day18/day20). -/
inductive CLRRedo where
  | undoInsert (rid : Rid)
  | undoDelete (rid : Rid) (old_xmax : Nat)
deriving DecidableEq, Repr

/-- `WalRecordType` from `wal.rs` (day18/day20). -/
inductive WalRecordType where
  | begin
  | commit
  | abort
  | insert (rid : Rid) (data : List Nat)
  | delete (rid : Rid) (xmax : Nat)
  | clr (undo_next_lsn : Nat) (redo : CLRRedo)
  | checkpoint (att : List (Nat × Nat)) (dpt : List (Nat × Nat))
  | allocatePage (page_id table_id prev_page_id : Nat)
deriving DecidableEq, Repr

/-- `WalRecord` from `wal.rs` (day18/day20). -/
structure WalRecord where
  lsn : Nat
  txn_id : Nat
  prev_lsn : Nat
  record_type : WalRecordType
deriving DecidableEq, Repr

/-- `HashMap::insert` on an association-list map (replaces any previous
binding of the key). -/
def mapInsert (m : List (Nat × Nat)) (k v : Nat) : List (Nat × Nat) :=
  (k, v) :: m.filter (fun p => p.1 != k)

/-- `HashMap::remove` on an association-list map. -/
def mapRemove (m : List (Nat × Nat)) (k : Nat) : List (Nat × Nat) :=
  m.filter (fun p => p.1 != k)

/-- `HashMap::entry(k).or_insert(v)` on an association-list map. -/
def mapEntryOrInsert (m : List (Nat × Nat)) (k v : Nat) :
    List (Nat × Nat) :=
  if (m.find? (fun p => p.1 == k)).isSome then m else (k, v) :: m

/-- `HashSet::insert` on a list-backed set. -/
def setInsert (s : List Nat) (x : Nat) : List Nat :=
  if s.contains x then s else x :: s

/-- The mutable state of `RecoveryManager::analyze` from
`day20/src/recovery.rs` (ATT, DPT, outcome sets, running maxima). -/
structure AnalysisState where
  att : List (Nat × Nat)
  dpt : List (Nat × Nat)
  committed_txns : List Nat
  aborted_txns : List Nat
  max_lsn : Nat
  max_txn_id : Nat
deriving DecidableEq, Repr

/-- The initial analysis state (`analyze`, lines 113–118). -/
def AnalysisState.initial : AnalysisState :=
  { att := [], dpt := [], committed_txns := [], aborted_txns := [],
    max_lsn := 0, max_txn_id := 0 }

/-- One iteration of the `analyze` loop (`day20/src/recovery.rs`,
lines 120–173). -/
def analyzeStep (checkpoint_lsn : Option Nat) (st : AnalysisState)
    (record : WalRecord) : AnalysisState :=
  let st := { st with
    max_lsn := max st.max_lsn record.lsn,
    max_txn_id := max st.max_txn_id record.txn_id }
  match record.record_type with
  | .checkpoint ckpt_att ckpt_dpt =>
    if checkpoint_lsn = some record.lsn then
      { st with att := ckpt_att, dpt := ckpt_dpt }
    else st
  | .begin =>
    { st with att := mapInsert st.att record.txn_id record.lsn }
  | .commit =>
    { st with att := mapRemove st.att record.txn_id,
              committed_txns := setInsert st.committed_txns record.txn_id }
  | .abort =>
    { st with att := mapRemove st.att record.txn_id,
              aborted_txns := setInsert st.aborted_txns record.txn_id }
  | .insert rid _ =>
    { st with att := mapInsert st.att record.txn_id record.lsn,
              dpt := mapEntryOrInsert st.dpt rid.page_id record.lsn }
  | .delete rid _ =>
    { st with att := mapInsert st.att record.txn_id record.lsn,
              dpt := mapEntryOrInsert st.dpt rid.page_id record.lsn }
  | .clr _ redo =>
    let page_id :=
      match redo with
      | .undoInsert rid => rid.page_id
      | .undoDelete rid _ => rid.page_id
    { st with att := mapInsert st.att record.txn_id record.lsn,
              dpt := mapEntryOrInsert st.dpt page_id record.lsn }
  | .allocatePage page_id _ prev_page_id =>
    let st := { st with
      att := mapInsert st.att record.txn_id record.lsn,
      dpt := mapEntryOrInsert st.dpt page_id record.lsn }
    if prev_page_id ≠ U32_MAX then
      { st with dpt := mapEntryOrInsert st.dpt prev_page_id record.lsn }
    else st

/-- `RecoveryManager::analyze` from `day20/src/recovery.rs`. -/
def analyze (wal_records : List WalRecord) (checkpoint_lsn : Option Nat) :
    AnalysisState :=
  wal_records.foldl (analyzeStep checkpoint_lsn) AnalysisState.initial

/-- The `next_txn_id` restoration of `RecoveryManager::recover`
(`day20/src/recovery.rs`, lines 43–50 and 88–91): with no WAL records the
checkpoint value is adopted when positive; otherwise
`set_next_txn_id(max(analysis.max_txn_id, checkpoint.next_txn_id).max(1))`
is called — note: no `+ 1`.  `current` is the transaction manager's
prior counter value (1 at start-up). -/
def recoverNextTxnId (wal_records : List WalRecord)
    (checkpoint_lsn : Option Nat) (checkpoint_next_txn_id : Nat)
    (current : Nat) : Nat :=
  if wal_records.isEmpty then
    if 0 < checkpoint_next_txn_id then checkpoint_next_txn_id else current
  else
    max (max (analyze wal_records checkpoint_lsn).max_txn_id
          checkpoint_next_txn_id) 1

/-- `TransactionManager::begin` from `day16/src/transaction_manager.rs`:
`fetch_add` returns the allocated id and the incremented counter. -/
def tmBegin (next_txn_id : Nat) : Nat × Nat :=
  (next_txn_id, next_txn_id + 1)

/-- The C3 failing input: a WAL holding a single Begin record of
transaction 5, no checkpoint. -/
def c3FailingRecord : WalRecord :=
  { lsn := 1, txn_id := 5, prev_lsn := 0, record_type := .begin }

/-! ### day19/src/btree.rs — `IndexKey` serialisation -/

/-- `IndexKey` from `btree.rs`: a composite key, `IndexKey(pub Vec<Value>)`. -/
structure IndexKey where
  values : List Value
deriving DecidableEq, Repr

/-- The per-value body of `IndexKey::serialize`: a type tag followed by
the payload.  The Varchar length is written as a `u16`
(`bytes.len() as u16`), so it is truncated modulo `2 ^ 16`. -/
def serializeValueIK : Value → List Nat
  | .null => [0]
  | .int n => 1 :: toLE 4 (intToU32 n)
  | .varchar s => 2 :: (toLE 2 s.length ++ s)
  | .bool b => [3, if b then 1 else 0]

/-- `IndexKey::serialize` from `btree.rs`: a count byte
(`len as u8`, truncated modulo 256) followed by the serialised values. -/
def IndexKey.serialize (k : IndexKey) : List Nat :=
  k.values.length % 256 :: k.values.flatMap serializeValueIK

/-- One value step of `IndexKey::deserialize`: reads the tag and the
payload, returning the value and the remaining bytes (the positional
parsing of the source in consumption style).  An unknown tag yields
`Null` without consuming payload, as in the source. -/
def deserializeValueIK (data : List Nat) : Value × List Nat :=
  match data with
  | [] => (Value.null, [])
  | tag :: rest =>
    if tag = 0 then (Value.null, rest)
    else if tag = 1 then
      (Value.int (u32ToInt (fromLE (rest.take 4))), rest.drop 4)
    else if tag = 2 then
      let len := fromLE (rest.take 2)
      (Value.varchar ((rest.drop 2).take len), (rest.drop 2).drop len)
    else if tag = 3 then
      (Value.bool (rest.headD 0 ≠ 0), rest.drop 1)
    else (Value.null, rest)

/-- The count-driven loop of `IndexKey::deserialize`. -/
def deserializeValuesIK : Nat → List Nat → List Value
  | 0, _ => []
  | n + 1, data =>
    let step := deserializeValueIK data
    step.1 :: deserializeValuesIK n step.2

/-- `IndexKey::deserialize` from `btree.rs`. -/
def IndexKey.deserialize (data : List Nat) : IndexKey :=
  match data with
  | [] => ⟨[]⟩
  | count :: rest => ⟨deserializeValuesIK count rest⟩

/-- Well-formedness needed for the (amended) round trip: fewer than 256
values, `i32`-ranged Int payloads, and Varchar payloads of genuine bytes
shorter than `2 ^ 16` (the `u16` length prefix). -/
def valueWFIK : Value → Bool
  | .null => true
  | .int n => decide (-(2 ^ 31) ≤ n ∧ n < 2 ^ 31)
  | .varchar s => byteListWF s && decide (s.length < 2 ^ 16)
  | .bool _ => true

/-- Well-formedness of a whole `IndexKey` (see `valueWFIK`). -/
def IndexKey.wfIK (k : IndexKey) : Bool :=
  decide (k.values.length < 256) && k.values.all valueWFIK

/-- The C7 counterexample key: one Varchar value of exactly `2 ^ 16`
bytes, whose `u16` length prefix wraps to 0. -/
def c7BadKey : IndexKey := ⟨[.varchar (List.replicate 65536 97)]⟩

/-! ### day14/src/tuple.rs — MVCC tuple serialisation -/

/-- `DataType` from `tuple.rs`. -/
inductive DataType where
  | int
  | varchar
  | bool
deriving DecidableEq, Repr

/-- `serialize_value` from `tuple.rs`: Int = 4 bytes, Varchar = 4-byte
length prefix (`len as u32`) + bytes, Bool = 1 byte, Null = nothing. -/
def serialize_value : Value → List Nat
  | .null => []
  | .int n => toLE 4 (intToU32 n)
  | .varchar s => toLE 4 s.length ++ s
  | .bool b => [if b then 1 else 0]

/-- `null_bitmap_size` from `tuple.rs`: `ceil(num_columns / 8)`. -/
def null_bitmap_size (num_columns : Nat) : Nat := (num_columns + 7) / 8

/-- One `bitmap[i / 8] |= 1 << (i % 8)` step of `serialize_tuple`. -/
def setBitA (bytes : List Nat) (i : Nat) : List Nat :=
  bytes.set (i / 8) ((bytes.getD (i / 8) 0) ||| 2 ^ (i % 8))

/-- The `for (i, value) in values.iter().enumerate()` loop of
`serialize_tuple` setting the null-bitmap bits (bit set = value present,
i.e. not NULL). -/
def buildBitmapGo (bm : List Nat) (i : Nat) : List Value → List Nat
  | [] => bm
  | v :: vs =>
    buildBitmapGo (if v ≠ Value.null then setBitA bm i else bm) (i + 1) vs

/-- The null bitmap of `serialize_tuple`. -/
def buildBitmap (values : List Value) : List Nat :=
  buildBitmapGo (List.replicate (null_bitmap_size values.length) 0) 0 values

/-- `serialize_tuple` from `tuple.rs`: null bitmap then the value bodies. -/
def serialize_tuple (values : List Value) : List Nat :=
  buildBitmap values ++ values.flatMap serialize_value

/-- `deserialize_value` from `tuple.rs`: reads one value of the given
type, returning it together with the number of bytes consumed.  `none`
models the Rust panic/error on truncated input. -/
def deserialize_value (data : List Nat) (data_type : DataType)
    (is_null : Bool) : Option (Value × Nat) :=
  if is_null then some (Value.null, 0)
  else
    match data_type with
    | .int =>
      if 4 ≤ data.length then
        some (.int (u32ToInt (fromLE (data.take 4))), 4)
      else none
    | .varchar =>
      if 4 ≤ data.length then
        if 4 + fromLE (data.take 4) ≤ data.length then
          some (.varchar ((data.drop 4).take (fromLE (data.take 4))),
            4 + fromLE (data.take 4))
        else none
      else none
    | .bool =>
      if 1 ≤ data.length then some (.bool (data.headD 0 ≠ 0), 1) else none

/-- The per-column loop of `deserialize_tuple` (`tuple.rs`, lines
104–110): `i` is the column ordinal, `data` the bytes from the current
offset, `bitmap` the null bitmap read from the front of the tuple.
A schema is modelled by its column `data_type` list (names are not
consulted). -/
def deserializeColumns (bitmap : List Nat) :
    List Nat → Nat → List DataType → Option (List Value)
  | _, _, [] => some []
  | data, i, dt :: rest =>
    let is_null := (bitmap.getD (i / 8) 0) &&& 2 ^ (i % 8) = 0
    match deserialize_value data dt is_null with
    | none => none
    | some (v, len) =>
      match deserializeColumns bitmap (data.drop len) (i + 1) rest with
      | none => none
      | some vs => some (v :: vs)

/-- `deserialize_tuple` from `tuple.rs`. -/
def deserialize_tuple (data : List Nat) (schema : List DataType) :
    Option (List Value) :=
  deserializeColumns (data.take (null_bitmap_size schema.length))
    (data.drop (null_bitmap_size schema.length)) 0 schema

/-- `serialize_tuple_mvcc` from `tuple.rs`:
`[xmin:8][xmax:8][bitmap][values]`. -/
def serialize_tuple_mvcc (xmin xmax : Nat) (values : List Value) :
    List Nat :=
  toLE 8 xmin ++ toLE 8 xmax ++ serialize_tuple values

/-- `deserialize_tuple_mvcc` from `tuple.rs`. -/
def deserialize_tuple_mvcc (data : List Nat) (schema : List DataType) :
    Option (Nat × Nat × List Value) :=
  if data.length < 16 then none
  else
    match deserialize_tuple (data.drop 16) schema with
    | none => none
    | some values =>
      some (fromLE (data.take 8), fromLE ((data.drop 8).take 8), values)

/-- A value conforms to a column type when it is NULL or matches the type
with representable payload (`i32` range; Varchar genuine bytes, shorter
than the `u32` length prefix allows). -/
def conformsTo : Value → DataType → Bool
  | .null, _ => true
  | .int n, .int => decide (-(2 ^ 31) ≤ n ∧ n < 2 ^ 31)
  | .varchar s, .varchar => byteListWF s && decide (s.length < 2 ^ 32)
  | .bool _, .bool => true
  | _, _ => false

/-- A tuple conforms to a schema: same arity, each value conforming. -/
def tupleConforms (values : List Value) (schema : List DataType) : Bool :=
  decide (values.length = schema.length) &&
    (values.zip schema).all (fun p => conformsTo p.1 p.2)

/-- Concrete inputs for the C7 witness. -/
def c7WitnessKey : IndexKey :=
  ⟨[.int (-7), .varchar [104, 105], .bool true, .null]⟩

/-- Concrete schema for the C7 witness. -/
def c7WitnessSchema : List DataType := [.int, .varchar, .bool, .int]

/-- Concrete values for the C7 witness. -/
def c7WitnessValues : List Value :=
  [.int 42, .varchar [120], .bool false, .null]

/-! ### day15/src/page.rs — slotted heap page

The page's byte array is modelled as a total function `Nat → Nat`; only
indices below `PAGE_SIZE` are ever read.  `u16` header fields are stored
little-endian through `set16`/`get16`, exactly as
`to_ne_bytes`/`from_ne_bytes` do byte-wise. -/

/-- `PAGE_SIZE` from `day15/src/page.rs` (64, the test configuration). -/
def PAGE_SIZE : Nat := 64

/-- `HEADER_SIZE` from `page.rs`. -/
def HEADER_SIZE : Nat := 8

/-- `SLOT_SIZE` from `page.rs`. -/
def SLOT_SIZE : Nat := 4

/-- Write one byte. -/
def setByte (d : Nat → Nat) (i b : Nat) : Nat → Nat :=
  fun j => if j = i then b else d j

/-- Write a `u16` little-endian (`copy_from_slice(&v.to_ne_bytes())`). -/
def set16 (d : Nat → Nat) (i v : Nat) : Nat → Nat :=
  setByte (setByte d i (v % 256)) (i + 1) (v / 256 % 256)

/-- Read a `u16` little-endian (`u16::from_ne_bytes`). -/
def get16 (d : Nat → Nat) (i : Nat) : Nat :=
  d i + 256 * d (i + 1)

/-- Write a byte list starting at index `i` (`copy_from_slice`). -/
def writeBytes (d : Nat → Nat) (i : Nat) : List Nat → (Nat → Nat)
  | [] => d
  | b :: bs => writeBytes (setByte d i b) (i + 1) bs

/-- Read `n` bytes starting at index `i` (a byte slice). -/
def readBytes (d : Nat → Nat) (i n : Nat) : List Nat :=
  (List.range n).map (fun k => d (i + k))

/-- `Page` from `day15/src/page.rs`. -/
structure HeapPage where
  data : Nat → Nat
  page_lsn : Nat

/-- `Page::tuple_count`. -/
def HeapPage.tuple_count (p : HeapPage) : Nat := get16 p.data 4

/-- `Page::free_space_offset`. -/
def HeapPage.free_space_offset (p : HeapPage) : Nat := get16 p.data 6

/-- `Page::get_slot`: `(offset, length)` of a slot. -/
def HeapPage.get_slot (p : HeapPage) (slot_id : Nat) : Nat × Nat :=
  (get16 p.data (HEADER_SIZE + slot_id * SLOT_SIZE),
   get16 p.data (HEADER_SIZE + slot_id * SLOT_SIZE + 2))

/-- `Page::set_slot`. -/
def HeapPage.set_slot (p : HeapPage) (slot_id offset length : Nat) :
    HeapPage :=
  { p with data := set16 (set16 p.data (HEADER_SIZE + slot_id * SLOT_SIZE)
      offset) (HEADER_SIZE + slot_id * SLOT_SIZE + 2) length }

/-- `Page::set_tuple_count`. -/
def HeapPage.set_tuple_count (p : HeapPage) (count : Nat) : HeapPage :=
  { p with data := set16 p.data 4 count }

/-- `Page::set_free_space_offset`. -/
def HeapPage.set_free_space_offset (p : HeapPage) (offset : Nat) :
    HeapPage :=
  { p with data := set16 p.data 6 offset }

/-- `Page::new`: zeroed data, `page_id` bytes, `tuple_count = 0`,
`free_space_offset = PAGE_SIZE`. -/
def HeapPage.new (page_id : Nat) : HeapPage :=
  let d0 : Nat → Nat := fun _ => 0
  let d1 := writeBytes d0 0 (toLE 4 page_id)
  { data := set16 (set16 d1 4 0) 6 PAGE_SIZE, page_lsn := 0 }

/-- `Page::free_space`: `free_space_offset - slots_end` (`usize`
subtraction; the invariant keeps it non-negative). -/
def HeapPage.free_space (p : HeapPage) : Nat :=
  p.free_space_offset - (HEADER_SIZE + p.tuple_count * SLOT_SIZE)

/-- `Page::insert`: append the body in the tail region and take a fresh
slot; `none` models the `NoSpace` error (no mutation happens first). -/
def HeapPage.insert (p : HeapPage) (tuple_data : List Nat) :
    Option (HeapPage × Nat) :=
  let tuple_len := tuple_data.length
  let required := tuple_len + SLOT_SIZE
  if p.free_space < required then none
  else
    let new_offset := p.free_space_offset - tuple_len
    let slot_id := p.tuple_count
    let p1 : HeapPage :=
      { p with data := writeBytes p.data new_offset tuple_data }
    let p2 := p1.set_slot slot_id new_offset (tuple_len % 2 ^ 16)
    let p3 := p2.set_tuple_count (slot_id + 1)
    let p4 := p3.set_free_space_offset new_offset
    some (p4, slot_id)

/-- `Page::get_tuple`: the byte slice iff the slot exists with
length > 0. -/
def HeapPage.get_tuple (p : HeapPage) (slot_id : Nat) : Option (List Nat) :=
  if p.tuple_count ≤ slot_id then none
  else
    let sl := p.get_slot slot_id
    if sl.2 = 0 then none
    else some (readBytes p.data sl.1 sl.2)

/-- `Page::delete`: set the slot length to 0; errors leave the page
untouched. -/
def HeapPage.delete (p : HeapPage) (slot_id : Nat) : Option HeapPage :=
  if p.tuple_count ≤ slot_id then none
  else
    let sl := p.get_slot slot_id
    if sl.2 = 0 then none
    else some (p.set_slot slot_id sl.1 0)

/-- `Page::restore`: re-populate a deleted slot (`data.len() as u16`). -/
def HeapPage.restore (p : HeapPage) (slot_id : Nat) (data : List Nat) :
    Option HeapPage :=
  if p.tuple_count ≤ slot_id then none
  else
    let sl := p.get_slot slot_id
    if sl.2 ≠ 0 then none
    else
      let p1 : HeapPage := { p with data := writeBytes p.data sl.1 data }
      some (p1.set_slot slot_id sl.1 (data.length % 2 ^ 16))

/-- `Page::set_tuple_xmax`: overwrite bytes `[offset+8, offset+16)` of a
live tuple. -/
def HeapPage.set_tuple_xmax (p : HeapPage) (slot_id xmax : Nat) :
    Option HeapPage :=
  if p.tuple_count ≤ slot_id then none
  else
    let sl := p.get_slot slot_id
    if sl.2 = 0 then none
    else if sl.2 < 16 then none
    else some { p with data := writeBytes p.data (sl.1 + 8) (toLE 8 xmax) }

/-- A heap-page operation (C9 quantifies over sequences of these). -/
inductive PageOp where
  | ins (bytes : List Nat)
  | del (slot_id : Nat)
  | res (slot_id : Nat) (bytes : List Nat)
  | setXmax (slot_id : Nat) (xmax : Nat)

/-- Apply one operation; a failing operation leaves the page unchanged
(each `Page` method checks all its error conditions before mutating). -/
def applyOp (p : HeapPage) : PageOp → HeapPage
  | .ins bytes =>
    match p.insert bytes with
    | some (q, _) => q
    | none => p
  | .del slot_id =>
    match p.delete slot_id with
    | some q => q
    | none => p
  | .res slot_id bytes =>
    match p.restore slot_id bytes with
    | some q => q
    | none => p
  | .setXmax slot_id xmax =>
    match p.set_tuple_xmax slot_id xmax with
    | some q => q
    | none => p

/-- Run a sequence of operations from a page. -/
def runOps (p : HeapPage) (ops : List PageOp) : HeapPage :=
  ops.foldl applyOp p

/-- The length field of a slot. -/
def slotLen (p : HeapPage) (s : Nat) : Nat := (p.get_slot s).2

/-- The offset field of a slot. -/
def slotOff (p : HeapPage) (s : Nat) : Nat := (p.get_slot s).1

/-- Whether an operation is `restore` of the given slot. -/
def PageOp.isRestoreOf : PageOp → Nat → Bool
  | .res s _, t => s == t
  | _, _ => false

/-- The inductive page invariant: slot-array end below the free-space
offset, offset within the page, and every slot body at or above the
free-space offset with a representable offset value. -/
def PageInv (p : HeapPage) : Prop :=
  HEADER_SIZE + p.tuple_count * SLOT_SIZE ≤ p.free_space_offset ∧
  p.free_space_offset ≤ PAGE_SIZE ∧
  ∀ s, s < p.tuple_count →
    p.free_space_offset ≤ slotOff p s ∧ slotOff p s ≤ PAGE_SIZE

/-- Concrete operation sequence for the C9 witness. -/
def c9WitnessOps : List PageOp := [.ins (List.replicate 16 7)]

/-- Concrete follow-up operations for the C9 witness. -/
def c9WitnessMore : List PageOp := [.setXmax 0 9, .ins [1, 2, 3]]

/-! ### day08/src/buffer_pool.rs — eviction and flushing

`BufferPoolManager::evict` and `::flush_all` are transcribed over an
explicit state.  The WAL manager's flushed position (`flushed_lsn`,
`day11/src/wal.rs`) is carried alongside so the WAL-before-data claim can
be stated; the day08 buffer pool itself holds no reference to a WAL.
Each disk write is also recorded as a `PageWriteEvent` capturing the
page's `page_lsn` and the WAL flushed position at the moment of the
write. -/

/-- One page write performed by the buffer pool. -/
structure PageWriteEvent where
  page_id : Nat
  page_lsn : Nat
  wal_flushed_at_write : Nat
deriving DecidableEq, Repr

/-- `Frame` from `day08/src/buffer_pool.rs`. -/
structure Frame where
  page : HeapPage
  page_id : Option Nat
  pin_count : Nat
  is_dirty : Bool

/-- `BufferPoolManager` state from `day08/src/buffer_pool.rs`, together
with the disk image, the WAL flushed position, and the write log. -/
structure BufferPoolManager where
  frames : List Frame
  page_table : List (Nat × Nat)
  disk : Nat → (Nat → Nat)
  wal_flushed_lsn : Nat
  writes : List PageWriteEvent

/-- `BufferPoolManager::evict` (`day08/src/buffer_pool.rs`, lines
99–116): write the page to disk when dirty — with no WAL flush — then
clear the frame. -/
def BufferPoolManager.evict (bp : BufferPoolManager) (frame_id : Nat) :
    BufferPoolManager :=
  match bp.frames.get? frame_id with
  | none => bp
  | some frame =>
    let bp1 :=
      match frame.page_id with
      | some old_page_id =>
        let bp2 :=
          if frame.is_dirty then
            { bp with
              disk := fun pg =>
                if pg = old_page_id then frame.page.data else bp.disk pg,
              writes := bp.writes ++
                [PageWriteEvent.mk old_page_id frame.page.page_lsn
                  bp.wal_flushed_lsn] }
          else bp
        { bp2 with page_table := mapRemove bp2.page_table old_page_id }
      | none => bp
    { bp1 with frames :=
        bp1.frames.set frame_id (⟨frame.page, none, 0, false⟩ : Frame) }

/-- The loop body of `BufferPoolManager::flush_all` (lines 212–225): for
each table entry, write the frame to disk if dirty — again with no WAL
flush — and clear the dirty flag. -/
def flushAllGo (bp : BufferPoolManager) :
    List (Nat × Nat) → BufferPoolManager
  | [] => bp
  | (page_id, frame_id) :: rest =>
    let bp1 :=
      match bp.frames.get? frame_id with
      | none => bp
      | some frame =>
        if frame.is_dirty then
          { bp with
            disk := fun pg =>
              if pg = page_id then frame.page.data else bp.disk pg,
            writes := bp.writes ++
              [⟨page_id, frame.page.page_lsn, bp.wal_flushed_lsn⟩],
            frames := bp.frames.set frame_id { frame with is_dirty := false } }
        else bp
    flushAllGo bp1 rest

/-- `BufferPoolManager::flush_all`. -/
def BufferPoolManager.flush_all (bp : BufferPoolManager) :
    BufferPoolManager :=
  flushAllGo bp bp.page_table

/-- The C2 counterexample state: one dirty cached page (id 1) whose
`page_lsn` is 5 while the WAL flushed position is 0. -/
def c2State : BufferPoolManager :=
  { frames := [{ page := { data := fun _ => 0, page_lsn := 5 },
                 page_id := some 1, pin_count := 0, is_dirty := true }],
    page_table := [(1, 0)],
    disk := fun _ => fun _ => 0,
    wal_flushed_lsn := 0,
    writes := [] }

/-! ### day15/src/lock_manager.rs — `unlock_all` / `grant_waiting_locks` -/

/-- `HashMap::insert` on the holders map. -/
def holdersInsert (holders : List (Nat × LockMode)) (txn_id : Nat)
    (mode : LockMode) : List (Nat × LockMode) :=
  (txn_id, mode) :: holders.filter (fun p => p.1 != txn_id)

/-- `HashMap::remove` on the holders map. -/
def holdersRemove (holders : List (Nat × LockMode)) (txn_id : Nat) :
    List (Nat × LockMode) :=
  holders.filter (fun p => p.1 != txn_id)

/-- The `while` loop of `LockManager::grant_waiting_locks`
(`day15/src/lock_manager.rs`, lines 160–190): scan the FIFO queue,
granting whatever `can_grant` allows, skipping ungrantable Shared
requests, and stopping at the first ungrantable Exclusive request.
Returns the remaining queue and the updated holders. -/
def grantWaitingGo : List LockRequest → List (Nat × LockMode) →
    List LockRequest × List (Nat × LockMode)
  | [], holders => ([], holders)
  | r :: rest, holders =>
    let can_grant :=
      if holders.isEmpty then true
      else
        match r.mode with
        | .shared => holders.all (fun p => p.2 == LockMode.shared)
        | .exclusive =>
          holders.length == 1 && holders.any (fun p => p.1 == r.txn_id)
    if can_grant then grantWaitingGo rest (holdersInsert holders r.txn_id r.mode)
    else if r.mode == LockMode.exclusive then (r :: rest, holders)
    else
      let res := grantWaitingGo rest holders
      (r :: res.1, res.2)

/-- `LockManager::grant_waiting_locks`. -/
def grant_waiting_locks (state : LockState) : LockState :=
  let res := grantWaitingGo state.wait_queue state.holders
  { holders := res.2, wait_queue := res.1 }

/-- The lock table (`HashMap<Rid, LockState>`) as an association list. -/
def lockTableGet (table : List (Rid × LockState)) (rid : Rid) :
    Option LockState :=
  (table.find? (fun p => p.1 == rid)).map Prod.snd

/-- `HashMap::insert` on the lock table. -/
def lockTableSet (table : List (Rid × LockState)) (rid : Rid)
    (st : LockState) : List (Rid × LockState) :=
  (rid, st) :: table.filter (fun p => p.1 != rid)

/-- `HashMap::remove` on the lock table. -/
def lockTableRemove (table : List (Rid × LockState)) (rid : Rid) :
    List (Rid × LockState) :=
  table.filter (fun p => p.1 != rid)

/-- `LockManager::unlock_all` (`day15/src/lock_manager.rs`, lines
142–158): for each held RID, remove the transaction from the holders,
grant waiting requests, and drop the entry if it became empty. -/
def unlock_all (table : List (Rid × LockState)) (txn_id : Nat)
    (held_locks : List Rid) : List (Rid × LockState) :=
  held_locks.foldl
    (fun table rid =>
      match lockTableGet table rid with
      | none => table
      | some st =>
        let st1 := { st with holders := holdersRemove st.holders txn_id }
        let st2 := grant_waiting_locks st1
        if st2.holders.isEmpty && st2.wait_queue.isEmpty then
          lockTableRemove table rid
        else lockTableSet table rid st2)
    table

/-! ### day12 — WAL manager, transactions and COMMIT/ROLLBACK

`day12/src/wal.rs`, `day12/src/transaction.rs` and the transaction-control
arms of `Instance::execute_sql` (`day12/src/instance.rs`, lines 282–311).
day12 has no CLOG: commit durability is the flushed Commit WAL record, so
the claim's "no CLOG entry is written" is vacuous in this snapshot. -/

namespace Day12

/-- `CLRRedo` from `day12/src/wal.rs`. -/
inductive CLRRedo where
  | undoInsert (rid : Rid)
  | undoDelete (rid : Rid) (data : List Nat)
deriving DecidableEq, Repr

/-- `WalRecordType` from `day12/src/wal.rs` (note: `Delete` carries the
deleted data, unlike day18's record set). -/
inductive WalRecordType where
  | begin
  | commit
  | abort
  | insert (rid : Rid) (data : List Nat)
  | delete (rid : Rid) (data : List Nat)
  | clr (undo_next_lsn : Nat) (redo : CLRRedo)
deriving DecidableEq, Repr

/-- `WalRecord` from `day12/src/wal.rs`. -/
structure WalRecord where
  lsn : Nat
  txn_id : Nat
  prev_lsn : Nat
  record_type : WalRecordType
deriving DecidableEq, Repr

/-- `WalManager` state from `day12/src/wal.rs`: the LSN counters and the
sequence of appended records (buffer and file together). -/
structure WalManager where
  current_lsn : Nat
  flushed_lsn : Nat
  records : List WalRecord
deriving DecidableEq, Repr

/-- `WalManager::new`: `current_lsn` starts at 1 (0 means invalid). -/
def WalManager.new : WalManager :=
  { current_lsn := 1, flushed_lsn := 0, records := [] }

/-- `WalManager::append` (lines 159–179): allocate the LSN and buffer the
record; returns the record's LSN. -/
def WalManager.append (w : WalManager) (txn_id prev_lsn : Nat)
    (record_type : WalRecordType) : Nat × WalManager :=
  (w.current_lsn,
   { w with
     current_lsn := w.current_lsn + 1,
     records := w.records ++
       [⟨w.current_lsn, txn_id, prev_lsn, record_type⟩] })

/-- `WalManager::flush` (lines 181–190): make everything durable and set
`flushed_lsn := current_lsn - 1`. -/
def WalManager.flush (w : WalManager) : WalManager :=
  { w with flushed_lsn := w.current_lsn - 1 }

/-- `TransactionState` from `day12/src/transaction.rs`. -/
inductive TransactionState where
  | inactive
  | active
deriving DecidableEq, Repr

/-- `UndoLogEntry` from `day12/src/transaction.rs`. -/
inductive UndoLogEntry where
  | insert (lsn prev_lsn : Nat) (rid : Rid) (data : List Nat)
  | delete (lsn prev_lsn : Nat) (rid : Rid) (data : List Nat)
deriving DecidableEq, Repr

/-- `Transaction` from `day12/src/transaction.rs` (`held_locks` is a
`HashSet<Rid>`, modelled as a list). -/
structure Transaction where
  id : Nat
  state : TransactionState
  undo_log : List UndoLogEntry
  held_locks : List Rid
  last_lsn : Nat
deriving DecidableEq, Repr

/-- `Transaction::is_active`. -/
def Transaction.is_active (t : Transaction) : Bool :=
  t.state == TransactionState.active

/-- `Transaction::commit`. -/
def Transaction.commit (t : Transaction) : Transaction :=
  { t with undo_log := [], state := .inactive, last_lsn := 0 }

/-- `Transaction::take_undo_log`: deactivates and hands the log over. -/
def Transaction.take_undo_log (t : Transaction) :
    List UndoLogEntry × Transaction :=
  (t.undo_log, { t with state := .inactive, last_lsn := 0, undo_log := [] })

/-- `Transaction::take_held_locks`. -/
def Transaction.take_held_locks (t : Transaction) :
    List Rid × Transaction :=
  (t.held_locks, { t with held_locks := [] })

/-- Point update of the heap-page store. -/
def updatePage (pages : Nat → HeapPage) (pid : Nat) (p : HeapPage) :
    Nat → HeapPage :=
  fun i => if i = pid then p else pages i

/-- Modelled from the spec: the loop of `ExecutionEngine::perform_rollback`
(day12's `executor.rs` is not under `src/`). Walk the undo log in reverse:
an `Insert` entry is compensated by deleting the RID and a `Delete` entry
by restoring the data, each followed by a CLR whose `undo_next_lsn` is the
entry's `prev_lsn`; the page's `page_lsn` is set to the CLR's LSN and the
transaction's last LSN advances to it. A failing page operation aborts
the rollback (`?` propagation). -/
def performRollbackGo (txn_id : Nat) :
    List UndoLogEntry → (Nat → HeapPage) → WalManager → Nat →
    Option ((Nat → HeapPage) × WalManager × Nat)
  | [], pages, wal, last_lsn => some (pages, wal, last_lsn)
  | .insert _ prev_lsn rid _ :: rest, pages, wal, last_lsn =>
    match (pages rid.page_id).delete rid.slot_id with
    | none => none
    | some page1 =>
      let ap := wal.append txn_id last_lsn (.clr prev_lsn (.undoInsert rid))
      performRollbackGo txn_id rest
        (updatePage pages rid.page_id { page1 with page_lsn := ap.1 })
        ap.2 ap.1
  | .delete _ prev_lsn rid data :: rest, pages, wal, last_lsn =>
    match (pages rid.page_id).restore rid.slot_id data with
    | none => none
    | some page1 =>
      let ap := wal.append txn_id last_lsn
        (.clr prev_lsn (.undoDelete rid data))
      performRollbackGo txn_id rest
        (updatePage pages rid.page_id { page1 with page_lsn := ap.1 })
        ap.2 ap.1

/-- Modelled from the spec: `ExecutionEngine::perform_rollback` undoes the
entries newest first and returns the new last LSN. -/
def performRollback (pages : Nat → HeapPage) (wal : WalManager)
    (txn_id : Nat) (undo_log : List UndoLogEntry) (last_lsn : Nat) :
    Option ((Nat → HeapPage) × WalManager × Nat) :=
  performRollbackGo txn_id undo_log.reverse pages wal last_lsn

/-- `ExecuteResult` variants relevant to transaction control. -/
inductive ExecuteResult where
  | begin
  | commit
  | rollback
deriving DecidableEq, Repr

/-- The state touched by the transaction-control arms of
`Instance::execute_sql`: the connection's transaction, the WAL manager,
the shared lock table and the heap pages. -/
structure InstanceState where
  txn : Transaction
  wal : WalManager
  lock_table : List (Rid × LockState)
  pages : Nat → HeapPage

/-- The `anyhow::bail!` message of both guards. -/
def noTxnError : String := "there is no transaction in progress"

/-- A rollback failure propagated by `?`. -/
def rollbackFailedError : String := "rollback failed"

/-- The `Statement::Commit` arm of `Instance::execute_sql`
(`day12/src/instance.rs`, lines 282–294): bail when no transaction is
active; otherwise append Commit, flush, release locks, commit. -/
def executeCommitStmt (s : InstanceState) :
    Except String ExecuteResult × InstanceState :=
  if !s.txn.is_active then
    (.error noTxnError, s)
  else
    let ap := s.wal.append s.txn.id s.txn.last_lsn .commit
    let wal2 := ap.2.flush
    let tk := s.txn.take_held_locks
    let table2 := unlock_all s.lock_table s.txn.id tk.1
    (.ok .commit,
     { s with txn := tk.2.commit, wal := wal2, lock_table := table2 })

/-- The `Statement::Rollback` arm of `Instance::execute_sql`
(`day12/src/instance.rs`, lines 295–311): bail when no transaction is
active; otherwise take the undo log, perform the rollback, append Abort,
flush, release locks. On a rollback failure the error propagates (`?`);
the model returns the pre-rollback pages and WAL in that branch, which no
theorem below relies on. -/
def executeRollbackStmt (s : InstanceState) :
    Except String ExecuteResult × InstanceState :=
  if !s.txn.is_active then
    (.error noTxnError, s)
  else
    let tu := s.txn.take_undo_log
    match performRollback s.pages s.wal s.txn.id tu.1 s.txn.last_lsn with
    | none => (.error rollbackFailedError, { s with txn := tu.2 })
    | some (pages2, wal2, new_last_lsn) =>
      let ap := wal2.append s.txn.id new_last_lsn .abort
      let wal3 := ap.2.flush
      let tk := tu.2.take_held_locks
      let table2 := unlock_all s.lock_table s.txn.id tk.1
      (.ok .rollback,
       { txn := tk.2, wal := wal3, lock_table := table2, pages := pages2 })

/-- Concrete inactive-transaction state for the C8 witness. -/
def c8State : InstanceState :=
  { txn := { id := 0, state := .inactive, undo_log := [],
             held_locks := [], last_lsn := 0 },
    wal := WalManager.new,
    lock_table := [],
    pages := fun pid => HeapPage.new pid }

end Day12

/-! ### day19/src/btree.rs — key comparison

`compare_values` (lines 128–142), `IndexKey::cmp` (lines 115–125), the
derived `Ord` on `Rid` and the `(key, rid)` entry order used by the leaf
nodes. -/

/-- Rust `Ord::cmp` on naturals (`u16`/`u32`/`usize`). -/
def cmpN (a b : Nat) : Ordering :=
  if a < b then .lt else if b < a then .gt else .eq

/-- Rust `Ord::cmp` on `i32`. -/
def cmpI (a b : Int) : Ordering :=
  if a < b then .lt else if b < a then .gt else .eq

/-- Rust `Ord::cmp` on `bool`: `false < true`. -/
def cmpB : Bool → Bool → Ordering
  | false, true => .lt
  | true, false => .gt
  | _, _ => .eq

/-- `compare_values` from `btree.rs`: natural order within a type,
`Null < Int < Varchar < Bool` across types (arms in source order). -/
def compare_values : Value → Value → Ordering
  | .null, .null => .eq
  | .null, _ => .lt
  | _, .null => .gt
  | .int a, .int b => cmpI a b
  | .varchar a, .varchar b => cmpList cmpN a b
  | .bool a, .bool b => cmpB a b
  | .int _, _ => .lt
  | _, .int _ => .gt
  | .varchar _, _ => .lt
  | _, .varchar _ => .gt

/-- The zip loop of `IndexKey::cmp`: compare pointwise until the shorter
list is exhausted. -/
def cmpZip : List Value → List Value → Ordering
  | a :: as', b :: bs =>
    (match compare_values a b with
     | .eq => cmpZip as' bs
     | o => o)
  | _, _ => .eq

/-- `IndexKey::cmp`: zip-compare the values, then compare lengths. -/
def IndexKey.cmpIK (k1 k2 : IndexKey) : Ordering :=
  match cmpZip k1.values k2.values with
  | .eq => cmpN k1.values.length k2.values.length
  | o => o

/-- The derived `Ord` on `Rid`: lexicographic on `(page_id, slot_id)`. -/
def cmpRid (a b : Rid) : Ordering :=
  match cmpN a.page_id b.page_id with
  | .eq => cmpN a.slot_id b.slot_id
  | o => o

/-- Lexicographic product comparison. -/
def cmpProd (ca : α → α → Ordering) (cb : β → β → Ordering)
    (x y : α × β) : Ordering :=
  match ca x.1 y.1 with
  | .eq => cb x.2 y.2
  | o => o

/-- The `(key, rid)` order of the leaf entries (`find_insert_point`). -/
def cmpEntry : IndexKey × Rid → IndexKey × Rid → Ordering :=
  cmpProd IndexKey.cmpIK cmpRid

/-- `a < b` on keys, as the source's boolean test. -/
def keyLtB (a b : IndexKey) : Bool := IndexKey.cmpIK a b == .lt

/-- `a < b` on keys as a proposition. -/
def keyLt (a b : IndexKey) : Prop := IndexKey.cmpIK a b = .lt

/-- `a ≤ b` on keys as a proposition. -/
def keyLe (a b : IndexKey) : Prop := IndexKey.cmpIK a b ≠ .gt

/-- `a ≤ b` on `(key, rid)` entries. -/
def entryLe (a b : IndexKey × Rid) : Prop := cmpEntry a b ≠ .gt

instance (a b : IndexKey) : Decidable (keyLt a b) :=
  inferInstanceAs (Decidable (IndexKey.cmpIK a b = .lt))

instance (a b : IndexKey) : Decidable (keyLe a b) :=
  inferInstanceAs (Decidable (IndexKey.cmpIK a b ≠ .gt))

instance (a b : IndexKey × Rid) : Decidable (entryLe a b) :=
  inferInstanceAs (Decidable (cmpEntry a b ≠ .gt))

/-- A comparison is lawful when `eq` coincides with equality, `gt` is the
swap of `lt`, and `lt` is transitive. -/
def CmpLawful (c : α → α → Ordering) : Prop :=
  (∀ a b, c a b = .eq ↔ a = b) ∧
  (∀ a b, c a b = .gt ↔ c b a = .lt) ∧
  (∀ a b d, c a b = .lt → c b d = .lt → c a d = .lt)

/-! ### day19/src/btree.rs — node-level B-tree model

Pages are abstracted to nodes: a leaf holds its sorted `(key, rid)`
entries and the sibling links (`btree_leaf.rs`), an internal node holds
its separator keys with their left children plus the rightmost child
(`btree_internal.rs`).  The page store is a function from page id to
node.  Page-id loops are transcribed with fuel, returning `none` on fuel
exhaustion (unreachable on well-formed trees with enough fuel). -/

/-- A B-tree node. -/
inductive BNode where
  | leaf (entries : List (IndexKey × Rid)) (prev next : Option Nat)
  | internal (kcs : List (IndexKey × Nat)) (rightmost : Nat)

/-- `LeafNode::is_leaf`. -/
def BNode.isLeafB : BNode → Bool
  | .leaf _ _ _ => true
  | .internal _ _ => false

/-- The entries of a leaf (`LeafNode::get_key` / `get_rid` over all
indices); empty for an internal node. -/
def BNode.entries : BNode → List (IndexKey × Rid)
  | .leaf es _ _ => es
  | .internal _ _ => []

/-- `LeafNode::get_prev_leaf`. -/
def BNode.prevLeaf : BNode → Option Nat
  | .leaf _ p _ => p
  | .internal _ _ => none

/-- `LeafNode::get_next_leaf`. -/
def BNode.nextLeaf : BNode → Option Nat
  | .leaf _ _ n => n
  | .internal _ _ => none

/-- `InternalNode::find_child` (`btree_internal.rs`, lines 123–135):
first child whose separator exceeds the key, else the rightmost child. -/
def findChild : List (IndexKey × Nat) → Nat → IndexKey → Nat
  | [], rm, _ => rm
  | (k, c) :: rest, rm, key => if keyLtB key k then c else findChild rest rm key

/-- `BTree::find_leaf` (lines 211–232): descend via `find_child` until a
leaf is reached. -/
def find_leaf (store : Nat → BNode) : Nat → Nat → IndexKey → Option Nat
  | 0, _, _ => none
  | fuel + 1, pid, key =>
    match store pid with
    | .leaf _ _ _ => some pid
    | .internal kcs rm => find_leaf store fuel (findChild kcs rm key) key

/-- `BTree::find_leftmost_leaf` (lines 629–657): follow child 0 (or the
rightmost child of a keyless node). -/
def find_leftmost_leaf (store : Nat → BNode) : Nat → Nat → Option Nat
  | 0, _ => none
  | fuel + 1, pid =>
    match store pid with
    | .leaf _ _ _ => some pid
    | .internal kcs rm =>
      find_leftmost_leaf store fuel
        (match kcs with
         | [] => rm
         | (_, c) :: _ => c)

/-- `BTree::leaf_has_keys_gte` (lines 619–627): the last key, if any, is
`≥ target`. -/
def leaf_has_keys_gte (n : BNode) (target : IndexKey) : Bool :=
  match n.entries.getLast? with
  | none => false
  | some e => !(keyLtB e.1 target)

/-- `BTree::find_first_leaf_with_key` (lines 581–617): walk the `prev`
links while the previous leaf still has keys `≥ target`. -/
def find_first_leaf_with_key (store : Nat → BNode) :
    Nat → Nat → IndexKey → Option Nat
  | 0, _, _ => none
  | fuel + 1, current, target =>
    match (store current).prevLeaf with
    | none => some current
    | some prev_id =>
      if leaf_has_keys_gte (store prev_id) target then
        find_first_leaf_with_key store fuel prev_id target
      else some current

/-- Out-of-range default for `getD` (the source indexing never goes out
of range). -/
def dfltEntry : IndexKey × Rid := (⟨[]⟩, ⟨0, 0⟩)

/-- The binary-search loop of `LeafNode::find_key_position`
(`btree_leaf.rs`, lines 182–200); fuel `right - left` suffices. -/
def bsearchGo (entries : List (IndexKey × Rid)) (key : IndexKey) :
    Nat → Nat → Nat → Nat
  | 0, left, _ => left
  | fuel + 1, left, right =>
    if left < right then
      let mid := left + (right - left) / 2
      if keyLtB (entries.getD mid dfltEntry).1 key then
        bsearchGo entries key fuel (mid + 1) right
      else bsearchGo entries key fuel left mid
    else left

/-- `LeafNode::find_key_position`: first index whose key is `≥ key`. -/
def find_key_position (entries : List (IndexKey × Rid)) (key : IndexKey) :
    Nat :=
  if entries.length = 0 then 0
  else bsearchGo entries key entries.length 0 entries.length

/-- The inner `for i in start_idx..count` loop of `range_scan`: emit
entries until one fails the `end` bound; the flag records the early
return. -/
def emitLoop (endOpt : Option IndexKey) :
    List (IndexKey × Rid) → List (IndexKey × Rid) × Bool
  | [] => ([], false)
  | e :: rest =>
    match endOpt with
    | some en =>
      if !(keyLtB e.1 en) then ([], true)
      else
        let r := emitLoop endOpt rest
        (e :: r.1, r.2)
    | none =>
      let r := emitLoop endOpt rest
      (e :: r.1, r.2)

/-- The `while let Some(leaf_id) = current_leaf` loop of `range_scan`:
scan each leaf from its start index (nonzero only for the first leaf),
stop early on the `end` bound, otherwise follow the `next` link. -/
def scanLoop (store : Nat → BNode) (endOpt : Option IndexKey) :
    Nat → Option Nat → Nat → Option (List (IndexKey × Rid))
  | _, none, _ => some []
  | 0, some _, _ => none
  | fuel + 1, some leaf_id, start_idx =>
    let r := emitLoop endOpt ((store leaf_id).entries.drop start_idx)
    if r.2 then some r.1
    else
      match scanLoop store endOpt fuel (store leaf_id).nextLeaf 0 with
      | none => none
      | some rest => some (r.1 ++ rest)

/-- `BTree::range_scan` (lines 510–577): locate the start leaf (descent,
then the backward walk when a start bound is given), compute the start
index within it, and run the scan loop. -/
def range_scan (store : Nat → BNode) (rootOpt : Option Nat) (fuel : Nat)
    (startOpt endOpt : Option IndexKey) : Option (List (IndexKey × Rid)) :=
  match rootOpt with
  | none => some []
  | some root =>
    let sl0 :=
      match startOpt with
      | some key => find_leaf store fuel root key
      | none => find_leftmost_leaf store fuel root
    match sl0 with
    | none => none
    | some leaf0 =>
      let sl :=
        match startOpt with
        | some key => find_first_leaf_with_key store fuel leaf0 key
        | none => some leaf0
      match sl with
      | none => none
      | some start_leaf =>
        let start_idx :=
          match startOpt with
          | some s => find_key_position (store start_leaf).entries s
          | none => 0
        scanLoop store endOpt fuel (some start_leaf) start_idx

/-! #### Well-formedness of a B-tree -/

/-- All entries of the leaf chain, left to right. -/
def chainEntries (store : Nat → BNode) (chain : List Nat) :
    List (IndexKey × Rid) :=
  chain.flatMap (fun id => (store id).entries)

/-- The entries of chain positions `[lo, hi)`. -/
def segEntries (store : Nat → BNode) (chain : List Nat) (lo hi : Nat) :
    List (IndexKey × Rid) :=
  chainEntries store ((chain.drop lo).take (hi - lo))

/-- The doubly-linked leaf chain: position `i` holds a leaf whose `prev`
and `next` links point to positions `i - 1` and `i + 1`. -/
def WfChain (store : Nat → BNode) (chain : List Nat) : Prop :=
  ∀ i (h : i < chain.length),
    (store (chain.get ⟨i, h⟩)).isLeafB = true ∧
    (store (chain.get ⟨i, h⟩)).prevLeaf =
      (if i = 0 then none else chain.get? (i - 1)) ∧
    (store (chain.get ⟨i, h⟩)).nextLeaf = chain.get? (i + 1)

/-- Separator structure of one internal node's children, covering chain
positions `[lo, hi)`: each separator key bounds its child's segment from
above and every later segment from below (duplicates may sit on either
side of a separator, hence both bounds are non-strict). `P c lo hi`
states that child `c` is a well-formed subtree over `[lo, hi)`. -/
def KidsWFAux (store : Nat → BNode) (chain : List Nat)
    (P : Nat → Nat → Nat → Prop) :
    List (IndexKey × Nat) → Nat → Nat → Nat → Prop
  | [], rm, lo, hi => P rm lo hi
  | (k, c) :: rest, rm, lo, hi =>
    ∃ mid, P c lo mid ∧ KidsWFAux store chain P rest rm mid hi ∧
      (∀ e ∈ segEntries store chain lo mid, keyLe e.1 k) ∧
      (∀ e ∈ segEntries store chain mid hi, keyLe k e.1)

/-- The claim's range predicate `start ≤ key < end` (a missing bound is
unbounded on that side), written with the source's key comparison. -/
def scanCond (startOpt endOpt : Option IndexKey) (k : IndexKey) : Bool :=
  (match startOpt with
   | none => true
   | some s => !(keyLtB k s)) &&
  (match endOpt with
   | none => true
   | some en => keyLtB k en)

/-- Cutting a scan at the `end` bound: the entries kept by the scan loop
out of a candidate tail. -/
def endTrim (endOpt : Option IndexKey) (l : List (IndexKey × Rid)) :
    List (IndexKey × Rid) :=
  match endOpt with
  | none => l
  | some en => l.takeWhile (fun e => keyLtB e.1 en)

/-- `SubtreeWF store chain h pid lo hi`: page `pid` is a well-formed
subtree of height at most `h` covering exactly chain positions
`[lo, hi)`. -/
def SubtreeWF (store : Nat → BNode) (chain : List Nat) :
    Nat → Nat → Nat → Nat → Prop
  | 0, pid, lo, hi =>
    (store pid).isLeafB = true ∧ chain.get? lo = some pid ∧ hi = lo + 1
  | h + 1, pid, lo, hi =>
    SubtreeWF store chain h pid lo hi ∨
    ∃ kcs rm, store pid = BNode.internal kcs rm ∧
      KidsWFAux store chain (SubtreeWF store chain h) kcs rm lo hi

/-- `LeafNode::insert` (`btree_leaf.rs`, lines 203–247): place the entry
at `find_insert_point`, the first position whose entry is `≥ (key, rid)`
— on a sorted leaf that position is the length of the `takeWhile` of the
strictly smaller entries. -/
def leafInsert (n : BNode) (key : IndexKey) (rid : Rid) : BNode :=
  match n with
  | .leaf es p nx =>
    .leaf (es.takeWhile (fun e => cmpEntry e (key, rid) == .lt) ++
      (key, rid) :: es.dropWhile (fun e => cmpEntry e (key, rid) == .lt))
      p nx
  | other => other

/-- The split branch of `BTree::insert_into_leaf` (`btree.rs`, lines
272–298) together with `LeafNode::split` (`btree_leaf.rs`, lines
271–318): keep the lower half `[0, mid)` in the source leaf, move the
upper half to the new page, take the split key from the new page's first
entry, link `src.next := new`, `new.prev := src`, `new.next := src's old
next` — the old successor's `prev` pointer is NOT repointed — and insert
the pending entry left or right of the split key.  Returns the new store
and the split key propagated to the parent. -/
def insertWithSplit (store : Nat → BNode) (leaf_id new_id : Nat)
    (key : IndexKey) (rid : Rid) : (Nat → BNode) × IndexKey :=
  match store leaf_id with
  | .leaf es prev next =>
    let mid := es.length / 2
    let split_key :=
      match es.drop mid with
      | [] => key
      | e :: _ => e.1
    let src := BNode.leaf (es.take mid) prev (some new_id)
    let dst := BNode.leaf (es.drop mid) (some leaf_id) next
    let store1 := fun pid =>
      if pid = leaf_id then src
      else if pid = new_id then dst
      else store pid
    let store2 :=
      if keyLtB key split_key then
        fun pid => if pid = leaf_id then leafInsert src key rid
          else store1 pid
      else
        fun pid => if pid = new_id then leafInsert dst key rid
          else store1 pid
    (store2, split_key)
  | _ => (store, key)

/-- A single-column Int key. -/
def c4key (n : Int) : IndexKey := ⟨[.int n]⟩

/-- A two-leaf tree with consistent links: root 1 is an internal node
with separator key 2, left child 10 and rightmost child 11; the two
leaves hold a duplicate of key 2 spanning the leaf boundary. -/
def c4Store : Nat → BNode := fun pid =>
  if pid = 1 then .internal [(c4key 2, 10)] 11
  else if pid = 10 then
    .leaf [(c4key 1, ⟨1, 0⟩), (c4key 2, ⟨5, 1⟩)] none (some 11)
  else if pid = 11 then
    .leaf [(c4key 2, ⟨6, 0⟩), (c4key 3, ⟨7, 0⟩)] (some 10) none
  else .leaf [] none none

/-- The witness tree's leaf chain. -/
def c4Chain : List Nat := [10, 11]

/-- The tree just before the split that goes wrong.  Reached by inserts
alone: a root leaf `[1, 2, (10, rA), (10, r1), (10, r2), (10, r3)]`
splits on the insert of `(10, r4)` (leaf 10 keeps `[1, 2, (10, rA)]`,
new leaf 11 gets the other duplicates, new root `[(10, 10)]` with
rightmost 11), then keys `4` and `5` are inserted into leaf 10. -/
def c4PreStore : Nat → BNode := fun pid =>
  if pid = 1 then .internal [(c4key 10, 10)] 11
  else if pid = 10 then
    .leaf [(c4key 1, ⟨201, 1⟩), (c4key 2, ⟨201, 2⟩), (c4key 4, ⟨201, 4⟩),
      (c4key 5, ⟨201, 5⟩), (c4key 10, ⟨100, 0⟩)] none (some 11)
  else if pid = 11 then
    .leaf [(c4key 10, ⟨100, 1⟩), (c4key 10, ⟨100, 2⟩),
      (c4key 10, ⟨100, 3⟩), (c4key 10, ⟨100, 4⟩)]
      (some 10) none
  else .leaf [] none none

/-- The tree after inserting key `6` makes leaf 10 split into pages 10
and 12: the leaves are exactly `insertWithSplit c4PreStore 10 12
(c4key 6) ⟨201, 6⟩` and the parent holds the propagated split key `4`
(`insert_into_internal`).  Leaf 11's `prev` still points to 10 even
though 12 now sits between them — the split never repoints it. -/
def c4BugStore : Nat → BNode := fun pid =>
  if pid = 1 then .internal [(c4key 4, 10), (c4key 10, 12)] 11
  else if pid = 10 then
    .leaf [(c4key 1, ⟨201, 1⟩), (c4key 2, ⟨201, 2⟩)] none (some 12)
  else if pid = 12 then
    .leaf [(c4key 4, ⟨201, 4⟩), (c4key 5, ⟨201, 5⟩), (c4key 6, ⟨201, 6⟩),
      (c4key 10, ⟨100, 0⟩)] (some 10) (some 11)
  else if pid = 11 then
    .leaf [(c4key 10, ⟨100, 1⟩), (c4key 10, ⟨100, 2⟩),
      (c4key 10, ⟨100, 3⟩), (c4key 10, ⟨100, 4⟩)]
      (some 10) none
  else .leaf [] none none

/-- What `range_scan` actually returns on `c4BugStore` for the range
`[10, 11)`: only leaf 11's entries — the duplicate of key 10 stored in
leaf 12 is missed. -/
def c4MissedResult : List (IndexKey × Rid) :=
  [(c4key 10, ⟨100, 1⟩), (c4key 10, ⟨100, 2⟩), (c4key 10, ⟨100, 3⟩),
   (c4key 10, ⟨100, 4⟩)]

/-! #### Theorems -/

/-- C1: `is_tuple_visible` returns true iff (1) `xmin` is visible —
`xmin = self`, or `xmin < xmax_s` and `xmin ∉ active_s` and the status of
`xmin` is Committed — and (2) `xmax = 0`, or `xmax ≠ self` and
(`xmax ≥ xmax_s`, or `xmax ∈ active_s`, or the status of `xmax` is not
Committed); in particular the tuple is invisible when `xmax = self`. -/
theorem is_tuple_visible_iff (xmin xmax : Nat) (s : Snapshot)
    (st : Nat → TxnStatus) :
    is_tuple_visible xmin xmax s st = true ↔
      ((xmin = s.txn_id ∨
        (xmin < s.xmax ∧ xmin ∉ s.active_txns ∧ st xmin = .committed)) ∧
       (xmax = 0 ∨
        (xmax ≠ s.txn_id ∧
          (s.xmax ≤ xmax ∨ xmax ∈ s.active_txns ∨ st xmax ≠ .committed)))) := by
  unfold is_tuple_visible is_xmin_visible INVALID_TXN_ID
  rcases hx : st xmin <;> rcases hy : st xmax <;>
    simp_all [List.contains, List.elem_iff]

theorem sum_foldl_eq (g : List Value) (s : Int) (hv : Bool) :
    g.foldl AggregateAccumulator.accumulate (.sum s hv) =
      .sum (g.foldl (fun a v => match v with
              | .int n => wrap64 (a + n) | _ => a) s)
           (hv || g.any Value.isInt) := by
  induction g generalizing s hv with
  | nil => simp
  | cons x xs ih =>
    cases x <;>
      simp [AggregateAccumulator.accumulate, Value.isInt, ih, List.any_cons]

theorem avg_foldl_eq (g : List Value) (s c : Int) :
    g.foldl AggregateAccumulator.accumulate (.avg s c) =
      .avg (g.foldl (fun a v => match v with
              | .int n => wrap64 (a + n) | _ => a) s)
           (g.foldl (fun a v => match v with
              | .int _ => wrap64 (a + 1) | _ => a) c) := by
  induction g generalizing s c with
  | nil => simp
  | cons x xs ih =>
    cases x <;>
      simp [AggregateAccumulator.accumulate, Value.isInt, ih]

theorem count_foldl_eq (g : List Value) (c : Int) :
    g.foldl AggregateAccumulator.accumulate (.count c) =
      .count (g.foldl (fun a v => match v with
              | .null => a | _ => wrap64 (a + 1)) c) := by
  induction g generalizing c with
  | nil => simp
  | cons x xs ih =>
    cases x <;> simp [AggregateAccumulator.accumulate, ih]

theorem count_ints_foldl (g : List Value) (c : Int) (h0 : 0 ≤ c)
    (hb : c + intCount g < 2 ^ 63) :
    g.foldl (fun a v => match v with
      | .int _ => wrap64 (a + 1) | _ => a) c = c + intCount g := by
  induction g generalizing c with
  | nil => simp [intCount]
  | cons x xs ih =>
    have hx : intCount (x :: xs) = (if x.isInt then 1 else 0) + intCount xs := by
      simp only [intCount, List.countP_cons]
      cases x <;> simp [Value.isInt] <;> omega
    rw [hx] at hb
    cases x with
    | int n =>
      simp only [Value.isInt, if_pos] at hb hx
      have hwrap : wrap64 (c + 1) = c + 1 := by unfold wrap64; omega
      simp only [List.foldl_cons]
      rw [hwrap, ih (c + 1) (by omega) (by omega), hx]
      push_cast; ring
    | null =>
      simp only [Value.isInt, Bool.false_eq_true, if_neg, not_false_iff]
        at hb hx
      simp only [List.foldl_cons]
      rw [ih c h0 (by omega), hx]
      push_cast; ring
    | varchar s =>
      simp only [Value.isInt, Bool.false_eq_true, if_neg, not_false_iff]
        at hb hx
      simp only [List.foldl_cons]
      rw [ih c h0 (by omega), hx]
      push_cast; ring
    | bool b =>
      simp only [Value.isInt, Bool.false_eq_true, if_neg, not_false_iff]
        at hb hx
      simp only [List.foldl_cons]
      rw [ih c h0 (by omega), hx]
      push_cast; ring

theorem count_nonnull_foldl (g : List Value) (c : Int) (h0 : 0 ≤ c)
    (hb : c + nonNullCount g < 2 ^ 63) :
    g.foldl (fun a v => match v with
      | .null => a | _ => wrap64 (a + 1)) c = c + nonNullCount g := by
  induction g generalizing c with
  | nil => simp [nonNullCount]
  | cons x xs ih =>
    have hx : nonNullCount (x :: xs) =
        (if x = Value.null then 0 else 1) + nonNullCount xs := by
      simp only [nonNullCount, List.countP_cons]
      cases x <;> simp <;> omega
    rw [hx] at hb
    cases x with
    | null =>
      simp only [if_pos] at hb hx
      simp only [List.foldl_cons]
      rw [ih c h0 (by omega), hx]
      push_cast; ring
    | int n =>
      simp only [reduceCtorEq, if_neg, not_false_iff] at hb hx
      have hwrap : wrap64 (c + 1) = c + 1 := by unfold wrap64; omega
      simp only [List.foldl_cons]
      rw [hwrap, ih (c + 1) (by omega) (by omega), hx]
      push_cast; ring
    | varchar s =>
      simp only [reduceCtorEq, if_neg, not_false_iff] at hb hx
      have hwrap : wrap64 (c + 1) = c + 1 := by unfold wrap64; omega
      simp only [List.foldl_cons]
      rw [hwrap, ih (c + 1) (by omega) (by omega), hx]
      push_cast; ring
    | bool b =>
      simp only [reduceCtorEq, if_neg, not_false_iff] at hb hx
      have hwrap : wrap64 (c + 1) = c + 1 := by unfold wrap64; omega
      simp only [List.foldl_cons]
      rw [hwrap, ih (c + 1) (by omega) (by omega), hx]
      push_cast; ring

/-- C6 counterexample: for the group `[-1, -2]` the accumulated AVG state
is `sum = -3, count = 2`; `finalize` yields `Int(-1)` (Rust truncating
division), while mathematical floor of `-3 / 2` is `-2`. -/
theorem avg_not_floor_counterexample :
    (([Value.int (-1), Value.int (-2)].foldl
        AggregateAccumulator.accumulate (.avg 0 0)).finalize
      = Value.int (-1)) ∧
    Int.fdiv (-3) 2 = -2 ∧
    Value.int (-1) ≠ Value.int (Int.fdiv (-3) 2) := by
  refine ⟨?_, by decide, by decide⟩
  decide

/-- C6 (amended): for every group of fewer than `2^63` input rows,
SUM finalises to NULL iff no Int value was accumulated; AVG finalises to
NULL when no Int value was accumulated and otherwise to `sum / count`
with Rust truncating (toward-zero) `i64` division, cast to `i32`; and
COUNT never finalises to NULL — it is the non-NULL row count cast to
`i32` (0 for an empty group). -/
theorem aggregate_finalize_characterization (g : List Value)
    (hlen : g.length < 2 ^ 63) :
    ((g.foldl AggregateAccumulator.accumulate (.sum 0 false)).finalize
        = .null ↔ intCount g = 0) ∧
    ((g.foldl AggregateAccumulator.accumulate (.avg 0 0)).finalize =
        if intCount g = 0 then .null
        else .int (wrap32 (Int.tdiv (intSumWrapped g) (intCount g)))) ∧
    (g.foldl AggregateAccumulator.accumulate (.count 0)).finalize =
        .int (wrap32 (nonNullCount g)) ∧
    (g.foldl AggregateAccumulator.accumulate (.count 0)).finalize ≠
        .null := by
  have hint : intCount g ≤ g.length := List.countP_le_length _
  have hnn : nonNullCount g ≤ g.length := List.countP_le_length _
  have hintb : (0 : Int) + intCount g < 2 ^ 63 := by omega
  have hnnb : (0 : Int) + nonNullCount g < 2 ^ 63 := by omega
  have key : g.any Value.isInt = false ↔ intCount g = 0 := by
    simp [intCount, List.countP_eq_zero, List.any_eq_false]
  refine ⟨?_, ?_, ?_, ?_⟩
  · rw [sum_foldl_eq]
    cases hany : g.any Value.isInt with
    | false =>
      simp only [AggregateAccumulator.finalize, Bool.false_or,
        Bool.false_eq_true, if_neg, not_false_iff]
      simpa using key.mp hany
    | true =>
      simp only [AggregateAccumulator.finalize, Bool.false_or, if_pos]
      constructor
      · intro h; exact absurd h (by simp)
      · intro h
        exact absurd (key.mpr h) (by simp [hany])
  · rw [avg_foldl_eq, count_ints_foldl g 0 le_rfl hintb]
    rcases Nat.eq_zero_or_pos (intCount g) with h0 | hpos
    · simp [h0, AggregateAccumulator.finalize]
    · have hz : (0 : Int) < intCount g := by omega
      rw [if_neg (Nat.pos_iff_ne_zero.mp hpos)]
      simp only [AggregateAccumulator.finalize, zero_add]
      rw [if_pos hz]
      rfl
  · rw [count_foldl_eq, count_nonnull_foldl g 0 le_rfl hnnb]
    simp [AggregateAccumulator.finalize]
  · rw [count_foldl_eq, count_nonnull_foldl g 0 le_rfl hnnb]
    simp [AggregateAccumulator.finalize]

/-- C6 witness: the amended characterisation applied to the concrete group
`[1, NULL, -2]`. -/
theorem aggregate_finalize_characterization_witness :
    (aggWitnessGroup.length < 2 ^ 63) ∧
    (((aggWitnessGroup.foldl
        AggregateAccumulator.accumulate (.sum 0 false)).finalize
        = .null ↔ intCount aggWitnessGroup = 0) ∧
     ((aggWitnessGroup.foldl
        AggregateAccumulator.accumulate (.avg 0 0)).finalize =
        if intCount aggWitnessGroup = 0 then .null
        else .int (wrap32 (Int.tdiv (intSumWrapped aggWitnessGroup)
          (intCount aggWitnessGroup)))) ∧
     (aggWitnessGroup.foldl
        AggregateAccumulator.accumulate (.count 0)).finalize =
        .int (wrap32 (nonNullCount aggWitnessGroup)) ∧
     (aggWitnessGroup.foldl
        AggregateAccumulator.accumulate (.count 0)).finalize ≠ .null) :=
  ⟨by norm_num [aggWitnessGroup],
   aggregate_finalize_characterization aggWitnessGroup
     (by norm_num [aggWitnessGroup])⟩

theorem holdersGet_none_iff (hs : List (Nat × LockMode)) (txn : Nat) :
    holdersGet hs txn = none ↔ ∀ p ∈ hs, p.1 ≠ txn := by
  unfold holdersGet
  simp [List.find?_eq_none]

theorem holdersGet_some_iff (hs : List (Nat × LockMode)) (txn : Nat)
    (m : LockMode) (hnd : (hs.map Prod.fst).Nodup) :
    holdersGet hs txn = some m ↔ (txn, m) ∈ hs := by
  induction hs with
  | nil => simp [holdersGet]
  | cons p ps ih =>
    rw [List.map_cons, List.nodup_cons] at hnd
    obtain ⟨hp, hnd⟩ := hnd
    by_cases hpt : p.1 = txn
    · have heq : holdersGet (p :: ps) txn = some p.2 := by
        simp [holdersGet, List.find?_cons, hpt]
      rw [heq]
      simp only [List.mem_cons]
      constructor
      · rintro h
        left
        cases p
        simp_all
      · rintro (h | h)
        · cases p; simp_all
        · exfalso
          apply hp
          rw [hpt]
          exact List.mem_map_of_mem Prod.fst h
    · have heq : holdersGet (p :: ps) txn = holdersGet ps txn := by
        simp [holdersGet, List.find?_cons, hpt]
      rw [heq, ih hnd]
      simp only [List.mem_cons]
      constructor
      · exact fun h => Or.inr h
      · rintro (h | h)
        · exfalso; cases p; simp_all
        · exact h

theorem lockGrantsImmediately_some (s : LockState) (txn : Nat)
    (mode held : LockMode) (hget : holdersGet s.holders txn = some held) :
    lockGrantsImmediately s txn mode =
      if held == LockMode.exclusive || mode == LockMode.shared then true
      else if s.holders.length == 1 then true else false := by
  unfold lockGrantsImmediately LockState.can_grant
  rw [hget]
  by_cases h : (held == LockMode.exclusive || mode == LockMode.shared) = true
  · simp [h]
  · simp only [Bool.not_eq_true] at h
    simp [h]

theorem lockGrantsImmediately_none (s : LockState) (txn : Nat)
    (mode : LockMode) (hget : holdersGet s.holders txn = none) :
    lockGrantsImmediately s txn mode =
      (s.is_compatible mode && s.wait_queue.isEmpty) := by
  unfold lockGrantsImmediately LockState.can_grant
  rw [hget]

/-- C5: `lock` grants immediately (no enqueue, no wait) iff the wait queue
is empty and the requested mode is compatible with the holders, or the
caller already holds a covering lock: a held Exclusive covers any request,
a held Shared covers a Shared request, and the sole Shared holder may
upgrade to Exclusive. -/
theorem lock_grants_immediately_iff (s : LockState) (txn : Nat)
    (mode : LockMode) (hnd : (s.holders.map Prod.fst).Nodup) :
    lockGrantsImmediately s txn mode = true ↔
      ((s.wait_queue = [] ∧
         (s.holders = [] ∨
          (mode = .shared ∧ ∀ p ∈ s.holders, p.2 = LockMode.shared))) ∨
       ((txn, LockMode.exclusive) ∈ s.holders ∨
        ((txn, LockMode.shared) ∈ s.holders ∧ mode = .shared) ∨
        (s.holders = [(txn, LockMode.shared)] ∧ mode = .exclusive))) := by
  cases hget : holdersGet s.holders txn with
  | none =>
    have hnotmem : ∀ p ∈ s.holders, p.1 ≠ txn :=
      (holdersGet_none_iff _ _).mp hget
    have hnoex : ¬ (txn, LockMode.exclusive) ∈ s.holders := by
      intro h; exact hnotmem _ h rfl
    have hnosh : ¬ (txn, LockMode.shared) ∈ s.holders := by
      intro h; exact hnotmem _ h rfl
    have hnosingle : ¬ (s.holders = [(txn, LockMode.shared)]) := by
      intro h
      exact hnosh (by rw [h]; exact List.mem_singleton_self _)
    rw [lockGrantsImmediately_none s txn mode hget]
    simp only [Bool.and_eq_true, hnoex, hnosh, hnosingle, false_and,
      or_false, false_or]
    unfold LockState.is_compatible
    cases mode with
    | shared =>
      constructor
      · rintro ⟨hcomp, hq⟩
        refine ⟨List.isEmpty_iff.mp hq, ?_⟩
        by_cases hh : s.holders.isEmpty
        · exact Or.inl (List.isEmpty_iff.mp hh)
        · right
          refine ⟨rfl, ?_⟩
          rw [if_neg (by simpa using hh)] at hcomp
          intro p hp
          have := List.all_eq_true.mp hcomp p hp
          simpa using this
      · rintro ⟨hq, hcomp⟩
        refine ⟨?_, List.isEmpty_iff.mpr hq⟩
        rcases hcomp with h | ⟨_, hall⟩
        · rw [if_pos (List.isEmpty_iff.mpr h)]
        · by_cases hh : s.holders.isEmpty
          · rw [if_pos hh]
          · rw [if_neg (by simpa using hh)]
            exact List.all_eq_true.mpr fun p hp => by
              simpa using hall p hp
    | exclusive =>
      constructor
      · rintro ⟨hcomp, hq⟩
        by_cases hh : s.holders.isEmpty
        · exact ⟨List.isEmpty_iff.mp hq, Or.inl (List.isEmpty_iff.mp hh)⟩
        · rw [if_neg (by simpa using hh)] at hcomp
          exact absurd hcomp (by simp)
      · rintro ⟨hq, hcomp⟩
        rcases hcomp with h | ⟨hms, _⟩
        · exact ⟨by rw [if_pos (List.isEmpty_iff.mpr h)],
            List.isEmpty_iff.mpr hq⟩
        · exact absurd hms (by simp)
  | some held =>
    have hmem : (txn, held) ∈ s.holders :=
      (holdersGet_some_iff _ _ _ hnd).mp hget
    rw [lockGrantsImmediately_some s txn mode held hget]
    cases held with
    | exclusive =>
      rw [if_pos (by simp)]
      constructor
      · intro _; exact Or.inr (Or.inl hmem)
      · intro _; rfl
    | shared =>
      cases mode with
      | shared =>
        rw [if_pos (by simp)]
        constructor
        · intro _; exact Or.inr (Or.inr (Or.inl ⟨hmem, rfl⟩))
        · intro _; rfl
      | exclusive =>
        rw [if_neg (by decide)]
        have hnoex : ¬ (txn, LockMode.exclusive) ∈ s.holders := by
          intro h
          have := (holdersGet_some_iff _ _ _ hnd).mpr h
          rw [hget] at this
          exact absurd this (by simp)
        have hsingle : (s.holders.length == 1) = true ↔
            s.holders = [(txn, LockMode.shared)] := by
          constructor
          · intro hlen
            have hlen' : s.holders.length = 1 := by simpa using hlen
            rcases List.length_eq_one.mp hlen' with ⟨p, hp⟩
            rw [hp] at hmem
            have hps := List.mem_singleton.mp hmem
            rw [hp, ← hps]
          · intro h
            rw [h]
            rfl
        constructor
        · intro h
          by_cases hlen : (s.holders.length == 1) = true
          · exact Or.inr (Or.inr (Or.inr ⟨hsingle.mp hlen, rfl⟩))
          · rw [if_neg hlen] at h
            exact absurd h (by simp)
        · rintro (⟨hq, hcomp⟩ | hmem2 | ⟨_, hms⟩ | ⟨hsing, _⟩)
          · rcases hcomp with h | ⟨hms, _⟩
            · rw [h] at hmem; simp at hmem
            · exact absurd hms (by simp)
          · exact absurd hmem2 hnoex
          · exact absurd hms (by simp)
          · rw [if_pos (hsingle.mpr hsing)]

/-- C5 witness: the grant condition applied to a concrete state — txn 1
is the sole Shared holder of the RID and upgrades to Exclusive. -/
theorem lock_grants_immediately_iff_witness :
    ((lockWitnessState.holders.map Prod.fst).Nodup) ∧
    (lockGrantsImmediately lockWitnessState 1 .exclusive = true ↔
      ((lockWitnessState.wait_queue = [] ∧
         (lockWitnessState.holders = [] ∨
          (LockMode.exclusive = .shared ∧
            ∀ p ∈ lockWitnessState.holders, p.2 = LockMode.shared))) ∨
       ((1, LockMode.exclusive) ∈ lockWitnessState.holders ∨
        ((1, LockMode.shared) ∈ lockWitnessState.holders ∧
          LockMode.exclusive = .shared) ∨
        (lockWitnessState.holders = [(1, LockMode.shared)] ∧
          LockMode.exclusive = .exclusive)))) :=
  ⟨by decide,
   lock_grants_immediately_iff lockWitnessState 1 .exclusive (by decide)⟩

/-- C10: if `lock` returns the Timeout error, the transaction holds no
lock on the RID (the wait predicate was checked under the continuously
held table mutex) and the timeout branch removes every queue entry of the
transaction, so no stale request remains. -/
theorem lock_timeout_no_stale (s : LockState) (txn : Nat)
    (hwait : holdersGet s.holders txn = none) :
    (∀ p ∈ (s.timeoutCleanup txn).holders, p.1 ≠ txn) ∧
    (∀ r ∈ (s.timeoutCleanup txn).wait_queue, r.txn_id ≠ txn) := by
  constructor
  · exact (holdersGet_none_iff _ _).mp hwait
  · intro r hr
    have := (List.mem_filter.mp hr).2
    simpa using this

/-- C10 witness: the timeout cleanup applied to a concrete state where
txn 2 waits behind an Exclusive holder. -/
theorem lock_timeout_no_stale_witness :
    (holdersGet lockWitnessTimeoutState.holders 2 = none) ∧
    ((∀ p ∈ (lockWitnessTimeoutState.timeoutCleanup 2).holders,
        p.1 ≠ 2) ∧
     (∀ r ∈ (lockWitnessTimeoutState.timeoutCleanup 2).wait_queue,
        r.txn_id ≠ 2)) :=
  ⟨by decide, lock_timeout_no_stale lockWitnessTimeoutState 2 (by decide)⟩

theorem toLE_length (w v : Nat) : (toLE w v).length = w := by
  induction w generalizing v with
  | zero => rfl
  | succ w ih => simp [toLE, ih]

theorem fromLE_toLE (w v : Nat) : fromLE (toLE w v) = v % 256 ^ w := by
  induction w generalizing v with
  | zero => simp [toLE, fromLE, Nat.mod_one]
  | succ w ih =>
    simp only [toLE, fromLE, List.foldr_cons]
    have h := ih (v / 256)
    simp only [fromLE] at h
    rw [h, pow_succ, mul_comm (256 ^ w) 256, Nat.mod_mul]

theorem toLE_bytes_lt (w v : Nat) : ∀ b ∈ toLE w v, b < 256 := by
  induction w generalizing v with
  | zero => simp [toLE]
  | succ w ih =>
    intro b hb
    simp only [toLE, List.mem_cons] at hb
    rcases hb with h | h
    · omega
    · exact ih _ _ h

theorem intToU32_lt (n : Int) : intToU32 n < 2 ^ 32 := by
  unfold intToU32
  omega

theorem u32ToInt_intToU32 (n : Int) (h1 : -(2 ^ 31) ≤ n) (h2 : n < 2 ^ 31) :
    u32ToInt (intToU32 n) = n := by
  unfold u32ToInt intToU32
  omega

theorem take_append_of_length (l1 l2 : List α) (n : Nat)
    (h : l1.length = n) : (l1 ++ l2).take n = l1 := by
  subst h; exact List.take_left _ _

theorem drop_append_of_length (l1 l2 : List α) (n : Nat)
    (h : l1.length = n) : (l1 ++ l2).drop n = l2 := by
  subst h; exact List.drop_left _ _

theorem deserializeValueIK_serialize (v : Value) (hv : valueWFIK v = true)
    (rest : List Nat) :
    deserializeValueIK (serializeValueIK v ++ rest) = (v, rest) := by
  cases v with
  | null => simp [serializeValueIK, deserializeValueIK]
  | int n =>
    simp only [valueWFIK, decide_eq_true_eq] at hv
    have htake : (toLE 4 (intToU32 n) ++ rest).take 4 = toLE 4 (intToU32 n) :=
      take_append_of_length _ _ _ (toLE_length 4 _)
    have hdrop : (toLE 4 (intToU32 n) ++ rest).drop 4 = rest :=
      drop_append_of_length _ _ _ (toLE_length 4 _)
    simp only [serializeValueIK, List.cons_append, deserializeValueIK,
      List.append_eq, htake, hdrop, fromLE_toLE]
    norm_num
    unfold u32ToInt intToU32
    omega
  | varchar s =>
    simp only [valueWFIK, Bool.and_eq_true, decide_eq_true_eq] at hv
    have htake : (toLE 2 s.length ++ (s ++ rest)).take 2 = toLE 2 s.length :=
      take_append_of_length _ _ _ (toLE_length 2 _)
    have hdrop : (toLE 2 s.length ++ (s ++ rest)).drop 2 = s ++ rest :=
      drop_append_of_length _ _ _ (toLE_length 2 _)
    have hfrom : fromLE (toLE 2 s.length) = s.length := by
      rw [fromLE_toLE]
      exact Nat.mod_eq_of_lt (by simpa using hv.2)
    have htakes : (s ++ rest).take s.length = s := List.take_left s rest
    have hdrops : (s ++ rest).drop s.length = rest := List.drop_left s rest
    simp [serializeValueIK, deserializeValueIK, List.append_assoc,
      htake, hdrop, hfrom, htakes, hdrops]
  | bool b =>
    cases b <;>
      simp [serializeValueIK, deserializeValueIK, List.headD]

theorem deserializeValuesIK_serialize (vs : List Value)
    (hv : vs.all valueWFIK = true) (rest : List Nat) :
    deserializeValuesIK vs.length (vs.flatMap serializeValueIK ++ rest)
      = vs := by
  induction vs generalizing rest with
  | nil => rfl
  | cons v vs ih =>
    simp only [List.all_cons, Bool.and_eq_true] at hv
    simp only [List.flatMap_cons, List.length_cons, List.append_assoc]
    unfold deserializeValuesIK
    rw [deserializeValueIK_serialize v hv.1]
    simp only
    rw [ih hv.2]

theorem setBitA_length (bm : List Nat) (i : Nat) :
    (setBitA bm i).length = bm.length := by
  simp [setBitA]

theorem setBitA_getD (bm : List Nat) (i b : Nat) (hin : i / 8 < bm.length) :
    (setBitA bm i).getD b 0 =
      if i / 8 = b then (bm.getD b 0) ||| 2 ^ (i % 8) else bm.getD b 0 := by
  unfold setBitA
  by_cases hb : i / 8 = b
  · subst hb
    simp [List.getD_eq_getElem?_getD, List.getElem?_set_self hin]
  · simp [List.getD_eq_getElem?_getD, List.getElem?_set_ne hb, hb]

theorem land_two_pow_eq_zero_iff (x k : Nat) :
    (x &&& 2 ^ k = 0) ↔ x.testBit k = false := by
  constructor
  · intro h
    have := congrArg (fun n => n.testBit k) h
    simpa [Nat.testBit_and, Nat.testBit_two_pow, Nat.zero_testBit]
      using this
  · intro h
    apply Nat.eq_of_testBit_eq
    intro j
    rw [Nat.testBit_and, Nat.testBit_two_pow, Nat.zero_testBit]
    by_cases hj : j = k
    · subst hj; simp [h]
    · simp [Ne.symm hj]

theorem buildBitmapGo_testBit (vs : List Value) (bm : List Nat)
    (i0 b k : Nat) (hk : k < 8)
    (hidx : ∀ j, j < vs.length → (i0 + j) / 8 < bm.length) :
    ((buildBitmapGo bm i0 vs).getD b 0).testBit k =
      (((bm.getD b 0).testBit k) ||
        decide (i0 ≤ 8 * b + k ∧ 8 * b + k < i0 + vs.length ∧
          vs.getD (8 * b + k - i0) Value.null ≠ Value.null)) := by
  induction vs generalizing bm i0 with
  | nil =>
    simp [buildBitmapGo]
  | cons v vs ih =>
    have hlen2 : (if v ≠ Value.null then setBitA bm i0 else bm).length
        = bm.length := by
      split <;> simp [setBitA_length]
    unfold buildBitmapGo
    rw [ih _ (i0 + 1) (by
      intro j hj
      rw [hlen2]
      have h2 := hidx (j + 1) (by simpa using Nat.succ_lt_succ hj)
      rw [show i0 + 1 + j = i0 + (j + 1) from by omega]
      exact h2)]
    simp only [List.length_cons]
    by_cases hv : v = Value.null
    · rw [if_neg (by simp [hv])]
      congr 1
      rw [decide_eq_decide]
      constructor
      · rintro ⟨h1, h2, h3⟩
        refine ⟨by omega, by omega, ?_⟩
        have he : 8 * b + k - i0 = (8 * b + k - (i0 + 1)) + 1 := by omega
        rw [he, hv]
        simpa using h3
      · rintro ⟨h1, h2, h3⟩
        have hge : i0 + 1 ≤ 8 * b + k := by
          rcases Nat.eq_or_lt_of_le h1 with he | hl
          · exfalso
            rw [← he] at h3
            simp [hv] at h3
          · omega
        refine ⟨hge, by omega, ?_⟩
        have he : 8 * b + k - i0 = (8 * b + k - (i0 + 1)) + 1 := by omega
        rw [he, hv] at h3
        simpa using h3
    · rw [if_pos (by simp [hv])]
      rw [setBitA_getD bm i0 b (by simpa using hidx 0 (by simp))]
      by_cases hb : i0 / 8 = b
      · rw [if_pos hb]
        rw [Nat.testBit_or, Nat.testBit_two_pow]
        by_cases hkk : i0 % 8 = k
        · have hn : 8 * b + k = i0 := by omega
          have hd1 : decide (i0 % 8 = k) = true := by simp [hkk]
          have hd2 : decide (i0 ≤ 8 * b + k ∧
              8 * b + k < i0 + (vs.length + 1) ∧
              (v :: vs).getD (8 * b + k - i0) Value.null ≠ Value.null)
              = true := by
            rw [decide_eq_true_eq]
            refine ⟨by omega, by omega, ?_⟩
            rw [hn]
            simpa using hv
          rw [hd1, hd2]
          simp
        · have hd1 : decide (i0 % 8 = k) = false := by simp [hkk]
          rw [hd1, Bool.or_false]
          congr 1
          rw [decide_eq_decide]
          have hne : 8 * b + k ≠ i0 := by omega
          constructor
          · rintro ⟨h1, h2, h3⟩
            refine ⟨by omega, by omega, ?_⟩
            have he : 8 * b + k - i0 = (8 * b + k - (i0 + 1)) + 1 := by
              omega
            rw [he]
            simpa using h3
          · rintro ⟨h1, h2, h3⟩
            have hge : i0 + 1 ≤ 8 * b + k := by omega
            refine ⟨hge, by omega, ?_⟩
            have he : 8 * b + k - i0 = (8 * b + k - (i0 + 1)) + 1 := by
              omega
            rw [he] at h3
            simpa using h3
      · rw [if_neg hb]
        congr 1
        rw [decide_eq_decide]
        have hne : 8 * b + k ≠ i0 := by omega
        constructor
        · rintro ⟨h1, h2, h3⟩
          refine ⟨by omega, by omega, ?_⟩
          have he : 8 * b + k - i0 = (8 * b + k - (i0 + 1)) + 1 := by omega
          rw [he]
          simpa using h3
        · rintro ⟨h1, h2, h3⟩
          have hge : i0 + 1 ≤ 8 * b + k := by omega
          refine ⟨hge, by omega, ?_⟩
          have he : 8 * b + k - i0 = (8 * b + k - (i0 + 1)) + 1 := by omega
          rw [he] at h3
          simpa using h3

theorem buildBitmapGo_length (vs : List Value) (bm : List Nat) (i : Nat) :
    (buildBitmapGo bm i vs).length = bm.length := by
  induction vs generalizing bm i with
  | nil => rfl
  | cons v vs ih =>
    unfold buildBitmapGo
    rw [ih]
    split <;> simp [setBitA_length]

theorem buildBitmap_length (values : List Value) :
    (buildBitmap values).length = null_bitmap_size values.length := by
  unfold buildBitmap
  rw [buildBitmapGo_length]
  simp

theorem buildBitmap_bit (values : List Value) (j : Nat)
    (hj : j < values.length) :
    ((buildBitmap values).getD (j / 8) 0) &&& 2 ^ (j % 8) = 0 ↔
      values.getD j Value.null = Value.null := by
  rw [land_two_pow_eq_zero_iff]
  unfold buildBitmap
  rw [buildBitmapGo_testBit values _ 0 (j / 8) (j % 8)
    (Nat.mod_lt _ (by omega))
    (by
      intro j' hj'
      simp only [List.length_replicate, Nat.zero_add]
      unfold null_bitmap_size
      omega)]
  have hz : ((List.replicate (null_bitmap_size values.length) 0).getD
      (j / 8) 0) = 0 := by
    simp [List.getD_eq_getElem?_getD, List.getElem?_replicate]
    split <;> rfl
  rw [hz, Nat.zero_testBit, Bool.false_or]
  have hjj : 8 * (j / 8) + j % 8 = j := by omega
  rw [hjj]
  simp only [Nat.zero_le, Nat.zero_add, true_and, hj, decide_eq_false_iff_not]
  tauto

theorem deserialize_value_serialize (v : Value) (dt : DataType)
    (hv : v ≠ Value.null) (hc : conformsTo v dt = true) (rest : List Nat) :
    deserialize_value (serialize_value v ++ rest) dt false =
      some (v, (serialize_value v).length) := by
  have hpow : (256 : Nat) ^ 4 = 2 ^ 32 := by norm_num
  cases v with
  | null => exact absurd rfl hv
  | int n =>
    cases dt with
    | varchar => exact absurd hc (by simp [conformsTo])
    | bool => exact absurd hc (by simp [conformsTo])
    | int =>
      simp only [conformsTo, decide_eq_true_eq] at hc
      have htake : (toLE 4 (intToU32 n) ++ rest).take 4 =
          toLE 4 (intToU32 n) :=
        take_append_of_length _ _ _ (toLE_length 4 _)
      simp only [serialize_value, deserialize_value, Bool.false_eq_true,
        if_neg, not_false_iff]
      rw [if_pos (by simp [toLE_length])]
      rw [htake, fromLE_toLE]
      have hval : u32ToInt (intToU32 n % 256 ^ 4) = n := by
        rw [hpow]
        unfold u32ToInt intToU32
        omega
      rw [hval]
      simp [toLE_length]
  | varchar s =>
    cases dt with
    | int => exact absurd hc (by simp [conformsTo])
    | bool => exact absurd hc (by simp [conformsTo])
    | varchar =>
      simp only [conformsTo, Bool.and_eq_true, decide_eq_true_eq] at hc
      have htake : ((toLE 4 s.length ++ s) ++ rest).take 4 =
          toLE 4 s.length := by
        rw [List.append_assoc]
        exact take_append_of_length _ _ _ (toLE_length 4 _)
      have hdrop : ((toLE 4 s.length ++ s) ++ rest).drop 4 = s ++ rest := by
        rw [List.append_assoc]
        exact drop_append_of_length _ _ _ (toLE_length 4 _)
      have hfrom : fromLE (toLE 4 s.length) = s.length := by
        rw [fromLE_toLE, hpow]
        exact Nat.mod_eq_of_lt hc.2
      have hc4 : 4 ≤ ((toLE 4 s.length ++ s) ++ rest).length := by
        simp only [List.length_append, toLE_length]
        omega
      have hc5 : 4 + s.length ≤ ((toLE 4 s.length ++ s) ++ rest).length := by
        simp only [List.length_append, toLE_length]
        omega
      simp only [serialize_value, deserialize_value, Bool.false_eq_true,
        if_neg, not_false_iff]
      rw [if_pos hc4, htake, hfrom, if_pos hc5]
      rw [hdrop, List.take_left, List.length_append, toLE_length]
  | bool b =>
    cases dt with
    | int => exact absurd hc (by simp [conformsTo])
    | varchar => exact absurd hc (by simp [conformsTo])
    | bool =>
      cases b <;> simp [serialize_value, deserialize_value, List.headD]

theorem deserializeColumns_serialize (ts : List DataType) (vs : List Value)
    (bitmap : List Nat) (i : Nat) (extra : List Nat)
    (hlen : vs.length = ts.length)
    (hconf : (vs.zip ts).all (fun p => conformsTo p.1 p.2) = true)
    (hbit : ∀ j, j < vs.length →
      (((bitmap.getD ((i + j) / 8) 0) &&& 2 ^ ((i + j) % 8) = 0) ↔
        vs.getD j Value.null = Value.null)) :
    deserializeColumns bitmap (vs.flatMap serialize_value ++ extra) i ts =
      some vs := by
  induction ts generalizing vs i extra with
  | nil =>
    have hvs : vs = [] := by
      have h0 : vs.length = 0 := by simpa using hlen
      exact List.length_eq_zero.mp h0
    subst hvs
    rfl
  | cons dt ts ih =>
    obtain ⟨v, vs', rfl⟩ : ∃ v vs', vs = v :: vs' := by
      cases vs with
      | nil => simp at hlen
      | cons a l => exact ⟨a, l, rfl⟩
    simp only [List.all_cons, Bool.and_eq_true, List.zip_cons_cons] at hconf
    have hbit0 := hbit 0 (by simp)
    simp only [Nat.add_zero, List.getD_cons_zero] at hbit0
    have hbitrest : ∀ j, j < vs'.length →
        (((bitmap.getD (((i + 1) + j) / 8) 0) &&&
          2 ^ (((i + 1) + j) % 8) = 0) ↔
          vs'.getD j Value.null = Value.null) := by
      intro j hj
      have := hbit (j + 1) (by simpa using Nat.succ_lt_succ hj)
      rw [show i + (j + 1) = i + 1 + j from by omega] at this
      simpa using this
    unfold deserializeColumns
    by_cases hv : v = Value.null
    · have hisnull : decide ((bitmap.getD (i / 8) 0) &&& 2 ^ (i % 8) = 0)
          = true := by
        rw [decide_eq_true_eq, hbit0, hv]
      simp only [hisnull]
      rw [show deserialize_value ((v :: vs').flatMap serialize_value
          ++ extra) dt true = some (Value.null, 0) from rfl]
      simp only [List.drop_zero]
      rw [show (v :: vs').flatMap serialize_value =
        vs'.flatMap serialize_value from by
          simp [List.flatMap_cons, hv, serialize_value]]
      rw [ih vs' (i + 1) extra (by simpa using hlen) hconf.2 hbitrest]
      rw [hv]
    · have hisnull : decide ((bitmap.getD (i / 8) 0) &&& 2 ^ (i % 8) = 0)
          = false := by
        rw [decide_eq_false_iff_not]
        intro h
        exact hv (hbit0.mp h)
      simp only [hisnull]
      rw [show (v :: vs').flatMap serialize_value ++ extra =
        serialize_value v ++ (vs'.flatMap serialize_value ++ extra) from by
          simp [List.flatMap_cons]]
      rw [deserialize_value_serialize v dt hv hconf.1]
      simp only
      rw [drop_append_of_length _ _ _ rfl]
      rw [ih vs' (i + 1) extra (by simpa using hlen) hconf.2 hbitrest]

theorem deserialize_tuple_serialize (values : List Value)
    (schema : List DataType) (hconf : tupleConforms values schema = true) :
    deserialize_tuple (serialize_tuple values) schema = some values := by
  unfold tupleConforms at hconf
  simp only [Bool.and_eq_true, decide_eq_true_eq] at hconf
  obtain ⟨hlen, hall⟩ := hconf
  unfold serialize_tuple deserialize_tuple
  have hbmlen : (buildBitmap values).length =
      null_bitmap_size schema.length := by
    rw [buildBitmap_length, hlen]
  rw [take_append_of_length _ _ _ hbmlen,
    drop_append_of_length _ _ _ hbmlen]
  have := deserializeColumns_serialize schema values (buildBitmap values)
    0 [] hlen hall (by
      intro j hj
      simpa using buildBitmap_bit values j hj)
  simpa using this

theorem deserialize_tuple_mvcc_serialize (xmin xmax : Nat)
    (values : List Value) (schema : List DataType)
    (hx : xmin < 2 ^ 64) (hy : xmax < 2 ^ 64)
    (hconf : tupleConforms values schema = true) :
    deserialize_tuple_mvcc (serialize_tuple_mvcc xmin xmax values) schema =
      some (xmin, xmax, values) := by
  unfold serialize_tuple_mvcc deserialize_tuple_mvcc
  have h16 : (toLE 8 xmin ++ toLE 8 xmax).length = 16 := by
    simp [toLE_length]
  have hnot16 : ¬ (((toLE 8 xmin ++ toLE 8 xmax) ++ serialize_tuple values).length < 16) := by
    simp only [List.length_append, toLE_length]
    omega
  rw [if_neg hnot16]
  have e1 : ((toLE 8 xmin ++ toLE 8 xmax) ++ serialize_tuple values).drop 16
      = serialize_tuple values :=
    drop_append_of_length _ _ _ h16
  have e2 : ((toLE 8 xmin ++ toLE 8 xmax) ++ serialize_tuple values).take 8
      = toLE 8 xmin := by
    rw [List.append_assoc]
    exact take_append_of_length _ _ _ (toLE_length 8 _)
  have e3 : ((toLE 8 xmin ++ toLE 8 xmax) ++ serialize_tuple values).drop 8
      = toLE 8 xmax ++ serialize_tuple values := by
    rw [List.append_assoc]
    exact drop_append_of_length _ _ _ (toLE_length 8 _)
  have e4 : (toLE 8 xmax ++ serialize_tuple values).take 8 = toLE 8 xmax :=
    take_append_of_length _ _ _ (toLE_length 8 _)
  have hpow8 : (256 : Nat) ^ 8 = 2 ^ 64 := by norm_num
  simp only [e1, e2, e3, e4, deserialize_tuple_serialize values schema hconf,
    fromLE_toLE, hpow8]
  rw [Nat.mod_eq_of_lt hx, Nat.mod_eq_of_lt hy]

/-- C7 counterexample: the `IndexKey` holding one Varchar of exactly
`2 ^ 16` bytes does not round-trip — `serialize` writes its length as a
`u16`, which wraps to 0, so `deserialize` reads back the empty string. -/
theorem indexkey_roundtrip_counterexample :
    IndexKey.deserialize (IndexKey.serialize c7BadKey) ≠ c7BadKey := by
  have hser : IndexKey.serialize c7BadKey =
      1 :: (2 :: ([0, 0] ++ List.replicate 65536 97)) := by
    unfold c7BadKey IndexKey.serialize
    simp only [List.length_cons, List.length_nil, List.flatMap_cons,
      List.flatMap_nil, List.append_nil, serializeValueIK,
      List.length_replicate]
    norm_num
    rfl
  rw [hser]
  have hdes : IndexKey.deserialize
      (1 :: (2 :: ([0, 0] ++ List.replicate 65536 97))) =
      ⟨[Value.varchar []]⟩ := rfl
  rw [hdes]
  intro h
  have hvals := congrArg IndexKey.values h
  simp only [c7BadKey, List.cons.injEq, Value.varchar.injEq, and_true]
    at hvals
  have hlen := congrArg List.length hvals
  rw [List.length_nil, List.length_replicate] at hlen
  exact absurd hlen (by norm_num)

/-- C7 (amended): serialise-then-deserialise is the identity for every
`IndexKey` with fewer than 256 values whose Int payloads are `i32`-ranged
and whose Varchar payloads are shorter than `2 ^ 16` bytes (the `u16`
length prefix), and for every MVCC tuple whose `xmin`/`xmax` are `u64`
values and whose values conform to the schema (Varchar shorter than the
`u32` length prefix allows). -/
theorem serialization_roundtrip_amended (k : IndexKey)
    (hk : k.wfIK = true) (xmin xmax : Nat) (values : List Value)
    (schema : List DataType) (hx : xmin < 2 ^ 64) (hy : xmax < 2 ^ 64)
    (hc : tupleConforms values schema = true) :
    IndexKey.deserialize (IndexKey.serialize k) = k ∧
    deserialize_tuple_mvcc (serialize_tuple_mvcc xmin xmax values) schema =
      some (xmin, xmax, values) := by
  constructor
  · obtain ⟨vs⟩ := k
    unfold IndexKey.wfIK at hk
    simp only [Bool.and_eq_true, decide_eq_true_eq] at hk
    unfold IndexKey.serialize IndexKey.deserialize
    simp only
    rw [Nat.mod_eq_of_lt hk.1]
    have := deserializeValuesIK_serialize vs hk.2 []
    rw [List.append_nil] at this
    rw [this]
  · exact deserialize_tuple_mvcc_serialize xmin xmax values schema hx hy hc

set_option maxRecDepth 8192 in
/-- C7 witness: both round trips at concrete inputs. -/
theorem serialization_roundtrip_amended_witness :
    (c7WitnessKey.wfIK = true ∧ (5 : Nat) < 2 ^ 64 ∧ (0 : Nat) < 2 ^ 64 ∧
      tupleConforms c7WitnessValues c7WitnessSchema = true) ∧
    (IndexKey.deserialize (IndexKey.serialize c7WitnessKey) = c7WitnessKey ∧
     deserialize_tuple_mvcc (serialize_tuple_mvcc 5 0 c7WitnessValues)
        c7WitnessSchema = some (5, 0, c7WitnessValues)) :=
  ⟨⟨by decide, by norm_num, by norm_num, by decide⟩,
   serialization_roundtrip_amended c7WitnessKey (by decide) 5 0
     c7WitnessValues c7WitnessSchema (by norm_num) (by norm_num)
     (by decide)⟩

theorem analyzeStep_max_txn_id (c : Option Nat) (st : AnalysisState)
    (r : WalRecord) :
    (analyzeStep c st r).max_txn_id = max st.max_txn_id r.txn_id := by
  unfold analyzeStep
  rcases r with ⟨lsn, txn, prev, ty⟩
  cases ty <;> simp <;> split <;> simp

theorem analyze_max_txn_id_foldl (records : List WalRecord) (c : Option Nat)
    (st : AnalysisState) :
    (records.foldl (analyzeStep c) st).max_txn_id =
      records.foldl (fun m r => max m r.txn_id) st.max_txn_id := by
  induction records generalizing st with
  | nil => rfl
  | cons r rs ih =>
    simp only [List.foldl_cons]
    rw [ih, analyzeStep_max_txn_id]

/-- C3: the code restores `next_txn_id` as
`max(WAL max_txn_id, checkpoint next_txn_id).max(1)` — without the `+ 1`
required by the spec.  With a WAL holding a single Begin record of
transaction 5 and no checkpoint, recovery sets `next_txn_id = 5`, and the
next `begin()` allocates id 5, a transaction id already used before the
crash; the spec demands 6. -/
theorem recover_next_txn_id_missing_increment :
    recoverNextTxnId [c3FailingRecord] none 0 1 = 5 ∧
    (tmBegin (recoverNextTxnId [c3FailingRecord] none 0 1)).1 = 5 ∧
    (analyze [c3FailingRecord] none).max_txn_id = 5 ∧
    recoverNextTxnId [c3FailingRecord] none 0 1 ≠
      max (analyze [c3FailingRecord] none).max_txn_id 0 + 1 := by
  refine ⟨by decide, by decide, by decide, by decide⟩

theorem setByte_same (d : Nat → Nat) (i b : Nat) : setByte d i b i = b := by
  simp [setByte]

theorem setByte_ne (d : Nat → Nat) (i b j : Nat) (h : j ≠ i) :
    setByte d i b j = d j := by
  simp [setByte, h]

theorem get16_set16_same (d : Nat → Nat) (i v : Nat) (hv : v < 2 ^ 16) :
    get16 (set16 d i v) i = v := by
  unfold get16 set16
  rw [setByte_ne _ _ _ _ (by omega), setByte_same, setByte_same]
  omega

theorem get16_set16_ne (d : Nat → Nat) (i v j : Nat)
    (h : j + 1 < i ∨ i + 1 < j) : get16 (set16 d i v) j = get16 d j := by
  unfold get16 set16
  rw [setByte_ne _ _ _ _ (by omega), setByte_ne _ _ _ _ (by omega),
    setByte_ne _ _ _ _ (by omega), setByte_ne _ _ _ _ (by omega)]

theorem writeBytes_outside (bs : List Nat) (d : Nat → Nat) (i j : Nat)
    (h : j < i ∨ i + bs.length ≤ j) : writeBytes d i bs j = d j := by
  induction bs generalizing d i with
  | nil => rfl
  | cons b bs ih =>
    simp only [writeBytes]
    rw [ih _ _ (by simp at h; omega)]
    rw [setByte_ne _ _ _ _ (by simp at h; omega)]

theorem get16_writeBytes_outside (bs : List Nat) (d : Nat → Nat) (i j : Nat)
    (h : j + 1 < i ∨ i + bs.length ≤ j) :
    get16 (writeBytes d i bs) j = get16 d j := by
  unfold get16
  rw [writeBytes_outside _ _ _ _ (by omega),
    writeBytes_outside _ _ _ _ (by omega)]

theorem set_slot_tuple_count (p : HeapPage) (s o l : Nat) :
    (p.set_slot s o l).tuple_count = p.tuple_count := by
  unfold HeapPage.set_slot HeapPage.tuple_count HEADER_SIZE SLOT_SIZE
  simp only
  rw [get16_set16_ne _ _ _ _ (by omega), get16_set16_ne _ _ _ _ (by omega)]

theorem set_slot_fso (p : HeapPage) (s o l : Nat) :
    (p.set_slot s o l).free_space_offset = p.free_space_offset := by
  unfold HeapPage.set_slot HeapPage.free_space_offset HEADER_SIZE SLOT_SIZE
  simp only
  rw [get16_set16_ne _ _ _ _ (by omega), get16_set16_ne _ _ _ _ (by omega)]

theorem set_slot_get_same (p : HeapPage) (s o l : Nat) (ho : o < 2 ^ 16)
    (hl : l < 2 ^ 16) : (p.set_slot s o l).get_slot s = (o, l) := by
  unfold HeapPage.set_slot HeapPage.get_slot HEADER_SIZE SLOT_SIZE
  simp only
  rw [get16_set16_ne _ _ _ _ (by omega), get16_set16_same _ _ _ ho,
    get16_set16_same _ _ _ hl]

theorem set_slot_get_ne (p : HeapPage) (s o l t : Nat) (h : t ≠ s) :
    (p.set_slot s o l).get_slot t = p.get_slot t := by
  unfold HeapPage.set_slot HeapPage.get_slot HEADER_SIZE SLOT_SIZE
  simp only
  rcases Nat.lt_or_ge t s with hts | hts
  · rw [get16_set16_ne _ _ _ _ (by omega), get16_set16_ne _ _ _ _ (by omega),
      get16_set16_ne _ _ _ _ (by omega), get16_set16_ne _ _ _ _ (by omega)]
  · have hts' : s < t := by omega
    rw [get16_set16_ne _ _ _ _ (by omega), get16_set16_ne _ _ _ _ (by omega),
      get16_set16_ne _ _ _ _ (by omega), get16_set16_ne _ _ _ _ (by omega)]

theorem set_tuple_count_spec (p : HeapPage) (c : Nat) (hc : c < 2 ^ 16) :
    (p.set_tuple_count c).tuple_count = c ∧
    (p.set_tuple_count c).free_space_offset = p.free_space_offset ∧
    ∀ t, (p.set_tuple_count c).get_slot t = p.get_slot t := by
  unfold HeapPage.set_tuple_count HeapPage.tuple_count
    HeapPage.free_space_offset HeapPage.get_slot HEADER_SIZE SLOT_SIZE
  simp only
  refine ⟨get16_set16_same _ _ _ hc, ?_, ?_⟩
  · rw [get16_set16_ne _ _ _ _ (by omega)]
  · intro t
    rw [get16_set16_ne _ _ _ _ (by omega), get16_set16_ne _ _ _ _ (by omega)]

theorem set_fso_spec (p : HeapPage) (o : Nat) (ho : o < 2 ^ 16) :
    (p.set_free_space_offset o).free_space_offset = o ∧
    (p.set_free_space_offset o).tuple_count = p.tuple_count ∧
    ∀ t, (p.set_free_space_offset o).get_slot t = p.get_slot t := by
  unfold HeapPage.set_free_space_offset HeapPage.tuple_count
    HeapPage.free_space_offset HeapPage.get_slot HEADER_SIZE SLOT_SIZE
  simp only
  refine ⟨get16_set16_same _ _ _ ho, ?_, ?_⟩
  · rw [get16_set16_ne _ _ _ _ (by omega)]
  · intro t
    rw [get16_set16_ne _ _ _ _ (by omega), get16_set16_ne _ _ _ _ (by omega)]

theorem writeBytes_fields (p : HeapPage) (bs : List Nat) (start : Nat)
    (hstart : HEADER_SIZE ≤ start) :
    (HeapPage.mk (writeBytes p.data start bs) p.page_lsn).tuple_count =
      p.tuple_count ∧
    (HeapPage.mk (writeBytes p.data start bs) p.page_lsn).free_space_offset
      = p.free_space_offset ∧
    ∀ t, HEADER_SIZE + t * SLOT_SIZE + SLOT_SIZE ≤ start →
      (HeapPage.mk (writeBytes p.data start bs) p.page_lsn).get_slot t =
        p.get_slot t := by
  unfold HeapPage.tuple_count HeapPage.free_space_offset HeapPage.get_slot
    HEADER_SIZE SLOT_SIZE at *
  simp only
  refine ⟨?_, ?_, ?_⟩
  · rw [get16_writeBytes_outside _ _ _ _ (by omega)]
  · rw [get16_writeBytes_outside _ _ _ _ (by omega)]
  · intro t ht
    rw [get16_writeBytes_outside _ _ _ _ (by omega),
      get16_writeBytes_outside _ _ _ _ (by omega)]

theorem insert_spec (p : HeapPage) (bytes : List Nat) (q : HeapPage)
    (sid : Nat) (hinv : PageInv p) (h : p.insert bytes = some (q, sid)) :
    sid = p.tuple_count ∧
    q.tuple_count = p.tuple_count + 1 ∧
    q.free_space_offset = p.free_space_offset - bytes.length ∧
    (∀ t, t < p.tuple_count → q.get_slot t = p.get_slot t) ∧
    q.get_slot p.tuple_count =
      (p.free_space_offset - bytes.length, bytes.length % 2 ^ 16) ∧
    HEADER_SIZE + p.tuple_count * SLOT_SIZE + SLOT_SIZE + bytes.length ≤
      p.free_space_offset := by
  obtain ⟨hI1, hI2, hI3⟩ := hinv
  unfold HeapPage.insert at h
  by_cases hsp : p.free_space < bytes.length + SLOT_SIZE
  · rw [if_pos hsp] at h
    exact absurd h (by simp)
  · rw [if_neg hsp] at h
    simp only [Option.some.injEq, Prod.mk.injEq] at h
    obtain ⟨hq, hsid⟩ := h
    have hspace : HEADER_SIZE + p.tuple_count * SLOT_SIZE + SLOT_SIZE +
        bytes.length ≤ p.free_space_offset := by
      unfold HeapPage.free_space at hsp
      omega
    have hcount : p.tuple_count < 2 ^ 16 - 1 := by
      unfold HEADER_SIZE SLOT_SIZE PAGE_SIZE at *
      omega
    have hoff : p.free_space_offset - bytes.length < 2 ^ 16 := by
      unfold PAGE_SIZE at hI2
      omega
    have hstart : HEADER_SIZE + p.tuple_count * SLOT_SIZE + SLOT_SIZE ≤
        p.free_space_offset - bytes.length := by
      omega
    obtain ⟨hw1, hw2, hw3⟩ := writeBytes_fields p bytes
      (p.free_space_offset - bytes.length) (by unfold HEADER_SIZE at *; omega)
    obtain ⟨hc1, hc2, hc3⟩ := set_tuple_count_spec
      (({ p with data := writeBytes p.data (p.free_space_offset -
        bytes.length) bytes } : HeapPage).set_slot p.tuple_count
        (p.free_space_offset - bytes.length) (bytes.length % 2 ^ 16))
      (p.tuple_count + 1) (by omega)
    obtain ⟨hf1, hf2, hf3⟩ := set_fso_spec
      ((({ p with data := writeBytes p.data (p.free_space_offset -
        bytes.length) bytes } : HeapPage).set_slot p.tuple_count
        (p.free_space_offset - bytes.length)
        (bytes.length % 2 ^ 16)).set_tuple_count (p.tuple_count + 1))
      (p.free_space_offset - bytes.length) hoff
    subst hq
    refine ⟨hsid.symm, ?_, ?_, ?_, ?_, hspace⟩
    · rw [hf2, hc1]
    · rw [hf1]
    · intro t ht
      rw [hf3, hc3, set_slot_get_ne _ _ _ _ _ (by omega)]
      exact hw3 t (by unfold HEADER_SIZE SLOT_SIZE at *; omega)
    · rw [hf3, hc3, set_slot_get_same _ _ _ _ hoff (by omega)]

theorem delete_spec (p : HeapPage) (s : Nat) (q : HeapPage)
    (hinv : PageInv p) (h : p.delete s = some q) :
    s < p.tuple_count ∧ slotLen p s ≠ 0 ∧
    q.tuple_count = p.tuple_count ∧
    q.free_space_offset = p.free_space_offset ∧
    (∀ t, t ≠ s → q.get_slot t = p.get_slot t) ∧
    q.get_slot s = (slotOff p s, 0) := by
  unfold HeapPage.delete at h
  by_cases hlt : p.tuple_count ≤ s
  · rw [if_pos hlt] at h
    exact absurd h (by simp)
  · rw [if_neg hlt] at h
    by_cases hz : (p.get_slot s).2 = 0
    · rw [if_pos hz] at h
      exact absurd h (by simp)
    · rw [if_neg hz] at h
      simp only [Option.some.injEq] at h
      subst h
      have hoffb : slotOff p s ≤ PAGE_SIZE := (hinv.2.2 s (by omega)).2
      refine ⟨by omega, hz, set_slot_tuple_count _ _ _ _,
        set_slot_fso _ _ _ _, ?_, ?_⟩
      · intro t ht
        exact set_slot_get_ne _ _ _ _ _ ht
      · have hrw : (p.get_slot s).1 = slotOff p s := rfl
        have hb : (p.get_slot s).1 < 2 ^ 16 := by
          rw [hrw]
          unfold PAGE_SIZE at hoffb
          omega
        rw [← hrw]
        exact set_slot_get_same _ _ _ _ hb (by omega)

theorem restore_spec (p : HeapPage) (s : Nat) (bytes : List Nat)
    (q : HeapPage) (hinv : PageInv p) (h : p.restore s bytes = some q) :
    s < p.tuple_count ∧ slotLen p s = 0 ∧
    q.tuple_count = p.tuple_count ∧
    q.free_space_offset = p.free_space_offset ∧
    (∀ t, t ≠ s → t < p.tuple_count → q.get_slot t = p.get_slot t) ∧
    q.get_slot s = (slotOff p s, bytes.length % 2 ^ 16) := by
  obtain ⟨hI1, hI2, hI3⟩ := hinv
  unfold HeapPage.restore at h
  by_cases hlt : p.tuple_count ≤ s
  · rw [if_pos hlt] at h
    exact absurd h (by simp)
  · rw [if_neg hlt] at h
    by_cases hz : (p.get_slot s).2 ≠ 0
    · rw [if_pos hz] at h
      exact absurd h (by simp)
    · rw [if_neg hz] at h
      simp only [Option.some.injEq] at h
      subst h
      have hoffs := hI3 s (by omega)
      have hstart : HEADER_SIZE ≤ (p.get_slot s).1 := by
        have hrw : slotOff p s = (p.get_slot s).1 := rfl
        unfold HEADER_SIZE SLOT_SIZE at hI1
        unfold HEADER_SIZE
        omega
      obtain ⟨hw1, hw2, hw3⟩ := writeBytes_fields p bytes
        ((p.get_slot s).1) hstart
      simp only [Decidable.not_not] at hz
      refine ⟨by omega, hz, ?_, ?_, ?_, ?_⟩
      · rw [set_slot_tuple_count, hw1]
      · rw [set_slot_fso, hw2]
      · intro t ht htc
        rw [set_slot_get_ne _ _ _ _ _ ht]
        refine hw3 t ?_
        have hrw : slotOff p s = (p.get_slot s).1 := rfl
        have := hI3 t htc
        unfold HEADER_SIZE SLOT_SIZE at hI1 ⊢
        omega
      · have hrw : slotOff p s = (p.get_slot s).1 := rfl
        rw [← hrw]
        exact set_slot_get_same _ _ _ _
          (by unfold PAGE_SIZE at hoffs; omega) (by omega)

theorem setXmax_spec (p : HeapPage) (s x : Nat) (q : HeapPage)
    (hinv : PageInv p) (h : p.set_tuple_xmax s x = some q) :
    q.tuple_count = p.tuple_count ∧
    q.free_space_offset = p.free_space_offset ∧
    (∀ t, t < p.tuple_count → q.get_slot t = p.get_slot t) := by
  obtain ⟨hI1, hI2, hI3⟩ := hinv
  unfold HeapPage.set_tuple_xmax at h
  by_cases hlt : p.tuple_count ≤ s
  · rw [if_pos hlt] at h
    exact absurd h (by simp)
  · rw [if_neg hlt] at h
    by_cases hz : (p.get_slot s).2 = 0
    · rw [if_pos hz] at h
      exact absurd h (by simp)
    · rw [if_neg hz] at h
      by_cases h16 : (p.get_slot s).2 < 16
      · rw [if_pos h16] at h
        exact absurd h (by simp)
      · rw [if_neg h16] at h
        simp only [Option.some.injEq] at h
        subst h
        have hoffs := hI3 s (by omega)
        have hrw : slotOff p s = (p.get_slot s).1 := rfl
        have hstart : HEADER_SIZE ≤ (p.get_slot s).1 + 8 := by
          unfold HEADER_SIZE
          omega
        obtain ⟨hw1, hw2, hw3⟩ := writeBytes_fields p (toLE 8 x)
          ((p.get_slot s).1 + 8) hstart
        refine ⟨hw1, hw2, ?_⟩
        intro t htc
        refine hw3 t ?_
        have := hI3 t htc
        unfold HEADER_SIZE SLOT_SIZE at hI1 ⊢
        omega

theorem applyOp_inv (p : HeapPage) (op : PageOp) (hinv : PageInv p) :
    PageInv (applyOp p op) := by
  obtain ⟨hI1, hI2, hI3⟩ := hinv
  cases op with
  | ins bytes =>
    simp only [applyOp]
    cases hr : p.insert bytes with
    | none => exact ⟨hI1, hI2, hI3⟩
    | some qs =>
      obtain ⟨q, sid⟩ := qs
      obtain ⟨-, hc, hf, hold, hnew, hspace⟩ :=
        insert_spec p bytes q sid ⟨hI1, hI2, hI3⟩ hr
      refine ⟨?_, ?_, ?_⟩
      · rw [hc, hf]
        unfold HEADER_SIZE SLOT_SIZE at *
        omega
      · rw [hf]
        unfold PAGE_SIZE at *
        omega
      · intro s hs
        rw [hc] at hs
        rcases Nat.lt_or_ge s p.tuple_count with hlt | hge
        · have hsl : slotOff q s = slotOff p s := by
            unfold slotOff
            rw [hold s hlt]
          have := hI3 s hlt
          rw [hf, hsl]
          omega
        · have hseq : s = p.tuple_count := by omega
          have hsl : slotOff q s = p.free_space_offset - bytes.length := by
            unfold slotOff
            rw [hseq, hnew]
          rw [hf, hsl]
          unfold PAGE_SIZE at *
          omega
  | del s =>
    simp only [applyOp]
    cases hr : p.delete s with
    | none => exact ⟨hI1, hI2, hI3⟩
    | some q =>
      obtain ⟨hs, -, hc, hf, hother, hsame⟩ :=
        delete_spec p s q ⟨hI1, hI2, hI3⟩ hr
      refine ⟨by rw [hc, hf]; exact hI1, by rw [hf]; exact hI2, ?_⟩
      intro t ht
      rw [hc] at ht
      rw [hf]
      by_cases hts : t = s
      · subst hts
        have hsl : slotOff q t = slotOff p t := by
          unfold slotOff
          rw [hsame]
          rfl

        rw [hsl]
        exact hI3 t ht
      · have hsl : slotOff q t = slotOff p t := by
          unfold slotOff
          rw [hother t hts]
        rw [hsl]
        exact hI3 t ht
  | res s bytes =>
    simp only [applyOp]
    cases hr : p.restore s bytes with
    | none => exact ⟨hI1, hI2, hI3⟩
    | some q =>
      obtain ⟨hs, -, hc, hf, hother, hsame⟩ :=
        restore_spec p s bytes q ⟨hI1, hI2, hI3⟩ hr
      refine ⟨by rw [hc, hf]; exact hI1, by rw [hf]; exact hI2, ?_⟩
      intro t ht
      rw [hc] at ht
      rw [hf]
      by_cases hts : t = s
      · subst hts
        have hsl : slotOff q t = slotOff p t := by
          unfold slotOff
          rw [hsame]
          rfl

        rw [hsl]
        exact hI3 t ht
      · have hsl : slotOff q t = slotOff p t := by
          unfold slotOff
          rw [hother t hts ht]
        rw [hsl]
        exact hI3 t ht
  | setXmax s x =>
    simp only [applyOp]
    cases hr : p.set_tuple_xmax s x with
    | none => exact ⟨hI1, hI2, hI3⟩
    | some q =>
      obtain ⟨hc, hf, hall⟩ := setXmax_spec p s x q ⟨hI1, hI2, hI3⟩ hr
      refine ⟨by rw [hc, hf]; exact hI1, by rw [hf]; exact hI2, ?_⟩
      intro t ht
      rw [hc] at ht
      have hsl : slotOff q t = slotOff p t := by
        unfold slotOff
        rw [hall t ht]
      rw [hf, hsl]
      exact hI3 t ht

theorem applyOp_deleted_stays (p : HeapPage) (op : PageOp) (s : Nat)
    (hinv : PageInv p) (hs : s < p.tuple_count) (hz : slotLen p s = 0)
    (hnr : op.isRestoreOf s = false) :
    slotLen (applyOp p op) s = 0 ∧ s < (applyOp p op).tuple_count := by
  cases op with
  | ins bytes =>
    simp only [applyOp]
    cases hr : p.insert bytes with
    | none => exact ⟨hz, hs⟩
    | some qs =>
      obtain ⟨q, sid⟩ := qs
      obtain ⟨-, hc, -, hold, -, -⟩ := insert_spec p bytes q sid hinv hr
      have : slotLen q s = slotLen p s := by
        unfold slotLen
        rw [hold s hs]
      exact ⟨by rw [this]; exact hz, by show s < q.tuple_count; omega⟩
  | del t =>
    simp only [applyOp]
    cases hr : p.delete t with
    | none => exact ⟨hz, hs⟩
    | some q =>
      obtain ⟨ht, htz, hc, -, hother, hsame⟩ := delete_spec p t q hinv hr
      by_cases hts : t = s
      · subst hts
        exact absurd hz htz
      · have : slotLen q s = slotLen p s := by
          unfold slotLen
          rw [hother s (by omega)]
        exact ⟨by rw [this]; exact hz, by show s < q.tuple_count; omega⟩
  | res t bytes =>
    simp only [applyOp]
    cases hr : p.restore t bytes with
    | none => exact ⟨hz, hs⟩
    | some q =>
      have hts : t ≠ s := by
        intro he
        rw [he] at hnr
        simp [PageOp.isRestoreOf] at hnr
      obtain ⟨-, -, hc, -, hother, -⟩ := restore_spec p t bytes q hinv hr
      have : slotLen q s = slotLen p s := by
        unfold slotLen
        rw [hother s (Ne.symm hts) hs]
      exact ⟨by rw [this]; exact hz, by show s < q.tuple_count; omega⟩
  | setXmax t x =>
    simp only [applyOp]
    cases hr : p.set_tuple_xmax t x with
    | none => exact ⟨hz, hs⟩
    | some q =>
      obtain ⟨hc, -, hall⟩ := setXmax_spec p t x q hinv hr
      have : slotLen q s = slotLen p s := by
        unfold slotLen
        rw [hall s hs]
      exact ⟨by rw [this]; exact hz, by show s < q.tuple_count; omega⟩

theorem pageInv_new (pid : Nat) : PageInv (HeapPage.new pid) := by
  have hcount : (HeapPage.new pid).tuple_count = 0 := by
    unfold HeapPage.new HeapPage.tuple_count
    simp only
    rw [get16_set16_ne _ _ _ _ (by omega), get16_set16_same _ _ _ (by omega)]
  have hfso : (HeapPage.new pid).free_space_offset = PAGE_SIZE := by
    unfold HeapPage.new HeapPage.free_space_offset
    simp only
    rw [get16_set16_same _ _ _ (by unfold PAGE_SIZE; omega)]
  refine ⟨?_, ?_, ?_⟩
  · rw [hcount, hfso]
    unfold HEADER_SIZE SLOT_SIZE PAGE_SIZE
    omega
  · rw [hfso]
  · intro s hsv
    rw [hcount] at hsv
    omega

theorem runOps_inv (ops : List PageOp) (p : HeapPage) (hinv : PageInv p) :
    PageInv (runOps p ops) := by
  induction ops generalizing p with
  | nil => exact hinv
  | cons op ops ih =>
    exact ih _ (applyOp_inv p op hinv)

theorem runOps_deleted_stays (more : List PageOp) (p : HeapPage) (s : Nat)
    (hinv : PageInv p) (hs : s < p.tuple_count) (hz : slotLen p s = 0)
    (hnr : ∀ op ∈ more, op.isRestoreOf s = false) :
    slotLen (runOps p more) s = 0 := by
  induction more generalizing p with
  | nil => exact hz
  | cons op ops ih =>
    obtain ⟨hz2, hs2⟩ := applyOp_deleted_stays p op s hinv hs hz
      (hnr op (by simp))
    exact ih _ (applyOp_inv p op hinv) hs2 hz2
      (fun o ho => hnr o (by simp [ho]))

/-- C9: for every heap page reachable from `Page::new` by any sequence of
`insert`/`delete`/`restore`/`set_tuple_xmax` operations, the slot-array
end (8 + 4·tuple_count) stays at or below `free_space_offset`; and once a
`delete` succeeds on a slot, its recorded length is 0 and stays 0 through
any further operations that do not `restore` that slot. -/
theorem heap_page_invariant (pid : Nat) (ops : List PageOp) :
    (HEADER_SIZE + (runOps (HeapPage.new pid) ops).tuple_count * SLOT_SIZE ≤
      (runOps (HeapPage.new pid) ops).free_space_offset) ∧
    (∀ s more,
      s < (runOps (HeapPage.new pid) ops).tuple_count →
      slotLen (runOps (HeapPage.new pid) ops) s ≠ 0 →
      (∀ op ∈ more, op.isRestoreOf s = false) →
      slotLen (runOps (applyOp (runOps (HeapPage.new pid) ops)
        (.del s)) more) s = 0) := by
  have hinv : PageInv (runOps (HeapPage.new pid) ops) :=
    runOps_inv ops _ (pageInv_new pid)
  refine ⟨hinv.1, ?_⟩
  intro s more hs hnz hnr
  set p := runOps (HeapPage.new pid) ops with hp
  have hdel : ∃ q, p.delete s = some q := by
    unfold HeapPage.delete
    rw [if_neg (by omega)]
    rw [if_neg (by exact hnz)]
    exact ⟨_, rfl⟩
  obtain ⟨q, hq⟩ := hdel
  obtain ⟨-, -, hc, -, -, hsame⟩ := delete_spec p s q hinv hq
  have happ : applyOp p (.del s) = q := by
    simp only [applyOp]
    rw [hq]
  rw [happ]
  refine runOps_deleted_stays more q s ?_ (by omega) ?_ hnr
  · have := applyOp_inv p (.del s) hinv
    rw [happ] at this
    exact this
  · unfold slotLen
    rw [hsame]

/-- C9 witness: the invariant and the deleted-slot persistence at a
concrete page: insert one 16-byte tuple, delete slot 0, then run
`set_tuple_xmax` and another insert. -/
theorem heap_page_invariant_witness :
    (HEADER_SIZE +
      (runOps (HeapPage.new 7) c9WitnessOps).tuple_count * SLOT_SIZE ≤
      (runOps (HeapPage.new 7) c9WitnessOps).free_space_offset) ∧
    (0 < (runOps (HeapPage.new 7) c9WitnessOps).tuple_count ∧
     slotLen (runOps (HeapPage.new 7) c9WitnessOps) 0 ≠ 0 ∧
     (∀ op ∈ c9WitnessMore, op.isRestoreOf 0 = false)) ∧
    slotLen (runOps (applyOp (runOps (HeapPage.new 7) c9WitnessOps)
      (.del 0)) c9WitnessMore) 0 = 0 :=
  ⟨(heap_page_invariant 7 c9WitnessOps).1,
   ⟨by decide, by decide, by decide⟩,
   (heap_page_invariant 7 c9WitnessOps).2 0 c9WitnessMore (by decide)
     (by decide) (by decide)⟩

/-- The `flush_all` loop never changes the WAL flushed position. -/
theorem flushAllGo_flushed (entries : List (Nat × Nat))
    (bp : BufferPoolManager) :
    (flushAllGo bp entries).wal_flushed_lsn = bp.wal_flushed_lsn := by
  induction entries generalizing bp with
  | nil => rfl
  | cons e rest ih =>
    obtain ⟨page_id, frame_id⟩ := e
    simp only [flushAllGo]
    rw [ih]
    rcases h : bp.frames.get? frame_id with _ | frame
    · rfl
    · obtain ⟨page, fpid, pin, dirty⟩ := frame
      cases dirty <;> rfl

/-- C2: the write-ahead rule is violated.  In `c2State` the only frame is
dirty with `page_lsn = 5` while the WAL flushed position is 0, yet both
`evict` and `flush_all` write the page to disk — the write event records
`page_lsn = 5 > 0 = wal_flushed_at_write`, so WAL records up to LSN 5 were
not durable before the page write. -/
theorem buffer_pool_write_ahead_violated :
    (c2State.evict 0).writes = [⟨1, 5, 0⟩] ∧
    c2State.flush_all.writes = [⟨1, 5, 0⟩] ∧
    ¬ ((5 : Nat) ≤ 0) :=
  ⟨rfl, rfl, by decide⟩

/-- C2 (amended): `evict` and `flush_all` never consult or advance the
WAL flushed position; a dirty frame's page is written to disk
unconditionally, the write event recording the page's `page_lsn` together
with the unchanged flushed position (`flush_to` is never called in this
snapshot, so nothing enforces `page_lsn ≤ flushed` at a page write). -/
theorem evict_flush_all_no_wal_flush (bp : BufferPoolManager) (fid : Nat)
    (frame : Frame) (pid : Nat)
    (hf : bp.frames.get? fid = some frame)
    (hpid : frame.page_id = some pid)
    (hd : frame.is_dirty = true) :
    (bp.evict fid).wal_flushed_lsn = bp.wal_flushed_lsn ∧
    bp.flush_all.wal_flushed_lsn = bp.wal_flushed_lsn ∧
    (bp.evict fid).writes =
      bp.writes ++ [⟨pid, frame.page.page_lsn, bp.wal_flushed_lsn⟩] ∧
    (bp.evict fid).disk pid = frame.page.data := by
  rw [List.get?_eq_getElem?] at hf
  refine ⟨?_, flushAllGo_flushed bp.page_table bp, ?_, ?_⟩
  · simp [BufferPoolManager.evict, hf, hpid, hd]
  · simp [BufferPoolManager.evict, hf, hpid, hd]
  · simp [BufferPoolManager.evict, hf, hpid, hd]

/-- Closed instance of the C2 amended theorem at `c2State`. -/
theorem evict_flush_all_no_wal_flush_witness :
    (c2State.evict 0).wal_flushed_lsn = c2State.wal_flushed_lsn ∧
    c2State.flush_all.wal_flushed_lsn = c2State.wal_flushed_lsn ∧
    (c2State.evict 0).writes = c2State.writes ++ [⟨1, 5, 0⟩] ∧
    (c2State.evict 0).disk 1 = (fun _ => (0 : Nat)) :=
  evict_flush_all_no_wal_flush c2State 0
    { page := { data := fun _ => 0, page_lsn := 5 },
      page_id := some 1, pin_count := 0, is_dirty := true } 1 rfl rfl rfl

/-- C8: COMMIT and ROLLBACK with no active transaction both bail with an
error before touching anything: the returned state is exactly the input
state (no WAL append, no flush, no lock release, no page change; day12
has no CLOG), and the connection's transaction is Inactive. -/
theorem txn_control_inactive_noop (s : Day12.InstanceState)
    (h : s.txn.is_active = false) :
    Day12.executeCommitStmt s = (.error Day12.noTxnError, s) ∧
    Day12.executeRollbackStmt s = (.error Day12.noTxnError, s) ∧
    s.txn.state = Day12.TransactionState.inactive := by
  have hb : (!s.txn.is_active) = true := by rw [h]; rfl
  refine ⟨?_, ?_, ?_⟩
  · unfold Day12.executeCommitStmt
    rw [if_pos hb]
  · unfold Day12.executeRollbackStmt
    rw [if_pos hb]
  · cases hs : s.txn.state with
    | inactive => rfl
    | active =>
      rw [Day12.Transaction.is_active, hs] at h
      exact absurd h (by decide)

/-- Closed instance of the C8 theorem at the inactive `c8State`. -/
theorem txn_control_inactive_noop_witness :
    Day12.executeCommitStmt Day12.c8State =
      (.error Day12.noTxnError, Day12.c8State) ∧
    Day12.executeRollbackStmt Day12.c8State =
      (.error Day12.noTxnError, Day12.c8State) ∧
    Day12.c8State.txn.state = Day12.TransactionState.inactive :=
  txn_control_inactive_noop Day12.c8State rfl

/-! #### Comparison laws (C4 groundwork) -/

theorem cmpN_eq_lt (a b : Nat) : cmpN a b = .lt ↔ a < b := by
  unfold cmpN
  split_ifs <;> simp <;> omega

theorem cmpN_eq_gt (a b : Nat) : cmpN a b = .gt ↔ b < a := by
  unfold cmpN
  split_ifs <;> simp <;> omega

theorem cmpN_eq_eq (a b : Nat) : cmpN a b = .eq ↔ a = b := by
  unfold cmpN
  split_ifs <;> simp <;> omega

theorem cmpN_lawful : CmpLawful cmpN :=
  ⟨cmpN_eq_eq,
   fun a b => by rw [cmpN_eq_gt, cmpN_eq_lt],
   fun a b d h1 h2 => by
     rw [cmpN_eq_lt] at h1 h2 ⊢
     omega⟩

theorem cmpI_eq_lt (a b : Int) : cmpI a b = .lt ↔ a < b := by
  unfold cmpI
  split_ifs <;> simp <;> omega

theorem cmpI_eq_gt (a b : Int) : cmpI a b = .gt ↔ b < a := by
  unfold cmpI
  split_ifs <;> simp <;> omega

theorem cmpI_eq_eq (a b : Int) : cmpI a b = .eq ↔ a = b := by
  unfold cmpI
  split_ifs <;> simp <;> omega

theorem cmpI_lawful : CmpLawful cmpI :=
  ⟨cmpI_eq_eq,
   fun a b => by rw [cmpI_eq_gt, cmpI_eq_lt],
   fun a b d h1 h2 => by
     rw [cmpI_eq_lt] at h1 h2 ⊢
     omega⟩

theorem cmpB_lawful : CmpLawful cmpB := by
  refine ⟨?_, ?_, ?_⟩ <;> decide

theorem cmpList_eq_iff (c : α → α → Ordering)
    (he : ∀ a b, c a b = .eq ↔ a = b) :
    ∀ l1 l2 : List α, cmpList c l1 l2 = .eq ↔ l1 = l2 := by
  intro l1
  induction l1 with
  | nil =>
    intro l2
    cases l2 <;> simp [cmpList]
  | cons a as' ih =>
    intro l2
    cases l2 with
    | nil => simp [cmpList]
    | cons b bs =>
      cases h : c a b with
      | lt =>
        simp only [cmpList, h, List.cons.injEq]
        constructor
        · intro hh
          exact absurd hh (by decide)
        · rintro ⟨rfl, -⟩
          rw [(he a a).mpr rfl] at h
          exact absurd h (by decide)
      | eq =>
        obtain rfl := (he a b).mp h
        simp only [cmpList, h, List.cons.injEq, true_and]
        exact ih bs
      | gt =>
        simp only [cmpList, h, List.cons.injEq]
        constructor
        · intro hh
          exact absurd hh (by decide)
        · rintro ⟨rfl, -⟩
          rw [(he a a).mpr rfl] at h
          exact absurd h (by decide)

theorem cmpList_gt_iff (c : α → α → Ordering)
    (he : ∀ a b, c a b = .eq ↔ a = b)
    (hs : ∀ a b, c a b = .gt ↔ c b a = .lt) :
    ∀ l1 l2 : List α, cmpList c l1 l2 = .gt ↔ cmpList c l2 l1 = .lt := by
  intro l1
  induction l1 with
  | nil =>
    intro l2
    cases l2 <;> simp [cmpList]
  | cons a as' ih =>
    intro l2
    cases l2 with
    | nil => simp [cmpList]
    | cons b bs =>
      cases h : c a b with
      | lt =>
        have h' : c b a = .gt := (hs b a).mpr h
        simp [cmpList, h, h']
      | eq =>
        obtain rfl := (he a b).mp h
        simp only [cmpList, h]
        exact ih bs
      | gt =>
        have h' : c b a = .lt := (hs a b).mp h
        simp [cmpList, h, h']

theorem cmpList_lt_trans (c : α → α → Ordering)
    (he : ∀ a b, c a b = .eq ↔ a = b)
    (ht : ∀ a b d, c a b = .lt → c b d = .lt → c a d = .lt) :
    ∀ l1 l2 l3 : List α, cmpList c l1 l2 = .lt → cmpList c l2 l3 = .lt →
      cmpList c l1 l3 = .lt := by
  intro l1
  induction l1 with
  | nil =>
    intro l2 l3 h1 h2
    cases l2 with
    | nil => exact h2
    | cons b bs =>
      cases l3 with
      | nil => simp [cmpList] at h2
      | cons d ds => simp [cmpList]
  | cons a as' ih =>
    intro l2 l3 h1 h2
    cases l2 with
    | nil => simp [cmpList] at h1
    | cons b bs =>
      cases l3 with
      | nil => simp [cmpList] at h2
      | cons d ds =>
        cases hab : c a b with
        | lt =>
          cases hbd : c b d with
          | lt => simp [cmpList, ht a b d hab hbd]
          | eq =>
            obtain rfl := (he b d).mp hbd
            simp [cmpList, hab]
          | gt => simp [cmpList, hbd] at h2
        | eq =>
          obtain rfl := (he a b).mp hab
          simp only [cmpList, hab] at h1 ⊢
          cases had : c a d with
          | lt => rfl
          | eq => simp only [cmpList, had] at h2 ⊢; exact ih bs ds h1 h2
          | gt => simp [cmpList, had] at h2
        | gt => simp [cmpList, hab] at h1

theorem cmpList_lawful (c : α → α → Ordering) (hc : CmpLawful c) :
    CmpLawful (cmpList c) :=
  ⟨cmpList_eq_iff c hc.1, cmpList_gt_iff c hc.1 hc.2.1,
   cmpList_lt_trans c hc.1 hc.2.2⟩

theorem cmpProd_lawful (ca : α → α → Ordering) (cb : β → β → Ordering)
    (ha : CmpLawful ca) (hb : CmpLawful cb) : CmpLawful (cmpProd ca cb) := by
  obtain ⟨hea, hsa, hta⟩ := ha
  obtain ⟨heb, hsb, htb⟩ := hb
  refine ⟨?_, ?_, ?_⟩
  · rintro ⟨x1, x2⟩ ⟨y1, y2⟩
    cases h : ca x1 y1 with
    | lt =>
      simp only [cmpProd, h, Prod.mk.injEq]
      constructor
      · intro hh
        exact absurd hh (by decide)
      · rintro ⟨rfl, -⟩
        rw [(hea x1 x1).mpr rfl] at h
        exact absurd h (by decide)
    | eq =>
      obtain rfl := (hea x1 y1).mp h
      simp only [cmpProd, h, Prod.mk.injEq, true_and]
      exact heb x2 y2
    | gt =>
      simp only [cmpProd, h, Prod.mk.injEq]
      constructor
      · intro hh
        exact absurd hh (by decide)
      · rintro ⟨rfl, -⟩
        rw [(hea x1 x1).mpr rfl] at h
        exact absurd h (by decide)
  · rintro ⟨x1, x2⟩ ⟨y1, y2⟩
    cases h : ca x1 y1 with
    | lt =>
      have h' : ca y1 x1 = .gt := (hsa y1 x1).mpr h
      simp [cmpProd, h, h']
    | eq =>
      obtain rfl := (hea x1 y1).mp h
      simp only [cmpProd, h]
      exact hsb x2 y2
    | gt =>
      have h' : ca y1 x1 = .lt := (hsa x1 y1).mp h
      simp [cmpProd, h, h']
  · rintro ⟨x1, x2⟩ ⟨y1, y2⟩ ⟨z1, z2⟩ h1 h2
    cases hxy : ca x1 y1 with
    | lt =>
      cases hyz : ca y1 z1 with
      | lt => simp [cmpProd, hta x1 y1 z1 hxy hyz]
      | eq =>
        obtain rfl := (hea y1 z1).mp hyz
        simp [cmpProd, hxy]
      | gt => simp [cmpProd, hyz] at h2
    | eq =>
      obtain rfl := (hea x1 y1).mp hxy
      simp only [cmpProd, hxy] at h1 ⊢
      cases hyz : ca x1 z1 with
      | lt => rfl
      | eq => simp only [cmpProd, hyz] at h2 ⊢; exact htb x2 y2 z2 h1 h2
      | gt => simp [cmpProd, hyz] at h2
    | gt => simp [cmpProd, hxy] at h1

theorem compare_values_lawful : CmpLawful compare_values := by
  have hI := cmpI_lawful
  have hB := cmpB_lawful
  have hL := cmpList_lawful cmpN cmpN_lawful
  refine ⟨?_, ?_, ?_⟩
  · intro a b
    cases a <;> cases b <;> simp [compare_values]
    · exact hI.1 _ _
    · exact hL.1 _ _
    · exact hB.1 _ _
  · intro a b
    cases a <;> cases b <;> simp [compare_values]
    · exact hI.2.1 _ _
    · exact hL.2.1 _ _
    · exact hB.2.1 _ _
  · intro a b d h1 h2
    cases a <;> cases b <;> cases d <;> simp_all [compare_values]
    · exact hI.2.2 _ _ _ h1 h2
    · exact hL.2.2 _ _ _ h1 h2
    · exact hB.2.2 _ _ _ h1 h2

theorem cmpN_succ (n m : Nat) : cmpN (n + 1) (m + 1) = cmpN n m := by
  simp [cmpN, Nat.add_lt_add_iff_right]

theorem cmpZip_length (l1 l2 : List Value) :
    (match cmpZip l1 l2 with
     | .eq => cmpN l1.length l2.length
     | o => o) = cmpList compare_values l1 l2 := by
  induction l1 generalizing l2 with
  | nil =>
    cases l2 with
    | nil => rfl
    | cons b bs =>
      show cmpN 0 (b :: bs).length = cmpList compare_values [] (b :: bs)
      have h0 : cmpN 0 (b :: bs).length = .lt := by
        rw [cmpN_eq_lt]
        simp
      rw [h0]
      rfl
  | cons a as' ih =>
    cases l2 with
    | nil =>
      show cmpN (a :: as').length 0 = cmpList compare_values (a :: as') []
      have h0 : cmpN (a :: as').length 0 = .gt := by
        rw [cmpN_eq_gt]
        simp
      rw [h0]
      rfl
    | cons b bs =>
      cases h : compare_values a b with
      | lt => simp [cmpZip, cmpList, h]
      | eq =>
        simp only [cmpZip, cmpList, h, List.length_cons, cmpN_succ]
        exact ih bs
      | gt => simp [cmpZip, cmpList, h]

theorem cmpIK_eq (k1 k2 : IndexKey) :
    IndexKey.cmpIK k1 k2 = cmpList compare_values k1.values k2.values :=
  cmpZip_length k1.values k2.values

theorem cmpIK_lawful : CmpLawful IndexKey.cmpIK := by
  have hl := cmpList_lawful compare_values compare_values_lawful
  refine ⟨?_, ?_, ?_⟩
  · intro a b
    rw [cmpIK_eq, hl.1]
    constructor
    · intro h
      cases a
      cases b
      simpa using h
    · intro h
      rw [h]
  · intro a b
    rw [cmpIK_eq, cmpIK_eq]
    exact hl.2.1 _ _
  · intro a b d
    rw [cmpIK_eq, cmpIK_eq, cmpIK_eq]
    exact hl.2.2 _ _ _

theorem cmpRid_eq (a b : Rid) :
    cmpRid a b = cmpProd cmpN cmpN (a.page_id, a.slot_id)
      (b.page_id, b.slot_id) := rfl

theorem cmpRid_lawful : CmpLawful cmpRid := by
  have hp := cmpProd_lawful cmpN cmpN cmpN_lawful cmpN_lawful
  refine ⟨?_, ?_, ?_⟩
  · intro a b
    rw [cmpRid_eq, hp.1]
    constructor
    · intro h
      cases a
      cases b
      simpa using h
    · intro h
      rw [h]
  · intro a b
    rw [cmpRid_eq, cmpRid_eq]
    exact hp.2.1 _ _
  · intro a b d
    rw [cmpRid_eq, cmpRid_eq, cmpRid_eq]
    exact hp.2.2 _ _ _

theorem cmpEntry_lawful : CmpLawful cmpEntry :=
  cmpProd_lawful IndexKey.cmpIK cmpRid cmpIK_lawful cmpRid_lawful

/-! #### Derived order facts -/

theorem cmp_eq_refl {c : α → α → Ordering} (hc : CmpLawful c) (a : α) :
    c a a = .eq :=
  (hc.1 a a).mpr rfl

theorem cmp_le_refl {c : α → α → Ordering} (hc : CmpLawful c) (a : α) :
    c a a ≠ .gt := by
  rw [cmp_eq_refl hc]
  decide

theorem cmp_not_lt_iff {c : α → α → Ordering} (hc : CmpLawful c)
    (a b : α) : ¬(c a b = .lt) ↔ c b a ≠ .gt :=
  (not_congr (hc.2.1 b a)).symm

theorem cmp_le_of_lt {c : α → α → Ordering} (hc : CmpLawful c) {a b : α}
    (h : c a b = .lt) : c a b ≠ .gt := by
  rw [h]
  decide

theorem cmp_le_trans {c : α → α → Ordering} (hc : CmpLawful c) {a b d : α}
    (h1 : c a b ≠ .gt) (h2 : c b d ≠ .gt) : c a d ≠ .gt := by
  obtain ⟨he, hs, ht⟩ := hc
  cases hab : c a b with
  | gt => exact absurd hab h1
  | eq =>
    obtain rfl := (he a b).mp hab
    exact h2
  | lt =>
    cases hbd : c b d with
    | gt => exact absurd hbd h2
    | eq =>
      obtain rfl := (he b d).mp hbd
      rw [hab]
      decide
    | lt =>
      rw [ht a b d hab hbd]
      decide

theorem cmp_lt_of_lt_of_le {c : α → α → Ordering} (hc : CmpLawful c)
    {a b d : α} (h1 : c a b = .lt) (h2 : c b d ≠ .gt) : c a d = .lt := by
  obtain ⟨he, hs, ht⟩ := hc
  cases hbd : c b d with
  | gt => exact absurd hbd h2
  | eq =>
    obtain rfl := (he b d).mp hbd
    exact h1
  | lt => exact ht a b d h1 hbd

theorem cmp_lt_of_le_of_lt {c : α → α → Ordering} (hc : CmpLawful c)
    {a b d : α} (h1 : c a b ≠ .gt) (h2 : c b d = .lt) : c a d = .lt := by
  obtain ⟨he, hs, ht⟩ := hc
  cases hab : c a b with
  | gt => exact absurd hab h1
  | eq =>
    obtain rfl := (he a b).mp hab
    exact h2
  | lt => exact ht a b d hab h2

theorem cmp_asymm {c : α → α → Ordering} (hc : CmpLawful c) {a b : α}
    (h1 : c a b ≠ .gt) (h2 : c b a = .lt) : False := by
  have := cmp_lt_of_le_of_lt hc h1 h2
  rw [cmp_eq_refl hc] at this
  exact absurd this (by decide)

theorem keyLtB_iff (a b : IndexKey) :
    keyLtB a b = true ↔ keyLt a b := by
  unfold keyLtB keyLt
  cases h : IndexKey.cmpIK a b <;> decide

theorem keyLtB_false_iff (a b : IndexKey) :
    keyLtB a b = false ↔ ¬keyLt a b := by
  unfold keyLtB keyLt
  cases h : IndexKey.cmpIK a b <;> decide

theorem entryLe_key {e1 e2 : IndexKey × Rid} (h : entryLe e1 e2) :
    keyLe e1.1 e2.1 := by
  unfold entryLe cmpEntry cmpProd at h
  unfold keyLe
  cases hk : IndexKey.cmpIK e1.1 e2.1 <;> simp [hk] at h ⊢

/-! #### Chain segment lemmas -/

theorem segEntries_stop (store : Nat → BNode) (chain : List Nat)
    {lo hi : Nat} (h : hi ≤ lo) : segEntries store chain lo hi = [] := by
  unfold segEntries chainEntries
  rw [Nat.sub_eq_zero_of_le h]
  rfl

theorem segEntries_full (store : Nat → BNode) (chain : List Nat) :
    segEntries store chain 0 chain.length = chainEntries store chain := by
  unfold segEntries
  simp

theorem segEntries_split (store : Nat → BNode) (chain : List Nat)
    {lo mid hi : Nat} (h1 : lo ≤ mid) (h2 : mid ≤ hi) :
    segEntries store chain lo hi =
      segEntries store chain lo mid ++ segEntries store chain mid hi := by
  unfold segEntries chainEntries
  have hx : hi - lo = (mid - lo) + (hi - mid) := by omega
  rw [hx, List.take_add, List.flatMap_append, List.drop_drop]
  have hy : lo + (mid - lo) = mid := by omega
  rw [hy]

theorem segEntries_single (store : Nat → BNode) (chain : List Nat)
    {i : Nat} (hi : i < chain.length) :
    segEntries store chain i (i + 1) =
      (store (chain.get ⟨i, hi⟩)).entries := by
  unfold segEntries chainEntries
  have hx : i + 1 - i = 1 := by omega
  rw [hx]
  have hy : List.take 1 (List.drop i chain) = [chain.get ⟨i, hi⟩] := by
    rw [List.drop_eq_getElem_cons hi]
    rfl
  rw [hy]
  simp

theorem segEntries_clamp (store : Nat → BNode) (chain : List Nat)
    {lo hi : Nat} (h : chain.length ≤ hi) :
    segEntries store chain lo hi = segEntries store chain lo chain.length := by
  unfold segEntries
  rcases Nat.le_total lo chain.length with hlo | hlo
  · rw [List.take_of_length_le, List.take_of_length_le] <;>
      rw [List.length_drop] <;> omega
  · rw [List.drop_eq_nil_of_le hlo]
    simp

theorem mem_seg_widen_left (store : Nat → BNode) (chain : List Nat)
    {lo mid : Nat} {e : IndexKey × Rid}
    (he : e ∈ segEntries store chain lo mid) :
    e ∈ segEntries store chain 0 mid := by
  rcases Nat.le_total lo mid with h | h
  · rw [segEntries_split store chain (Nat.zero_le lo) h]
    exact List.mem_append_right _ he
  · rw [segEntries_stop store chain h] at he
    cases he

theorem mem_seg_widen_right (store : Nat → BNode) (chain : List Nat)
    {mid hi : Nat} {e : IndexKey × Rid}
    (he : e ∈ segEntries store chain mid hi) :
    e ∈ segEntries store chain mid chain.length := by
  rcases Nat.le_total hi chain.length with h | h
  · rcases Nat.le_total mid hi with h2 | h2
    · rw [segEntries_split store chain h2 h]
      exact List.mem_append_left _ he
    · rw [segEntries_stop store chain h2] at he
      cases he
  · rw [segEntries_clamp store chain h] at he
    exact he

/-- Entries left of a cut are `entryLe` entries right of it. -/
theorem seg_cross (store : Nat → BNode) (chain : List Nat)
    (hsorted : (chainEntries store chain).Pairwise entryLe)
    {x : Nat} (hx : x ≤ chain.length) {a b : IndexKey × Rid}
    (ha : a ∈ segEntries store chain 0 x)
    (hb : b ∈ segEntries store chain x chain.length) : entryLe a b := by
  rw [← segEntries_full store chain,
    segEntries_split store chain (Nat.zero_le x) hx] at hsorted
  exact (List.pairwise_append.mp hsorted).2.2 a ha b hb

theorem seg_sorted (store : Nat → BNode) (chain : List Nat)
    (hsorted : (chainEntries store chain).Pairwise entryLe)
    {lo hi : Nat} : (segEntries store chain lo hi).Pairwise entryLe := by
  rcases Nat.le_total hi lo with h | h
  · rw [segEntries_stop store chain h]
    exact List.Pairwise.nil
  · rcases Nat.le_total hi chain.length with h2 | h2
    · have hinf : (segEntries store chain lo hi).IsInfix
          (chainEntries store chain) := by
        refine ⟨segEntries store chain 0 lo,
          segEntries store chain hi chain.length, ?_⟩
        rw [← segEntries_split store chain (Nat.zero_le lo) h,
          ← segEntries_split store chain (Nat.zero_le hi) h2]
        exact segEntries_full store chain
      exact List.Pairwise.sublist hinf.sublist hsorted
    · rw [segEntries_clamp store chain h2]
      rcases Nat.le_total lo chain.length with h3 | h3
      · have hinf : (segEntries store chain lo chain.length).IsInfix
            (chainEntries store chain) := by
          refine ⟨segEntries store chain 0 lo, [], ?_⟩
          rw [List.append_nil,
            ← segEntries_split store chain (Nat.zero_le lo) h3]
          exact segEntries_full store chain
        exact List.Pairwise.sublist hinf.sublist hsorted
      · rw [segEntries_stop store chain h3]
        exact List.Pairwise.nil

/-- In a sorted list every element is `entryLe` the last one. -/
theorem sorted_getLast_ge (l : List (IndexKey × Rid))
    (hl : l.Pairwise entryLe) {x : IndexKey × Rid}
    (hx : l.getLast? = some x) {e : IndexKey × Rid} (he : e ∈ l) :
    entryLe e x := by
  induction l with
  | nil => cases he
  | cons a rest ih =>
    cases rest with
    | nil =>
      rw [List.getLast?_singleton, Option.some.injEq] at hx
      rw [List.mem_singleton] at he
      rw [he, hx]
      exact cmp_le_refl cmpEntry_lawful x
    | cons b bs =>
      rw [List.getLast?_cons_cons] at hx
      rcases List.mem_cons.mp he with rfl | he2
      · have hxmem : x ∈ b :: bs := List.mem_of_mem_getLast? hx
        exact (List.pairwise_cons.mp hl).1 x hxmem
      · exact ih (List.pairwise_cons.mp hl).2 hx he2

/-! #### Scan loop building blocks -/

theorem takeWhile_all_true (p : α → Bool) (l : List α)
    (h : ∀ x ∈ l, p x = true) : l.takeWhile p = l := by
  induction l with
  | nil => rfl
  | cons a rest ih =>
    rw [List.takeWhile_cons, if_pos (h a (List.mem_cons_self a rest))]
    rw [ih (fun x hx => h x (List.mem_cons_of_mem a hx))]

theorem takeWhile_append_all (p : α → Bool) (l1 l2 : List α)
    (h : ∀ x ∈ l1, p x = true) :
    (l1 ++ l2).takeWhile p = l1 ++ l2.takeWhile p := by
  induction l1 with
  | nil => rfl
  | cons a rest ih =>
    rw [List.cons_append, List.takeWhile_cons,
      if_pos (h a (List.mem_cons_self a rest)), List.cons_append]
    rw [ih (fun x hx => h x (List.mem_cons_of_mem a hx))]

theorem takeWhile_append_stop (p : α → Bool) (l1 l2 : List α)
    (h : l1.all p = false) :
    (l1 ++ l2).takeWhile p = l1.takeWhile p := by
  induction l1 with
  | nil => simp at h
  | cons a rest ih =>
    rw [List.all_cons] at h
    cases hpa : p a with
    | false =>
      rw [List.cons_append, List.takeWhile_cons, if_neg (by simp [hpa]),
        List.takeWhile_cons, if_neg (by simp [hpa])]
    | true =>
      rw [hpa, Bool.true_and] at h
      rw [List.cons_append, List.takeWhile_cons, if_pos hpa,
        List.takeWhile_cons, if_pos hpa, ih h]

/-- On a sorted tail the scan's end cut is the end filter. -/
theorem takeWhile_eq_filter_sorted (en : IndexKey)
    (l : List (IndexKey × Rid)) (hl : l.Pairwise entryLe) :
    l.takeWhile (fun e => keyLtB e.1 en) =
      l.filter (fun e => keyLtB e.1 en) := by
  induction l with
  | nil => rfl
  | cons a rest ih =>
    obtain ⟨hhead, hrest⟩ := List.pairwise_cons.mp hl
    cases hpa : keyLtB a.1 en with
    | true => simp [List.takeWhile_cons, List.filter_cons, hpa, ih hrest]
    | false =>
      have hall : ∀ x ∈ rest, keyLtB x.1 en = false := by
        intro x hx
        rw [keyLtB_false_iff]
        intro hxlt
        have hax : keyLe a.1 x.1 := entryLe_key (hhead x hx)
        have hlt : keyLt a.1 en := cmp_lt_of_le_of_lt cmpIK_lawful hax hxlt
        rw [← keyLtB_iff] at hlt
        rw [hlt] at hpa
        cases hpa
      rw [List.takeWhile_cons, if_neg (by simp [hpa])]
      have hnil : List.filter (fun e => keyLtB e.1 en) (a :: rest) = [] := by
        rw [List.filter_eq_nil]
        intro e he
        rcases List.mem_cons.mp he with rfl | he2
        · simp [hpa]
        · simp [hall e he2]
      rw [hnil]

theorem emitLoop_none (es : List (IndexKey × Rid)) :
    emitLoop none es = (es, false) := by
  induction es with
  | nil => rfl
  | cons e rest ih => simp [emitLoop, ih]

theorem emitLoop_some (en : IndexKey) (es : List (IndexKey × Rid)) :
    emitLoop (some en) es =
      (es.takeWhile (fun e => keyLtB e.1 en),
       !es.all (fun e => keyLtB e.1 en)) := by
  induction es with
  | nil => rfl
  | cons e rest ih =>
    cases hp : keyLtB e.1 en with
    | false => simp [emitLoop, List.takeWhile_cons, List.all_cons, hp]
    | true => simp [emitLoop, List.takeWhile_cons, List.all_cons, hp, ih]

/-! #### Binary search -/

theorem bsearchGo_spec (entries : List (IndexKey × Rid)) (key : IndexKey)
    (hsort : entries.Pairwise entryLe) :
    ∀ fuel left right, right - left ≤ fuel → left ≤ right →
      right ≤ entries.length →
      (∀ j (hj : j < entries.length), j < left →
        keyLt (entries.get ⟨j, hj⟩).1 key) →
      (∀ j (hj : j < entries.length), right ≤ j →
        ¬keyLt (entries.get ⟨j, hj⟩).1 key) →
      (left ≤ bsearchGo entries key fuel left right ∧
       bsearchGo entries key fuel left right ≤ right ∧
       (∀ j (hj : j < entries.length),
         j < bsearchGo entries key fuel left right →
         keyLt (entries.get ⟨j, hj⟩).1 key) ∧
       (∀ j (hj : j < entries.length),
         bsearchGo entries key fuel left right ≤ j →
         ¬keyLt (entries.get ⟨j, hj⟩).1 key)) := by
  intro fuel
  induction fuel with
  | zero =>
    intro left right hf hlr hrl hinv1 hinv2
    have heq : left = right := by omega
    simp only [bsearchGo]
    exact ⟨le_refl _, hlr, hinv1, fun j hj hle => hinv2 j hj (heq ▸ hle)⟩
  | succ f ih =>
    intro left right hf hlr hrl hinv1 hinv2
    simp only [bsearchGo]
    by_cases hcond : left < right
    · rw [if_pos hcond]
      generalize hmdef : left + (right - left) / 2 = mid
      have hmlt : mid < right := by omega
      have hmle : left ≤ mid := by omega
      have hmlen : mid < entries.length := by omega
      rw [List.getD_eq_getElem entries dfltEntry hmlen]
      cases hp : keyLtB entries[mid].1 key with
      | true =>
        rw [if_pos rfl]
        have hplt : keyLt (entries.get ⟨mid, hmlen⟩).1 key := by
          rw [← keyLtB_iff]
          rw [List.get_eq_getElem]
          exact hp
        have hinv1n : ∀ j (hj : j < entries.length), j < mid + 1 →
            keyLt (entries.get ⟨j, hj⟩).1 key := by
          intro j hj hjlt
          rcases Nat.lt_or_ge j left with hcase | hcase
          · exact hinv1 j hj hcase
          · have hjm : j ≤ mid := by omega
            rcases Nat.lt_or_eq_of_le hjm with hjm2 | hjm2
            · have hle : entryLe (entries.get ⟨j, hj⟩)
                  (entries.get ⟨mid, hmlen⟩) :=
                List.pairwise_iff_get.mp hsort _ _
                  (by exact Fin.mk_lt_mk.mpr hjm2)
              exact cmp_lt_of_le_of_lt cmpIK_lawful (entryLe_key hle) hplt
            · have hgg : entries.get ⟨j, hj⟩ =
                  entries.get ⟨mid, hmlen⟩ := by
                congr 1
                exact Fin.ext hjm2
              rw [hgg]
              exact hplt
        obtain ⟨ha, hb, hc, hd⟩ := ih (mid + 1) right
          (by omega) (by omega) hrl hinv1n hinv2
        exact ⟨by omega, hb, hc, hd⟩
      | false =>
        rw [if_neg (by decide)]
        have hpge : ¬keyLt (entries.get ⟨mid, hmlen⟩).1 key := by
          rw [← keyLtB_false_iff]
          rw [List.get_eq_getElem]
          exact hp
        have hinv2n : ∀ j (hj : j < entries.length), mid ≤ j →
            ¬keyLt (entries.get ⟨j, hj⟩).1 key := by
          intro j hj hjge
          intro hjlt
          have hle : keyLe (entries.get ⟨mid, hmlen⟩).1
              (entries.get ⟨j, hj⟩).1 := by
            rcases Nat.lt_or_eq_of_le hjge with hjm2 | hjm2
            · exact entryLe_key (List.pairwise_iff_get.mp hsort _ _
                (by exact Fin.mk_lt_mk.mpr hjm2))
            · have hgg : entries.get ⟨mid, hmlen⟩ =
                  entries.get ⟨j, hj⟩ := by
                congr 1
                exact Fin.ext hjm2
              rw [hgg]
              exact cmp_le_refl cmpIK_lawful _
          exact hpge (cmp_lt_of_le_of_lt cmpIK_lawful hle hjlt)
        obtain ⟨ha, hb, hc, hd⟩ := ih left mid
          (by omega) hmle (by omega) hinv1 hinv2n
        exact ⟨ha, by omega, hc, hd⟩
    · rw [if_neg hcond]
      have heq : left = right := by omega
      exact ⟨le_refl _, hlr, hinv1,
        fun j hj hle => hinv2 j hj (heq ▸ hle)⟩

theorem find_key_position_spec (entries : List (IndexKey × Rid))
    (key : IndexKey) (hsort : entries.Pairwise entryLe) :
    find_key_position entries key ≤ entries.length ∧
    (∀ e ∈ entries.take (find_key_position entries key), keyLt e.1 key) ∧
    (∀ e ∈ entries.drop (find_key_position entries key),
      ¬keyLt e.1 key) := by
  unfold find_key_position
  by_cases h0 : entries.length = 0
  · rw [if_pos h0]
    obtain rfl := List.length_eq_zero.mp h0
    refine ⟨Nat.zero_le _, ?_, ?_⟩ <;> intro e he <;> cases he
  · rw [if_neg h0]
    obtain ⟨hle1, hle2, hlt, hge⟩ := bsearchGo_spec entries key hsort
      entries.length 0 entries.length (by omega) (Nat.zero_le _)
      (le_refl _) (fun j hj hlt => absurd hlt (by omega))
      (fun j hj hle => absurd hj (by omega))
    refine ⟨hle2, ?_, ?_⟩
    · intro e he
      obtain ⟨i, hi, rfl⟩ := List.mem_iff_getElem.mp he
      have hi2 : i < entries.length := by
        have := hi
        rw [List.length_take] at this
        omega
      rw [List.getElem_take]
      have hip : i < bsearchGo entries key entries.length 0
          entries.length := by
        have := hi
        rw [List.length_take] at this
        omega
      have := hlt i hi2 hip
      rw [List.get_eq_getElem] at this
      exact this
    · intro e he
      obtain ⟨i, hi, rfl⟩ := List.mem_iff_getElem.mp he
      have hi2 : bsearchGo entries key entries.length 0 entries.length +
          i < entries.length := by
        have := hi
        rw [List.length_drop] at this
        omega
      rw [List.getElem_drop]
      have := hge _ hi2 (by omega)
      rw [List.get_eq_getElem] at this
      exact this

/-! #### Descent through internal nodes -/

theorem subtree_lt (store : Nat → BNode) (chain : List Nat) :
    ∀ h pid lo hi, SubtreeWF store chain h pid lo hi → lo < hi := by
  intro h
  induction h with
  | zero =>
    intro pid lo hi hs
    obtain ⟨-, -, rfl⟩ := hs
    omega
  | succ hh ih =>
    intro pid lo hi hs
    rcases hs with hs | ⟨kcs, rm, hst, hk⟩
    · exact ih pid lo hi hs
    · clear hst
      revert hk
      induction kcs generalizing lo with
      | nil =>
        intro hk
        exact ih rm lo hi hk
      | cons kc rest ihk =>
        obtain ⟨k, c⟩ := kc
        intro hk
        obtain ⟨mid, hsub, hkrest, -, -⟩ := hk
        have h1 := ih c lo mid hsub
        have h2 := ihk mid hkrest
        omega

theorem kids_le (store : Nat → BNode) (chain : List Nat) (h : Nat) :
    ∀ kcs rm lo hi,
      KidsWFAux store chain (SubtreeWF store chain h) kcs rm lo hi →
      lo ≤ hi := by
  intro kcs
  induction kcs with
  | nil =>
    intro rm lo hi hk
    exact le_of_lt (subtree_lt store chain h rm lo hi hk)
  | cons kc rest ihr =>
    obtain ⟨k, c⟩ := kc
    intro rm lo hi hk
    obtain ⟨mid, hsub, hkrest, -, -⟩ := hk
    have h1 := subtree_lt store chain h c lo mid hsub
    have h2 := ihr rm mid hi hkrest
    omega

theorem kids_descent (store : Nat → BNode) (chain : List Nat) (h : Nat)
    (IH : ∀ pid lo hi, SubtreeWF store chain h pid lo hi →
      ∀ fuel, h < fuel → ∀ key, ∃ p lp, lo ≤ p ∧ p < hi ∧
        chain.get? p = some lp ∧
        find_leaf store fuel pid key = some lp ∧
        (∀ e ∈ segEntries store chain lo p, keyLe e.1 key) ∧
        (∀ e ∈ segEntries store chain (p + 1) hi, keyLt key e.1)) :
    ∀ kcs rm lo hi,
      KidsWFAux store chain (SubtreeWF store chain h) kcs rm lo hi →
      ∀ fuel, h < fuel → ∀ key, ∃ p lp, lo ≤ p ∧ p < hi ∧
        chain.get? p = some lp ∧
        find_leaf store fuel (findChild kcs rm key) key = some lp ∧
        (∀ e ∈ segEntries store chain lo p, keyLe e.1 key) ∧
        (∀ e ∈ segEntries store chain (p + 1) hi, keyLt key e.1) := by
  intro kcs
  induction kcs with
  | nil =>
    intro rm lo hi hk fuel hf key
    exact IH rm lo hi hk fuel hf key
  | cons kc rest ihk =>
    obtain ⟨k, c⟩ := kc
    intro rm lo hi hk fuel hf key
    obtain ⟨mid, hsub, hkrest, hleft, hright⟩ := hk
    have hmidhi : mid ≤ hi := kids_le store chain h rest rm mid hi hkrest
    have hlomid : lo < mid := subtree_lt store chain h c lo mid hsub
    by_cases hlt : keyLtB key k = true
    · obtain ⟨p, lp, hp1, hp2, hp3, hp4, hp5, hp6⟩ :=
        IH c lo mid hsub fuel hf key
      refine ⟨p, lp, hp1, by omega, hp3, ?_, hp5, ?_⟩
      · simp only [findChild]
        rw [if_pos hlt]
        exact hp4
      · intro e he
        rw [segEntries_split store chain (show p + 1 ≤ mid by omega)
          hmidhi] at he
        rcases List.mem_append.mp he with he2 | he2
        · exact hp6 e he2
        · have hke : keyLe k e.1 := hright e he2
          have hkey : keyLt key k := (keyLtB_iff _ _).mp hlt
          exact cmp_lt_of_lt_of_le cmpIK_lawful hkey hke
    · have hnl : ¬keyLt key k := by
        rw [← keyLtB_iff]
        simpa using hlt
      have hge : keyLe k key := (cmp_not_lt_iff cmpIK_lawful key k).mp hnl
      obtain ⟨p, lp, hp1, hp2, hp3, hp4, hp5, hp6⟩ :=
        ihk rm mid hi hkrest fuel hf key
      refine ⟨p, lp, by omega, hp2, hp3, ?_, ?_, hp6⟩
      · simp only [findChild]
        rw [if_neg hlt]
        exact hp4
      · intro e he
        rw [segEntries_split store chain (le_of_lt hlomid) hp1] at he
        rcases List.mem_append.mp he with he2 | he2
        · exact cmp_le_trans cmpIK_lawful (hleft e he2) hge
        · exact hp5 e he2

theorem subtree_descent (store : Nat → BNode) (chain : List Nat) :
    ∀ h pid lo hi, SubtreeWF store chain h pid lo hi →
    ∀ fuel, h < fuel → ∀ key,
    ∃ p lp, lo ≤ p ∧ p < hi ∧ chain.get? p = some lp ∧
      find_leaf store fuel pid key = some lp ∧
      (∀ e ∈ segEntries store chain lo p, keyLe e.1 key) ∧
      (∀ e ∈ segEntries store chain (p + 1) hi, keyLt key e.1) := by
  intro h
  induction h with
  | zero =>
    intro pid lo hi hs fuel hf key
    obtain ⟨hleaf, hget, rfl⟩ := hs
    obtain ⟨f, rfl⟩ : ∃ f, fuel = f + 1 := ⟨fuel - 1, by omega⟩
    refine ⟨lo, pid, le_refl _, by omega, hget, ?_, ?_, ?_⟩
    · simp only [find_leaf]
      cases hst : store pid with
      | leaf es pr nx => rfl
      | internal kcs rm =>
        rw [hst] at hleaf
        simp [BNode.isLeafB] at hleaf
    · intro e he
      rw [segEntries_stop store chain (le_refl lo)] at he
      cases he
    · intro e he
      rw [segEntries_stop store chain (le_refl (lo + 1))] at he
      cases he
  | succ hh ih =>
    intro pid lo hi hs fuel hf key
    rcases hs with hs | ⟨kcs, rm, hst, hk⟩
    · exact ih pid lo hi hs fuel (by omega) key
    · obtain ⟨f, rfl⟩ : ∃ f, fuel = f + 1 := ⟨fuel - 1, by omega⟩
      have hstep : find_leaf store (f + 1) pid key =
          find_leaf store f (findChild kcs rm key) key := by
        simp only [find_leaf, hst]
      rw [hstep]
      exact kids_descent store chain hh ih kcs rm lo hi hk f (by omega) key

theorem subtree_leftmost (store : Nat → BNode) (chain : List Nat) :
    ∀ h pid lo hi, SubtreeWF store chain h pid lo hi →
    ∀ fuel, h < fuel →
    ∃ lp, chain.get? lo = some lp ∧
      find_leftmost_leaf store fuel pid = some lp := by
  intro h
  induction h with
  | zero =>
    intro pid lo hi hs fuel hf
    obtain ⟨hleaf, hget, rfl⟩ := hs
    obtain ⟨f, rfl⟩ : ∃ f, fuel = f + 1 := ⟨fuel - 1, by omega⟩
    refine ⟨pid, hget, ?_⟩
    simp only [find_leftmost_leaf]
    cases hst : store pid with
    | leaf es pr nx => rfl
    | internal kcs rm =>
      rw [hst] at hleaf
      simp [BNode.isLeafB] at hleaf
  | succ hh ih =>
    intro pid lo hi hs fuel hf
    rcases hs with hs | ⟨kcs, rm, hst, hk⟩
    · exact ih pid lo hi hs fuel (by omega)
    · obtain ⟨f, rfl⟩ : ∃ f, fuel = f + 1 := ⟨fuel - 1, by omega⟩
      cases kcs with
      | nil =>
        obtain ⟨lp, h1, h2⟩ := ih rm lo hi hk f (by omega)
        refine ⟨lp, h1, ?_⟩
        simp only [find_leftmost_leaf, hst]
        exact h2
      | cons kc rest =>
        obtain ⟨k, c⟩ := kc
        obtain ⟨mid, hsub, hkrest, -, -⟩ := hk
        obtain ⟨lp, h1, h2⟩ := ih c lo mid hsub f (by omega)
        refine ⟨lp, h1, ?_⟩
        simp only [find_leftmost_leaf, hst]
        exact h2

/-! #### The backward walk -/

theorem walk_spec (store : Nat → BNode) (chain : List Nat)
    (hch : WfChain store chain)
    (hsorted : (chainEntries store chain).Pairwise entryLe)
    (hne : 1 < chain.length → ∀ i (hi : i < chain.length),
      (store (chain.get ⟨i, hi⟩)).entries ≠ [])
    (target : IndexKey) :
    ∀ fuel d (hd : d < chain.length) (dstart : Nat),
      (d = dstart ∨
        leaf_has_keys_gte (store (chain.get ⟨d, hd⟩)) target = true) →
      d < fuel →
      ∃ F, ∃ hF : F < chain.length, F ≤ d ∧
        find_first_leaf_with_key store fuel (chain.get ⟨d, hd⟩) target =
          some (chain.get ⟨F, hF⟩) ∧
        (∀ e ∈ segEntries store chain 0 F, keyLt e.1 target) ∧
        (F < dstart →
          leaf_has_keys_gte (store (chain.get ⟨F, hF⟩)) target = true) := by
  intro fuel
  induction fuel with
  | zero =>
    intro d hd dstart hflag hf
    exact absurd hf (by omega)
  | succ f ihf =>
    intro d hd dstart hflag hf
    cases d with
    | zero =>
      have hstep0 : find_first_leaf_with_key store (f + 1)
          (chain.get ⟨0, hd⟩) target = some (chain.get ⟨0, hd⟩) := by
        simp only [find_first_leaf_with_key]
        rw [(hch 0 hd).2.1]
        rfl
      refine ⟨0, hd, le_refl _, hstep0, ?_, ?_⟩
      · intro e he
        rw [segEntries_stop store chain (le_refl 0)] at he
        cases he
      · intro h0
        rcases hflag with hflag | hflag
        · omega
        · exact hflag
    | succ d' =>
      have hd' : d' < chain.length := by omega
      have hstep : find_first_leaf_with_key store (f + 1)
          (chain.get ⟨d' + 1, hd⟩) target =
          (if leaf_has_keys_gte (store (chain.get ⟨d', hd'⟩)) target = true
           then find_first_leaf_with_key store f (chain.get ⟨d', hd'⟩)
             target
           else some (chain.get ⟨d' + 1, hd⟩)) := by
        simp only [find_first_leaf_with_key]
        rw [(hch (d' + 1) hd).2.1]
        have hgd : d' + 1 - 1 = d' := by omega
        rw [if_neg (by omega), hgd, List.get?_eq_get hd']
      rw [hstep]
      cases hg : leaf_has_keys_gte (store (chain.get ⟨d', hd'⟩)) target with
      | true =>
        rw [if_pos rfl]
        obtain ⟨F, hF, hFle, hFeq, hFlt, hFflag⟩ :=
          ihf d' hd' dstart (Or.inr hg) (by omega)
        exact ⟨F, hF, by omega, hFeq, hFlt, hFflag⟩
      | false =>
        rw [if_neg (by decide)]
        refine ⟨d' + 1, hd, le_refl _, rfl, ?_, ?_⟩
        · -- every entry of positions 0..d'+1 is < target:
          -- leaf d' is nonempty with last key < target, and everything
          -- before it is entryLe that last entry.
          have hlen2 : 1 < chain.length := by omega
          have hnonempty := hne hlen2 d' hd'
          obtain ⟨last, hlast⟩ : ∃ last,
              (store (chain.get ⟨d', hd'⟩)).entries.getLast? = some last := by
            cases hgl : (store (chain.get ⟨d', hd'⟩)).entries.getLast? with
            | none =>
              rw [List.getLast?_eq_none_iff] at hgl
              exact absurd hgl hnonempty
            | some x => exact ⟨x, rfl⟩
          have hlastlt : keyLt last.1 target := by
            unfold leaf_has_keys_gte at hg
            rw [hlast] at hg
            have hg2 : (!(keyLtB last.1 target)) = false := hg
            cases hb : keyLtB last.1 target with
            | true => exact (keyLtB_iff _ _).mp hb
            | false =>
              rw [hb] at hg2
              simp at hg2
          have hsingle : segEntries store chain d' (d' + 1) =
              (store (chain.get ⟨d', hd'⟩)).entries :=
            segEntries_single store chain hd'
          have hlastmem : last ∈ segEntries store chain d' chain.length := by
            refine @mem_seg_widen_right store chain d' (d' + 1) last ?_
            rw [hsingle]
            exact List.mem_of_mem_getLast? hlast
          intro e he
          rw [segEntries_split store chain (show (0:Nat) ≤ d' by omega)
            (show d' ≤ d' + 1 by omega)] at he
          rcases List.mem_append.mp he with he2 | he2
          · have hcross : entryLe e last :=
              seg_cross store chain hsorted (le_of_lt hd') he2 hlastmem
            exact cmp_lt_of_le_of_lt cmpIK_lawful (entryLe_key hcross)
              hlastlt
          · rw [hsingle] at he2
            have hsorted2 : ((store (chain.get ⟨d', hd'⟩)).entries).Pairwise
                entryLe := by
              have := @seg_sorted store chain hsorted d' (d' + 1)
              rw [hsingle] at this
              exact this
            have hle2 : entryLe e last := sorted_getLast_ge _ hsorted2 hlast he2
            exact cmp_lt_of_le_of_lt cmpIK_lawful (entryLe_key hle2) hlastlt
        · intro hlt
          rcases hflag with hflag | hflag
          · omega
          · exact hflag

/-! #### The scan loop -/

theorem scanLoop_none (store : Nat → BNode) (endOpt : Option IndexKey)
    (fuel idx : Nat) : scanLoop store endOpt fuel none idx = some [] := by
  cases fuel <;> rfl

theorem endTrim_nil (endOpt : Option IndexKey) : endTrim endOpt [] = [] := by
  cases endOpt <;> rfl

theorem scanLoop_step (store : Nat → BNode) (endOpt : Option IndexKey)
    (f leaf_id idx : Nat) (tail : List (IndexKey × Rid))
    (hrec : scanLoop store endOpt f (store leaf_id).nextLeaf 0 =
      some tail) :
    scanLoop store endOpt (f + 1) (some leaf_id) idx =
      (if (emitLoop endOpt ((store leaf_id).entries.drop idx)).2 = true
       then some (emitLoop endOpt ((store leaf_id).entries.drop idx)).1
       else some ((emitLoop endOpt
         ((store leaf_id).entries.drop idx)).1 ++ tail)) := by
  simp only [scanLoop]
  rw [hrec]

theorem scanLoop_spec (store : Nat → BNode) (chain : List Nat)
    (hch : WfChain store chain) (endOpt : Option IndexKey) :
    ∀ fuel p (hp : p < chain.length) (idx : Nat),
      chain.length - p ≤ fuel →
      scanLoop store endOpt fuel (some (chain.get ⟨p, hp⟩)) idx =
        some (endTrim endOpt
          ((store (chain.get ⟨p, hp⟩)).entries.drop idx ++
            segEntries store chain (p + 1) chain.length)) := by
  intro fuel
  induction fuel with
  | zero =>
    intro p hp idx hf
    exact absurd hf (by omega)
  | succ f ihf =>
    intro p hp idx hf
    have hnext := (hch p hp).2.2
    have hrec : scanLoop store endOpt f
        (store (chain.get ⟨p, hp⟩)).nextLeaf 0 =
        some (endTrim endOpt (segEntries store chain (p + 1)
          chain.length)) := by
      rw [hnext]
      rcases Nat.lt_or_ge (p + 1) chain.length with hcase | hcase
      · rw [List.get?_eq_get hcase, ihf (p + 1) hcase 0 (by omega),
          List.drop_zero]
        have hseg : segEntries store chain (p + 1) chain.length =
            (store (chain.get ⟨p + 1, hcase⟩)).entries ++
              segEntries store chain (p + 2) chain.length := by
          rw [segEntries_split store chain (show p + 1 ≤ p + 2 by omega)
            (show p + 2 ≤ chain.length by omega),
            segEntries_single store chain hcase]
        rw [hseg]
      · rw [List.get?_eq_none.mpr (by omega), scanLoop_none,
          segEntries_stop store chain (by omega), endTrim_nil]
    rw [scanLoop_step store endOpt f (chain.get ⟨p, hp⟩) idx _ hrec]
    cases endOpt with
    | none =>
      rw [emitLoop_none]
      rw [if_neg (by simp)]
      rfl
    | some en =>
      rw [emitLoop_some]
      cases hall : ((store (chain.get ⟨p, hp⟩)).entries.drop idx).all
          (fun e => keyLtB e.1 en) with
      | true =>
        simp only [hall, Bool.not_true]
        rw [if_neg (by simp)]
        have hallm := List.all_eq_true.mp hall
        have h1 : ((store (chain.get ⟨p, hp⟩)).entries.drop
            idx).takeWhile (fun e => keyLtB e.1 en) =
            (store (chain.get ⟨p, hp⟩)).entries.drop idx :=
          takeWhile_all_true _ _ hallm
        have h2 : (((store (chain.get ⟨p, hp⟩)).entries.drop idx) ++
            segEntries store chain (p + 1) chain.length).takeWhile
            (fun e => keyLtB e.1 en) =
            ((store (chain.get ⟨p, hp⟩)).entries.drop idx) ++
              (segEntries store chain (p + 1)
                chain.length).takeWhile (fun e => keyLtB e.1 en) :=
          takeWhile_append_all _ _ _ hallm
        simp only [endTrim, h1, h2]
      | false =>
        simp only [hall, Bool.not_false]
        rw [if_pos (by simp)]
        have h2 : (((store (chain.get ⟨p, hp⟩)).entries.drop idx) ++
            segEntries store chain (p + 1) chain.length).takeWhile
            (fun e => keyLtB e.1 en) =
            ((store (chain.get ⟨p, hp⟩)).entries.drop idx).takeWhile
              (fun e => keyLtB e.1 en) :=
          takeWhile_append_stop _ _ _ hall
        simp only [endTrim, h2]

theorem range_scan_eq_scan_none (store : Nat → BNode)
    (fuel root leaf0 : Nat) (endOpt : Option IndexKey)
    (h1 : find_leftmost_leaf store fuel root = some leaf0) :
    range_scan store (some root) fuel none endOpt =
      scanLoop store endOpt fuel (some leaf0) 0 := by
  simp only [range_scan, h1]

theorem range_scan_eq_scan_start (store : Nat → BNode)
    (fuel root leaf0 startLeaf : Nat) (s : IndexKey)
    (endOpt : Option IndexKey)
    (h1 : find_leaf store fuel root s = some leaf0)
    (h2 : find_first_leaf_with_key store fuel leaf0 s = some startLeaf) :
    range_scan store (some root) fuel (some s) endOpt =
      scanLoop store endOpt fuel (some startLeaf)
        (find_key_position (store startLeaf).entries s) := by
  simp only [range_scan, h1, h2]

/-- Filtering `start ≤ key < end` over a list that splits into a prefix
of keys `< start` and a sorted tail of keys `≥ start` yields exactly the
scan's end-trimmed tail. -/
theorem filter_cond_split (s : IndexKey) (endOpt : Option IndexKey)
    (D R : List (IndexKey × Rid))
    (hD : ∀ e ∈ D, keyLt e.1 s)
    (hR : ∀ e ∈ R, ¬keyLt e.1 s)
    (hRsorted : R.Pairwise entryLe) :
    (D ++ R).filter (fun e => scanCond (some s) endOpt e.1) =
      endTrim endOpt R := by
  rw [List.filter_append]
  have h1 : D.filter (fun e => scanCond (some s) endOpt e.1) = [] := by
    rw [List.filter_eq_nil]
    intro e he
    have hlt : keyLtB e.1 s = true := (keyLtB_iff _ _).mpr (hD e he)
    simp [scanCond, hlt]
  have h2 : R.filter (fun e => scanCond (some s) endOpt e.1) =
      R.filter (fun e => scanCond none endOpt e.1) := by
    apply List.filter_congr
    intro e he
    have hlt : keyLtB e.1 s = false := (keyLtB_false_iff _ _).mpr (hR e he)
    simp [scanCond, hlt]
  rw [h1, h2, List.nil_append]
  cases endOpt with
  | none =>
    simp [endTrim, scanCond]
  | some en =>
    have h3 : R.filter (fun e => scanCond none (some en) e.1) =
        R.filter (fun e => keyLtB e.1 en) := by
      apply List.filter_congr
      intro e he
      simp [scanCond]
    rw [h3]
    simp only [endTrim]
    exact (takeWhile_eq_filter_sorted en R hRsorted).symm

/-- Conditional correctness of the scan: on a tree whose leaf chain is
doubly linked with CORRECT `prev` links, sorted, and covered by the
internal separator structure, `range_scan(start, end)` returns exactly
the stored `(key, rid)` entries satisfying `start ≤ key < end` in
ascending `(key, rid)` order, and `start = end` gives the empty result.
The `WfChain` hypothesis is not maintained by the program:
`LeafNode::split` never repoints the old successor's `prev` link (see
`btree_range_scan_misses_split_duplicates`), so this lemma describes the
scan only on repaired chains and isolates the stale `prev` as the sole
cause of the bug. -/
theorem btree_range_scan_is_filter (store : Nat → BNode)
    (chain : List Nat) (root h fuel : Nat)
    (startOpt endOpt : Option IndexKey)
    (hch : WfChain store chain)
    (hsorted : (chainEntries store chain).Pairwise entryLe)
    (hne : 1 < chain.length → ∀ i (hi : i < chain.length),
      (store (chain.get ⟨i, hi⟩)).entries ≠ [])
    (htree : SubtreeWF store chain h root 0 chain.length)
    (hfuel : chain.length + h < fuel) :
    range_scan store (some root) fuel startOpt endOpt =
      some ((chainEntries store chain).filter
        (fun e => scanCond startOpt endOpt e.1)) ∧
    ((chainEntries store chain).filter
      (fun e => scanCond startOpt endOpt e.1)).Pairwise entryLe ∧
    (startOpt ≠ none → startOpt = endOpt →
      (chainEntries store chain).filter
        (fun e => scanCond startOpt endOpt e.1) = []) := by
  have hlen : 0 < chain.length := by
    have := subtree_lt store chain h root 0 chain.length htree
    omega
  refine ⟨?_, List.Pairwise.sublist (List.filter_sublist _) hsorted, ?_⟩
  · cases startOpt with
    | none =>
      obtain ⟨lp, hget0, hlm⟩ := subtree_leftmost store chain h root 0
        chain.length htree fuel (by omega)
      rw [List.get?_eq_get hlen] at hget0
      injection hget0 with h0
      rw [← h0] at hlm
      rw [range_scan_eq_scan_none store fuel root _ endOpt hlm]
      rw [scanLoop_spec store chain hch endOpt fuel 0 hlen 0 (by omega)]
      rw [List.drop_zero]
      have hchain : (store (chain.get ⟨0, hlen⟩)).entries ++
          segEntries store chain 1 chain.length =
          chainEntries store chain := by
        rw [← segEntries_single store chain hlen, Nat.zero_add,
          ← segEntries_split store chain (by omega) (by omega),
          segEntries_full]
      rw [hchain]
      congr 1
      cases endOpt with
      | none => simp [endTrim, scanCond]
      | some en =>
        have h3 : (chainEntries store chain).filter
            (fun e => scanCond none (some en) e.1) =
            (chainEntries store chain).filter
              (fun e => keyLtB e.1 en) :=
          List.filter_congr (fun e he => by simp [scanCond])
        rw [h3]
        simp only [endTrim]
        exact takeWhile_eq_filter_sorted en _ hsorted
    | some s =>
      obtain ⟨d, lpd, hd0, hdlen, hdget, hdfind, hdleft, hdright⟩ :=
        subtree_descent store chain h root 0 chain.length htree fuel
          (by omega) s
      rw [List.get?_eq_get hdlen] at hdget
      injection hdget with hdg
      rw [← hdg] at hdfind
      obtain ⟨F, hF, hFle, hFeq, hFbefore, hFflag⟩ :=
        walk_spec store chain hch hsorted hne s fuel d hdlen d
          (Or.inl rfl) (by omega)
      have hleafsorted :
          ((store (chain.get ⟨F, hF⟩)).entries).Pairwise entryLe := by
        have hx := @seg_sorted store chain hsorted F (F + 1)
        rw [segEntries_single store chain hF] at hx
        exact hx
      obtain ⟨hkp_le, hkp_take, hkp_drop⟩ :=
        find_key_position_spec (store (chain.get ⟨F, hF⟩)).entries s
          hleafsorted
      rw [range_scan_eq_scan_start store fuel root _ _ s endOpt hdfind
        hFeq]
      rw [scanLoop_spec store chain hch endOpt fuel F hF _ (by omega)]
      have hsplit1 : chainEntries store chain =
          segEntries store chain 0 F ++
            segEntries store chain F chain.length := by
        rw [← segEntries_split store chain (Nat.zero_le F) (le_of_lt hF),
          segEntries_full]
      have hsplit2 : segEntries store chain F chain.length =
          (store (chain.get ⟨F, hF⟩)).entries ++
            segEntries store chain (F + 1) chain.length := by
        rw [segEntries_split store chain (show F ≤ F + 1 by omega)
          (show F + 1 ≤ chain.length by omega),
          segEntries_single store chain hF]
      have hsegR_ge : ∀ e ∈ segEntries store chain (F + 1) chain.length,
          ¬keyLt e.1 s := by
        rcases Nat.lt_or_ge F d with hFd | hFd
        · have hg := hFflag hFd
          unfold leaf_has_keys_gte at hg
          cases hgl : (store (chain.get ⟨F, hF⟩)).entries.getLast? with
          | none =>
            rw [hgl] at hg
            have hg2 : (false : Bool) = true := hg
            cases hg2
          | some last =>
            rw [hgl] at hg
            have hg2 : (!(keyLtB last.1 s)) = true := hg
            have hlastnl : ¬keyLt last.1 s := by
              cases hb : keyLtB last.1 s with
              | true =>
                rw [hb] at hg2
                simp at hg2
              | false => exact (keyLtB_false_iff _ _).mp hb
            intro e he hkelt
            have hlastmem : last ∈ segEntries store chain 0 (F + 1) := by
              refine @mem_seg_widen_left store chain F (F + 1) last ?_
              rw [segEntries_single store chain hF]
              exact List.mem_of_mem_getLast? hgl
            have hcross : entryLe last e :=
              seg_cross store chain hsorted
                (show F + 1 ≤ chain.length by omega) hlastmem he
            exact hlastnl (cmp_lt_of_le_of_lt cmpIK_lawful
              (entryLe_key hcross) hkelt)
        · have hFd2 : F = d := by omega
          intro e he hlt
          rw [hFd2] at he
          have hse := hdright e he
          have hcontra := cmpIK_lawful.2.2 _ _ _ hlt hse
          rw [cmp_eq_refl cmpIK_lawful] at hcontra
          cases hcontra
      have hD : ∀ e ∈ segEntries store chain 0 F ++
          ((store (chain.get ⟨F, hF⟩)).entries.take
            (find_key_position (store (chain.get ⟨F, hF⟩)).entries s)),
          keyLt e.1 s := by
        intro e he
        rcases List.mem_append.mp he with he2 | he2
        · exact hFbefore e he2
        · exact hkp_take e he2
      have hR : ∀ e ∈ ((store (chain.get ⟨F, hF⟩)).entries.drop
          (find_key_position (store (chain.get ⟨F, hF⟩)).entries s)) ++
          segEntries store chain (F + 1) chain.length,
          ¬keyLt e.1 s := by
        intro e he
        rcases List.mem_append.mp he with he2 | he2
        · exact hkp_drop e he2
        · exact hsegR_ge e he2
      have hsubl : (((store (chain.get ⟨F, hF⟩)).entries.drop
          (find_key_position (store (chain.get ⟨F, hF⟩)).entries s)) ++
          segEntries store chain (F + 1) chain.length).Sublist
          (chainEntries store chain) := by
        rw [hsplit1, hsplit2]
        exact ((List.drop_sublist _ _).append
          (List.Sublist.refl _)).trans (List.sublist_append_right _ _)
      have hRsorted := List.Pairwise.sublist hsubl hsorted
      have hchainDR : chainEntries store chain =
          (segEntries store chain 0 F ++
            ((store (chain.get ⟨F, hF⟩)).entries.take
              (find_key_position (store (chain.get ⟨F, hF⟩)).entries
                s))) ++
          (((store (chain.get ⟨F, hF⟩)).entries.drop
            (find_key_position (store (chain.get ⟨F, hF⟩)).entries s)) ++
            segEntries store chain (F + 1) chain.length) := by
        rw [hsplit1, hsplit2]
        simp only [List.append_assoc]
        congr 1
        rw [← List.append_assoc, List.take_append_drop]
      congr 1
      rw [hchainDR, filter_cond_split s endOpt _ _ hD hR hRsorted]
  · intro hs he
    cases startOpt with
    | none => exact absurd rfl hs
    | some s =>
      rw [← he]
      rw [List.filter_eq_nil]
      intro e he2
      cases hb : keyLtB e.1 s <;> simp [scanCond, hb]

/-- Closed instance of the conditional scan lemma on the two-leaf tree
with a duplicate key spanning the leaf boundary, scanning `[2, 3)`. -/
theorem btree_range_scan_is_filter_witness :
    range_scan c4Store (some 1) 4 (some (c4key 2)) (some (c4key 3)) =
      some ((chainEntries c4Store c4Chain).filter
        (fun e => scanCond (some (c4key 2)) (some (c4key 3)) e.1)) ∧
    ((chainEntries c4Store c4Chain).filter
      (fun e => scanCond (some (c4key 2)) (some (c4key 3)) e.1)).Pairwise
      entryLe ∧
    (some (c4key 2) ≠ none → some (c4key 2) = some (c4key 3) →
      (chainEntries c4Store c4Chain).filter
        (fun e => scanCond (some (c4key 2)) (some (c4key 3)) e.1) = []) :=
  btree_range_scan_is_filter c4Store c4Chain 1 1 4 (some (c4key 2))
    (some (c4key 3))
    (fun i h => by
      rcases i with _ | _ | i
      · exact ⟨rfl, rfl, rfl⟩
      · exact ⟨rfl, rfl, rfl⟩
      · have h2 : i + 1 + 1 < 2 := h
        omega)
    (by decide)
    (fun h1 i hi => by
      rcases i with _ | _ | i
      · exact (by decide : (c4Store 10).entries ≠ [])
      · exact (by decide : (c4Store 11).entries ≠ [])
      · have h2 : i + 1 + 1 < 2 := hi
        omega)
    (Or.inr ⟨[(c4key 2, 10)], 11, rfl,
      ⟨1, ⟨rfl, rfl, rfl⟩, ⟨rfl, rfl, rfl⟩, by decide, by decide⟩⟩)
    (by decide)

/-- A split writes only the source and the new page: every other page —
in particular the old successor, whose `prev` still points at the source
— is left untouched. -/
theorem insertWithSplit_untouched (store : Nat → BNode)
    (leaf_id new_id : Nat) (key : IndexKey) (rid : Rid) (pid : Nat)
    (h1 : pid ≠ leaf_id) (h2 : pid ≠ new_id) :
    (insertWithSplit store leaf_id new_id key rid).1 pid = store pid := by
  cases hst : store leaf_id with
  | internal kcs rm => simp only [insertWithSplit, hst]
  | leaf es prev next =>
    simp only [insertWithSplit, hst]
    split
    · simp [h1, h2]
    · simp [h1, h2]

/-- C4: `range_scan` does not return every stored entry of the range.
Splitting a non-tail leaf (`LeafNode::split`, `btree_leaf.rs` lines
310–316, driven by `insert_into_leaf`, `btree.rs` lines 272–298) links
the new page into the `next` chain and sets its own `prev`, but never
repoints the old successor's `prev`.  The backward walk of
`find_first_leaf_with_key` then follows the stale `prev`, skips the new
leaf, and the scan misses duplicates of the start key stored there —
the very case the claim singles out.  Concretely: the leaves of
`c4BugStore` are exactly what the transcribed split produces from
`c4PreStore` (conjuncts 1–5: pages 10 and 12 rewritten, page 11
untouched with `prev` still 10 although 12 now sits between, split key 4
propagated), yet `range_scan` over `[10, 11)` returns only leaf 11's
four entries and omits the stored in-range entry
`(key 10, rid (100, 0))` of leaf 12. -/
theorem btree_range_scan_misses_split_duplicates :
    (insertWithSplit c4PreStore 10 12 (c4key 6) ⟨201, 6⟩).1 10 =
      c4BugStore 10 ∧
    (insertWithSplit c4PreStore 10 12 (c4key 6) ⟨201, 6⟩).1 12 =
      c4BugStore 12 ∧
    (insertWithSplit c4PreStore 10 12 (c4key 6) ⟨201, 6⟩).1 11 =
      c4PreStore 11 ∧
    (insertWithSplit c4PreStore 10 12 (c4key 6) ⟨201, 6⟩).2 = c4key 4 ∧
    c4PreStore 11 = c4BugStore 11 ∧
    (c4BugStore 10).nextLeaf = some 12 ∧
    (c4BugStore 12).nextLeaf = some 11 ∧
    (c4BugStore 11).prevLeaf = some 10 ∧
    range_scan c4BugStore (some 1) 4 (some (c4key 10))
      (some (c4key 11)) = some c4MissedResult ∧
    (c4key 10, (⟨100, 0⟩ : Rid)) ∈ (c4BugStore 12).entries ∧
    scanCond (some (c4key 10)) (some (c4key 11)) (c4key 10) = true ∧
    (c4key 10, (⟨100, 0⟩ : Rid)) ∉ c4MissedResult := by
  refine ⟨rfl, rfl, rfl, rfl, rfl, rfl, rfl, rfl, rfl, ?_, rfl, ?_⟩
  · decide
  · decide

end Rdbms
